import Mathlib

/-!
# Dubins paths: a shallow embedding of `dohyeunglee/dubins`

The Go package computes the six canonical Dubins path candidates between two
planar poses, selects the shortest and samples poses along a path.

The program is read twice.

* Over the reals: `float64` is `ℝ`, `math.Sqrt`, `math.Sin`, `math.Cos`,
  `math.Acos`, `math.Floor`, `math.Abs` are the real functions, and
  `math.Atan2 y x` is the argument of the complex number `x + y i`
  (the angle in `(-π, π]`, `0` at the origin). This reading carries the statements
  that are about exact arithmetic.
* In `float64`: the type `Float64` gives the values and operations of IEEE 754
  binary64, and the namespace `Binary64` holds the same program on it. This reading
  settles what the program does where rounding, overflow, underflow or a NaN decide.

Modelling conventions common to both.

* The string types `PathType` and `PathCourseType` are strings.
* A Go `panic` is `Except.error` carrying the panic message.
* Methods with a pointer receiver that mutate (`setTuringRadius`) return the
  updated value.
* Ranging over the Go map `pathTypeFuncMap` visits its entries once each in an
  unspecified order; the order is an explicit argument `order`, a permutation
  of the entries of the map.
-/

namespace Dubins

noncomputable section

/-! ## algorithm.go / dubins.go : types and constants -/

/-- The constant `twoPi = 2 * math.Pi`. -/
def twoPi : ℝ := 2 * Real.pi

/-- The constant `math.MaxFloat64 = 0x1p1023 * (1 + (1 - 0x1p-52))`. -/
def MaxFloat64 : ℝ := 2 ^ 1023 * (1 + (1 - 1 / 2 ^ 52))

/-- The function `math.Atan2(y, x)` over the reals. -/
def atan2 (y x : ℝ) : ℝ := Complex.arg ⟨x, y⟩

/-- Go type `PathCourseType string`. -/
abbrev PathCourseType := String

abbrev CourseTypeLeft : PathCourseType := "L"
abbrev CourseTypeStraight : PathCourseType := "S"
abbrev CourseTypeRight : PathCourseType := "R"

/-- Go type `PathType string`. -/
abbrev PathType := String

abbrev LSL : PathType := "LSL"
abbrev LSR : PathType := "LSR"
abbrev RSL : PathType := "RSL"
abbrev RSR : PathType := "RSR"
abbrev RLR : PathType := "RLR"
abbrev LRL : PathType := "LRL"

structure PathSegment where
  Length : ℝ
  CourseType : PathCourseType

/-- Go type `State`: x, y coordinate and yaw angle. -/
structure State where
  X : ℝ
  Y : ℝ
  Yaw : ℝ

/-- Go type `Path`. -/
structure Path where
  t : ℝ
  p : ℝ
  q : ℝ
  pathType : PathType
  totalLength : ℝ
  segments : List PathSegment
  turningRadius : ℝ
  origin : State

/-- The zero value `Path{}`. -/
def Path.zero : Path :=
  { t := 0, p := 0, q := 0, pathType := "", totalLength := 0, segments := [],
    turningRadius := 0, origin := ⟨0, 0, 0⟩ }

structure pathParams where
  alpha : ℝ
  beta : ℝ
  d : ℝ
  sinAlpha : ℝ
  sinBeta : ℝ
  cosAlpha : ℝ
  cosBeta : ℝ
  cosAlphaMinusBeta : ℝ
  dSquare : ℝ

/-- Go type `pathTypeFunc func(pathParams) (Path, bool)`. -/
abbrev pathTypeFunc := pathParams → Path × Bool

/-! ## algorithm.go : angle normalisation and the six family formulas -/

def fmodr (x y : ℝ) : ℝ := x - y * (⌊x / y⌋ : ℝ)

def mod2pi (theta : ℝ) : ℝ := fmodr theta twoPi

def lsl (pp : pathParams) : Path × Bool :=
  let pSquare := 2 + pp.dSquare - 2 * pp.cosAlphaMinusBeta + 2 * pp.d * (pp.sinAlpha - pp.sinBeta)
  if pSquare < 0 then (Path.zero, false)
  else
    let tmp := atan2 (pp.cosBeta - pp.cosAlpha) (pp.d + pp.sinAlpha - pp.sinBeta)
    ({ Path.zero with
        t := mod2pi (tmp - pp.alpha)
        p := Real.sqrt pSquare
        q := mod2pi (pp.beta - tmp)
        pathType := LSL }, true)

def rsr (pp : pathParams) : Path × Bool :=
  let pSquare := 2 + pp.dSquare - 2 * pp.cosAlphaMinusBeta + 2 * pp.d * (pp.sinBeta - pp.sinAlpha)
  if pSquare < 0 then (Path.zero, false)
  else
    let tmp := atan2 (pp.cosAlpha - pp.cosBeta) (pp.d - pp.sinAlpha + pp.sinBeta)
    ({ Path.zero with
        t := mod2pi (pp.alpha - tmp)
        p := Real.sqrt pSquare
        q := mod2pi (tmp - pp.beta)
        pathType := RSR }, true)

def lsr (pp : pathParams) : Path × Bool :=
  let pSquare := -2 + pp.dSquare + 2 * pp.cosAlphaMinusBeta + 2 * pp.d * (pp.sinAlpha + pp.sinBeta)
  if pSquare < 0 then (Path.zero, false)
  else
    let p := Real.sqrt pSquare
    let tmp := atan2 (-pp.cosAlpha - pp.cosBeta) (pp.d + pp.sinAlpha + pp.sinBeta) - atan2 (-2) p
    let t := mod2pi (tmp - pp.alpha)
    let q := mod2pi (tmp - mod2pi pp.beta)
    ({ Path.zero with t := t, p := p, q := q, pathType := LSR }, true)

def rsl (pp : pathParams) : Path × Bool :=
  let pSquare := -2 + pp.dSquare + 2 * pp.cosAlphaMinusBeta - 2 * pp.d * (pp.sinAlpha + pp.sinBeta)
  if pSquare < 0 then (Path.zero, false)
  else
    let p := Real.sqrt pSquare
    let tmp := atan2 (pp.cosAlpha + pp.cosBeta) (pp.d - pp.sinAlpha - pp.sinBeta) - atan2 2 p
    let t := mod2pi (pp.alpha - tmp)
    let q := mod2pi (pp.beta - tmp)
    ({ Path.zero with t := t, p := p, q := q, pathType := RSL }, true)

def rlr (pp : pathParams) : Path × Bool :=
  let tmp := (6 - pp.dSquare + 2 * pp.cosAlphaMinusBeta + 2 * pp.d * (pp.sinAlpha - pp.sinBeta)) / 8
  if |tmp| > 1 then (Path.zero, false)
  else
    let phi := atan2 (pp.cosAlpha - pp.cosBeta) (pp.d - pp.sinAlpha + pp.sinBeta)
    let p := mod2pi (twoPi - Real.arccos tmp)
    let t := mod2pi (pp.alpha - phi + mod2pi (p / 2))
    let q := mod2pi (pp.alpha - pp.beta - t + mod2pi p)
    ({ Path.zero with t := t, p := p, q := q, pathType := RLR }, true)

def lrl (pp : pathParams) : Path × Bool :=
  let tmp := (6 - pp.dSquare + 2 * pp.cosAlphaMinusBeta + 2 * pp.d * (pp.sinBeta - pp.sinAlpha)) / 8
  if |tmp| > 1 then (Path.zero, false)
  else
    let phi := atan2 (pp.cosAlpha - pp.cosBeta) (pp.d + pp.sinAlpha - pp.sinBeta)
    let p := mod2pi (twoPi - Real.arccos tmp)
    let t := mod2pi (-pp.alpha - phi + p / 2)
    let q := mod2pi (mod2pi pp.beta - pp.alpha - t + mod2pi p)
    ({ Path.zero with t := t, p := p, q := q, pathType := LRL }, true)

/-- The map `pathTypeFuncMap`, as the list of its entries. -/
def pathTypeFuncMap : List (PathType × pathTypeFunc) :=
  [(LSL, lsl), (LSR, lsr), (RSL, rsl), (RSR, rsr), (RLR, rlr), (LRL, lrl)]

/-- The map `pathTypeCourseTypesMap`, as the list of its entries. -/
def pathTypeCourseTypesMap : List (PathType × List PathCourseType) :=
  [(LSL, [CourseTypeLeft, CourseTypeStraight, CourseTypeLeft]),
   (LSR, [CourseTypeLeft, CourseTypeStraight, CourseTypeRight]),
   (RSL, [CourseTypeRight, CourseTypeStraight, CourseTypeLeft]),
   (RSR, [CourseTypeRight, CourseTypeStraight, CourseTypeRight]),
   (RLR, [CourseTypeRight, CourseTypeLeft, CourseTypeRight]),
   (LRL, [CourseTypeLeft, CourseTypeRight, CourseTypeLeft])]

/-! ## dubins.go -/

/-- Method `Length`. -/
def Path.Length (p : Path) : ℝ := p.totalLength

/-- Method `PathType`. -/
def Path.PathType (p : Path) : Dubins.PathType := p.pathType

/-- Method `Segments`. -/
def Path.Segments (p : Path) : List PathSegment := p.segments

/-- One round of the loop of `setTuringRadius`: add the length to the total and
append the segment. -/
def setTuringRadiusStep (p : Path) (lc : ℝ × PathCourseType) : Path :=
  { p with
    totalLength := p.totalLength + lc.1
    segments := p.segments ++ [{ Length := lc.1, CourseType := lc.2 }] }

/-- Method `setTuringRadius`; an index into a missing map entry reads the zero
value of `[3]PathCourseType`. -/
def Path.setTuringRadius (p : Path) (turingRadius : ℝ) : Path :=
  let p := { p with turningRadius := turingRadius }
  let p := { p with t := p.t * p.turningRadius }
  let p := { p with p := p.p * p.turningRadius }
  let p := { p with q := p.q * p.turningRadius }
  let lengths := [p.t, p.p, p.q]
  let courseTypes := (pathTypeCourseTypesMap.lookup p.pathType).getD ["", "", ""]
  let p := { p with segments := [] }
  (lengths.zip courseTypes).foldl setTuringRadiusStep p

def toPathParams (start goal : State) (turningRadius : ℝ) : Except String pathParams :=
  if turningRadius ≤ 0 then .error "turningRadius must be greater than zero"
  else
    let dx := goal.X - start.X
    let dy := goal.Y - start.Y
    let D := Real.sqrt (dx * dx + dy * dy)
    let theta := if D > 0 then mod2pi (atan2 dy dx) else 0
    let alpha := mod2pi (start.Yaw - theta)
    let beta := mod2pi (goal.Yaw - theta)
    let d := D / turningRadius
    .ok { alpha := alpha
          beta := beta
          d := d
          sinAlpha := Real.sin alpha
          sinBeta := Real.sin beta
          cosAlpha := Real.cos alpha
          cosBeta := Real.cos beta
          cosAlphaMinusBeta := Real.cos (alpha - beta)
          dSquare := d * d }

def stateAtDistance (start : State) (deltaDistance : ℝ) (courseType : PathCourseType)
    (turningRadius : ℝ) : Except String State :=
  if deltaDistance = 0 then .ok start
  else
    let phi := deltaDistance / turningRadius
    if courseType = CourseTypeLeft then
      let deltaX := turningRadius * Real.sin (start.Yaw + phi) - turningRadius * Real.sin start.Yaw
      let deltaY := turningRadius * -Real.cos (start.Yaw + phi) + turningRadius * Real.cos start.Yaw
      let deltaYaw := phi
      .ok { X := start.X + deltaX, Y := start.Y + deltaY, Yaw := start.Yaw + deltaYaw }
    else if courseType = CourseTypeRight then
      let deltaX := turningRadius * -Real.sin (start.Yaw - phi) + turningRadius * Real.sin start.Yaw
      let deltaY := turningRadius * Real.cos (start.Yaw - phi) - turningRadius * Real.cos start.Yaw
      let deltaYaw := -phi
      .ok { X := start.X + deltaX, Y := start.Y + deltaY, Yaw := start.Yaw + deltaYaw }
    else if courseType = CourseTypeStraight then
      let deltaX := deltaDistance * Real.cos start.Yaw
      let deltaY := deltaDistance * Real.sin start.Yaw
      let deltaYaw := 0
      .ok { X := start.X + deltaX, Y := start.Y + deltaY, Yaw := start.Yaw + deltaYaw }
    else .error "unknown course type"

/-- The loop of `sample` over the remaining segments: `distance` is the distance
still to travel and `start` the running pose. -/
def sampleLoop (turningRadius : ℝ) : List PathSegment → ℝ → State → Except String State
  | [], _, start => .ok start
  | segment :: rest, distance, start =>
    let deltaDistance := min distance segment.Length
    let distance := distance - deltaDistance
    match stateAtDistance start deltaDistance segment.CourseType turningRadius with
    | .error e => .error e
    | .ok start => if distance ≤ 0 then .ok start else sampleLoop turningRadius rest distance start

/-- Method `sample`. -/
def Path.sample (p : Path) (distance : ℝ) : Except String State :=
  if distance ≤ 0 then .ok p.origin
  else
    let distance := min distance p.Length
    sampleLoop p.turningRadius p.segments distance p.origin

def PathByType (start goal : State) (turingRadius : ℝ) (pathType : PathType) :
    Except String (Path × Bool) :=
  match toPathParams start goal turingRadius with
  | .error e => .error e
  | .ok pp =>
    if pp.alpha = 0 ∧ pp.beta = 0 ∧ pp.d = 0 then .ok (Path.zero, false)
    else
      match pathTypeFuncMap.lookup pathType with
      | none => .error "unknown path type"
      | some f =>
        let res := f pp
        if res.2 = false then .ok (Path.zero, false)
        else
          let path := res.1.setTuringRadius turingRadius
          if path.Length ≤ 0 then .ok (Path.zero, false)
          else .ok ({ path with origin := start }, true)

/-- One round of the range loop of `AvailablePaths` with the map entry `entry`. -/
def availablePathsStep (pp : pathParams) (start : State) (turingRadius : ℝ)
    (paths : List Path) (entry : PathType × pathTypeFunc) : List Path :=
  let res := entry.2 pp
  if res.2 = false then paths
  else
    let path := res.1.setTuringRadius turingRadius
    if path.Length ≤ 0 then paths
    else paths ++ [{ path with origin := start }]

/-- Function `AvailablePaths`; `order` is the order in which the range loop
visits the entries of `pathTypeFuncMap`. -/
def AvailablePaths (order : List (PathType × pathTypeFunc)) (start goal : State)
    (turingRadius : ℝ) : Except String (List Path) :=
  match toPathParams start goal turingRadius with
  | .error e => .error e
  | .ok pp =>
    if pp.alpha = 0 ∧ pp.beta = 0 ∧ pp.d = 0 then .ok []
    else .ok (order.foldl (availablePathsStep pp start turingRadius) [])

/-- One round of the loop of `MinLengthPath` on the pair `(minLength, bestPath)`. -/
def minLengthStep (acc : ℝ × Path) (path : Path) : ℝ × Path :=
  let length := path.Length
  if length < acc.1 then (length, path) else acc

def MinLengthPath (order : List (PathType × pathTypeFunc)) (start goal : State)
    (turningRadius : ℝ) : Except String (Path × Bool) :=
  match AvailablePaths order start goal turningRadius with
  | .error e => .error e
  | .ok paths =>
    if paths.length = 0 then .ok (Path.zero, false)
    else .ok ((paths.foldl minLengthStep (MaxFloat64, Path.zero)).2, true)

/-! ## Auxiliary notions used in the proofs -/

/-- The unit complex number of direction `x`. -/
def E (x : ℝ) : ℂ := Complex.exp (x * Complex.I)

/-- The position of a pose as a complex number. -/
def pos (s : State) : ℂ := ⟨s.X, s.Y⟩

/-- The pose `stateAtDistance` computes on one of the three course types when it
does not take the early return. -/
def move (s : State) (l : ℝ) (c : PathCourseType) (r : ℝ) : State :=
  if c = CourseTypeLeft then
    { X := s.X + (r * Real.sin (s.Yaw + l / r) - r * Real.sin s.Yaw)
      Y := s.Y + (r * -Real.cos (s.Yaw + l / r) + r * Real.cos s.Yaw)
      Yaw := s.Yaw + l / r }
  else if c = CourseTypeRight then
    { X := s.X + (r * -Real.sin (s.Yaw - l / r) + r * Real.sin s.Yaw)
      Y := s.Y + (r * Real.cos (s.Yaw - l / r) - r * Real.cos s.Yaw)
      Yaw := s.Yaw + -(l / r) }
  else
    { X := s.X + l * Real.cos s.Yaw
      Y := s.Y + l * Real.sin s.Yaw
      Yaw := s.Yaw + 0 }

/-- The loop of `Interpolate`: `distance` is the loop variable and `states` the
slice built so far. The Go loop has no bound on its number of rounds; `fuel` bounds
them here, and `none` means the bound was reached before the loop ended. -/
def interpolateLoop (p : Path) (stepSize : ℝ) :
    ℕ → ℝ → List State → Option (Except String (List State))
  | 0, _, _ => none
  | fuel + 1, distance, states =>
    if distance ≤ p.Length then
      match p.sample distance with
      | .error e => some (.error e)
      | .ok s => interpolateLoop p stepSize fuel (distance + stepSize) (states ++ [s])
    else some (.ok states)

/-- Method `Interpolate`, run for at most `fuel` rounds of its loop. -/
def Path.Interpolate (p : Path) (fuel : ℕ) (stepSize : ℝ) :
    Option (Except String (List State)) :=
  interpolateLoop p stepSize fuel 0 []

/-- The pose `sample` returns, read as a pose (the origin if `sample` panics). -/
def samplePose (p : Path) (distance : ℝ) : State :=
  match p.sample distance with
  | .ok s => s
  | .error _ => p.origin

/-- The distance `D` between the positions of two poses, as `toPathParams`
computes it. -/
def distance (start goal : State) : ℝ :=
  Real.sqrt ((goal.X - start.X) * (goal.X - start.X) + (goal.Y - start.Y) * (goal.Y - start.Y))

/-- The direction `theta` from start to goal, as `toPathParams` computes it. -/
def direction (start goal : State) : ℝ :=
  if distance start goal > 0 then mod2pi (atan2 (goal.Y - start.Y) (goal.X - start.X)) else 0

/-- A pose with its position multiplied by `k` and its heading unchanged. -/
def scaleState (k : ℝ) (s : State) : State := ⟨k * s.X, k * s.Y, s.Yaw⟩

/-! ## The arithmetic of `float64`

The program computes in Go's `float64`, IEEE 754 binary64 with round to nearest,
ties to even. The definitions below give its values and operations exactly; each
operation rounds once, as on amd64 where the Go compiler fuses no two operations. They serve to evaluate the
program at inputs where rounding, overflow, underflow or a NaN decide what it does.
A finite value is kept as a whole number of units of `2^(-1074)`, the spacing of the
smallest values, so that sums are exact before they are rounded. -/

/-- Values of Go's `float64` (IEEE 754 binary64): not-a-number, the two infinities,
and the finite values. `fin neg n` is the number `n · 2^(-1074)` with sign `neg`
(`true` for negative), one unit being the smallest positive subnormal. -/
inductive Float64 where
  | nan : Float64
  | inf (neg : Bool) : Float64
  | fin (neg : Bool) (n : Nat) : Float64
deriving DecidableEq

namespace Float64

/-- The value `m / 2^k` (for `k ≤ 1074`). -/
def dyadic (m k : Nat) : Float64 := .fin false (m * 2 ^ (1074 - k))

/-- Binary search for the position of the top bit: with `2^k ≤ n` already known,
try to raise `k` by `b`, then by `b / 2`, and so on down to `1`. -/
def log2Loop : Nat → Nat → Nat → Nat → Nat
  | 0, _, _, k => k
  | fuel + 1, n, b, k =>
    if 2 ^ (k + b) ≤ n then log2Loop fuel n (b / 2) (k + b) else log2Loop fuel n (b / 2) k

/-- The position `⌊log₂ n⌋` of the top bit of `n`, for `1 ≤ n < 2^8192`; `0` for
`n = 0`. -/
def log2 (n : Nat) : Nat := log2Loop 13 n 4096 0

/-- Round to nearest, ties to even: the `float64` nearest to `p / q` units, for
`q > 0`, with sign `neg`. Up to `2^53` units every whole number of units is a value;
above, the values are the multiples of `2^k` with 53 significant bits; a result of
`2^2098` units (`2^1024`) or more is an infinity. -/
def round (neg : Bool) (p q : Nat) : Float64 :=
  let k := log2 (p / q) - 52
  let s := q * 2 ^ k
  let f := p / s
  let r := p % s
  let m := if 2 * r < s ∨ (2 * r = s ∧ f % 2 = 0) then f else f + 1
  if 2 ^ 2098 ≤ m * 2 ^ k then .inf neg else .fin neg (m * 2 ^ k)

/-- Unary minus. -/
def neg : Float64 → Float64
  | .nan => .nan
  | .inf s => .inf (!s)
  | .fin s n => .fin (!s) n

/-- Addition `x + y`: a NaN if either operand is one, infinities of opposite signs
add up to a NaN, an exact sum of zero is `+0` unless both operands are `-0`, and any
other sum is rounded. -/
def add (x y : Float64) : Float64 :=
  match y with
  | .nan => .nan
  | .inf t =>
    match x with
    | .nan => .nan
    | .inf s => if s = t then .inf s else .nan
    | .fin _ _ => .inf t
  | .fin t b =>
    match x with
    | .nan => .nan
    | .inf s => .inf s
    | .fin s a =>
      if s = t then round s (a + b) 1
      else if a = b then .fin false 0
      else if b < a then round s (a - b) 1
      else round t (b - a) 1

/-- Subtraction `x - y`. -/
def sub (x y : Float64) : Float64 := add x (neg y)

/-- Multiplication `x * y`. -/
def mul : Float64 → Float64 → Float64
  | .nan, _ => .nan
  | _, .nan => .nan
  | .inf s, .inf t => .inf (s != t)
  | .inf s, .fin t b => if b = 0 then .nan else .inf (s != t)
  | .fin s a, .inf t => if a = 0 then .nan else .inf (s != t)
  | .fin s a, .fin t b => round (s != t) (a * b) (2 ^ 1074)

/-- Division `x / y`. -/
def div : Float64 → Float64 → Float64
  | .nan, _ => .nan
  | _, .nan => .nan
  | .inf _, .inf _ => .nan
  | .inf s, .fin t _ => .inf (s != t)
  | .fin s _, .inf t => .fin (s != t) 0
  | .fin s a, .fin t b =>
    if b = 0 then (if a = 0 then .nan else .inf (s != t))
    else round (s != t) (a * 2 ^ 1074) b

/-- Comparison `x < y`. -/
def lt : Float64 → Float64 → Bool
  | .nan, _ => false
  | _, .nan => false
  | .inf s, .inf t => s && !t
  | .inf s, .fin _ _ => s
  | .fin _ _, .inf t => !t
  | .fin false a, .fin false b => decide (a < b)
  | .fin true a, .fin true b => decide (b < a)
  | .fin true a, .fin false b => !(a == 0 && b == 0)
  | .fin false _, .fin true _ => false

/-- Comparison `x == y`: the two zeros are equal, a NaN equals nothing. -/
def eq : Float64 → Float64 → Bool
  | .nan, _ => false
  | _, .nan => false
  | .inf s, .inf t => s == t
  | .inf _, .fin _ _ => false
  | .fin _ _, .inf _ => false
  | .fin s a, .fin t b => (a == 0 && b == 0) || (s == t && a == b)

/-- Comparison `x <= y`. -/
def le (x y : Float64) : Bool := lt x y || eq x y

/-- Comparison `x > y`. -/
def gt (x y : Float64) : Bool := lt y x

/-- The function `math.Abs`. -/
def Abs : Float64 → Float64
  | .nan => .nan
  | .inf _ => .inf false
  | .fin _ n => .fin false n

/-- The builtin `min` on two `float64`: a NaN if either is one, and the negative
zero is below the positive one. -/
def min (x y : Float64) : Float64 :=
  match x, y with
  | .nan, _ => .nan
  | _, .nan => .nan
  | _, _ => if lt x y then x else if lt y x then y
    else match x with
      | .fin true _ => x
      | _ => y

/-- The function `math.Floor`. -/
def Floor : Float64 → Float64
  | .nan => .nan
  | .inf s => .inf s
  | .fin false n => .fin false (n / 2 ^ 1074 * 2 ^ 1074)
  | .fin true n => .fin true ((n + (2 ^ 1074 - 1)) / 2 ^ 1074 * 2 ^ 1074)

/-- Newton iteration from above for the integer square root. -/
def isqrtLoop : Nat → Nat → Nat → Nat
  | 0, _, x => x
  | fuel + 1, n, x =>
    let y := (x + n / x) / 2
    if y < x then isqrtLoop fuel n y else x

/-- The integer square root `⌊√n⌋`, by Newton iteration from a power of two above
the root. -/
def isqrt (n : Nat) : Nat :=
  if n = 0 then 0 else isqrtLoop (log2 n + 2) n (2 ^ (log2 n / 2 + 1))

/-- The function `math.Sqrt`, correctly rounded. The root of `n` units is
`√(n · 2^1074)` units. -/
def Sqrt : Float64 → Float64
  | .nan => .nan
  | .inf false => .inf false
  | .inf true => .nan
  | .fin s n =>
    if n = 0 then .fin s 0
    else if s then .nan
    else
      let N := n * 2 ^ 1074
      let k := log2 (isqrt N) - 52
      let f := isqrt (N / 4 ^ k)
      let m := if 4 * N < (2 * f + 1) ^ 2 * 4 ^ k ∨
        (4 * N = (2 * f + 1) ^ 2 * 4 ^ k ∧ f % 2 = 0) then f else f + 1
      .fin false (m * 2 ^ k)

end Float64

/-! ## The program in `float64`

The same functions of `algorithm.go` and `dubins.go` as above, now on `Float64`.
The functions of package `math` that only have a documentation, not an exact
definition, take their values from a parameter `m : Libm` wherever that documentation
fixes none. -/

instance : Add Float64 := ⟨Float64.add⟩
instance : Sub Float64 := ⟨Float64.sub⟩
instance : Mul Float64 := ⟨Float64.mul⟩
instance : Div Float64 := ⟨Float64.div⟩
instance : Neg Float64 := ⟨Float64.neg⟩

/-- The whole number `n` as a `float64` (exact below `2^53`). -/
def Float64.ofNat (n : Nat) : Float64 := .fin false (n * 2 ^ 1074)

/-- A whole-number constant of the program. -/
instance (n : Nat) : OfNat Float64 n := ⟨Float64.ofNat n⟩

/-- The values of `math.Sin`, `math.Cos`, `math.Acos` and `math.Atan2` at the
arguments where the documentation of package `math` fixes none. The package is not
part of the repository, and these values are left open: what is proved with a
`Libm` holds whatever they are. -/
structure Libm where
  sin : Float64 → Float64
  cos : Float64 → Float64
  acos : Float64 → Float64
  atan2 : Float64 → Float64 → Float64

/-- The function `math.Sin`: `Sin(±0) = ±0`, `Sin(±Inf) = NaN`, `Sin(NaN) = NaN`. -/
def Libm.Sin (m : Libm) (x : Float64) : Float64 :=
  match x with
  | .nan => .nan
  | .inf _ => .nan
  | .fin s n => if n = 0 then .fin s 0 else m.sin x

/-- The function `math.Cos`: `Cos(±Inf) = NaN` and `Cos(NaN) = NaN` by its
documentation, and `Cos(±0) = 1`, which its polynomial gives exactly. -/
def Libm.Cos (m : Libm) (x : Float64) : Float64 :=
  match x with
  | .nan => .nan
  | .inf _ => .nan
  | .fin _ n => if n = 0 then 1 else m.cos x

/-- The function `math.Acos`: `Acos(x) = NaN` if `x < -1` or `x > 1` or `x` is a
NaN. -/
def Libm.Acos (m : Libm) (x : Float64) : Float64 :=
  match x with
  | .nan => .nan
  | _ => if Float64.lt x (-1) || Float64.gt x 1 then .nan else m.acos x

/-- The function `math.Atan2`: a NaN if either argument is one, and
`Atan2(±0, x) = ±0` for `x ≥ 0` other than the negative zero. -/
def Libm.Atan2 (m : Libm) (y x : Float64) : Float64 :=
  match y, x with
  | .nan, _ => .nan
  | _, .nan => .nan
  | .fin s 0, .inf false => .fin s 0
  | .fin s 0, .fin false _ => .fin s 0
  | _, _ => m.atan2 y x

namespace Binary64

/-- The constant `twoPi = 2 * math.Pi` as a `float64`: `0x1.921fb54442d18p+2`. -/
def twoPi : Float64 := Float64.dyadic 7074237752028440 50

/-- The constant `math.MaxFloat64 = (2^53 - 1) · 2^971`. -/
def MaxFloat64 : Float64 := .fin false ((2 ^ 53 - 1) * 2 ^ 2045)

structure PathSegment where
  Length : Float64
  CourseType : PathCourseType

structure State where
  X : Float64
  Y : Float64
  Yaw : Float64

structure Path where
  t : Float64
  p : Float64
  q : Float64
  pathType : PathType
  totalLength : Float64
  segments : List PathSegment
  turningRadius : Float64
  origin : State

/-- The zero value `Path{}`. -/
def Path.zero : Path :=
  { t := 0, p := 0, q := 0, pathType := "", totalLength := 0, segments := [],
    turningRadius := 0, origin := ⟨0, 0, 0⟩ }

structure pathParams where
  alpha : Float64
  beta : Float64
  d : Float64
  sinAlpha : Float64
  sinBeta : Float64
  cosAlpha : Float64
  cosBeta : Float64
  cosAlphaMinusBeta : Float64
  dSquare : Float64

abbrev pathTypeFunc := pathParams → Path × Bool

def fmodr (x y : Float64) : Float64 := x - y * Float64.Floor (x / y)

def mod2pi (theta : Float64) : Float64 := fmodr theta twoPi

def lsl (m : Libm) (pp : pathParams) : Path × Bool :=
  let pSquare := 2 + pp.dSquare - 2 * pp.cosAlphaMinusBeta + 2 * pp.d * (pp.sinAlpha - pp.sinBeta)
  if Float64.lt pSquare 0 then (Path.zero, false)
  else
    let tmp := m.Atan2 (pp.cosBeta - pp.cosAlpha) (pp.d + pp.sinAlpha - pp.sinBeta)
    ({ Path.zero with
        t := mod2pi (tmp - pp.alpha)
        p := Float64.Sqrt pSquare
        q := mod2pi (pp.beta - tmp)
        pathType := LSL }, true)

def rsr (m : Libm) (pp : pathParams) : Path × Bool :=
  let pSquare := 2 + pp.dSquare - 2 * pp.cosAlphaMinusBeta + 2 * pp.d * (pp.sinBeta - pp.sinAlpha)
  if Float64.lt pSquare 0 then (Path.zero, false)
  else
    let tmp := m.Atan2 (pp.cosAlpha - pp.cosBeta) (pp.d - pp.sinAlpha + pp.sinBeta)
    ({ Path.zero with
        t := mod2pi (pp.alpha - tmp)
        p := Float64.Sqrt pSquare
        q := mod2pi (tmp - pp.beta)
        pathType := RSR }, true)

def lsr (m : Libm) (pp : pathParams) : Path × Bool :=
  let pSquare := -2 + pp.dSquare + 2 * pp.cosAlphaMinusBeta + 2 * pp.d * (pp.sinAlpha + pp.sinBeta)
  if Float64.lt pSquare 0 then (Path.zero, false)
  else
    let p := Float64.Sqrt pSquare
    let tmp := m.Atan2 (-pp.cosAlpha - pp.cosBeta) (pp.d + pp.sinAlpha + pp.sinBeta) - m.Atan2 (-2) p
    let t := mod2pi (tmp - pp.alpha)
    let q := mod2pi (tmp - mod2pi pp.beta)
    ({ Path.zero with t := t, p := p, q := q, pathType := LSR }, true)

def rsl (m : Libm) (pp : pathParams) : Path × Bool :=
  let pSquare := -2 + pp.dSquare + 2 * pp.cosAlphaMinusBeta - 2 * pp.d * (pp.sinAlpha + pp.sinBeta)
  if Float64.lt pSquare 0 then (Path.zero, false)
  else
    let p := Float64.Sqrt pSquare
    let tmp := m.Atan2 (pp.cosAlpha + pp.cosBeta) (pp.d - pp.sinAlpha - pp.sinBeta) - m.Atan2 2 p
    let t := mod2pi (pp.alpha - tmp)
    let q := mod2pi (pp.beta - tmp)
    ({ Path.zero with t := t, p := p, q := q, pathType := RSL }, true)

def rlr (m : Libm) (pp : pathParams) : Path × Bool :=
  let tmp := (6 - pp.dSquare + 2 * pp.cosAlphaMinusBeta + 2 * pp.d * (pp.sinAlpha - pp.sinBeta)) / 8
  if Float64.gt (Float64.Abs tmp) 1 then (Path.zero, false)
  else
    let phi := m.Atan2 (pp.cosAlpha - pp.cosBeta) (pp.d - pp.sinAlpha + pp.sinBeta)
    let p := mod2pi (twoPi - m.Acos tmp)
    let t := mod2pi (pp.alpha - phi + mod2pi (p / 2))
    let q := mod2pi (pp.alpha - pp.beta - t + mod2pi p)
    ({ Path.zero with t := t, p := p, q := q, pathType := RLR }, true)

def lrl (m : Libm) (pp : pathParams) : Path × Bool :=
  let tmp := (6 - pp.dSquare + 2 * pp.cosAlphaMinusBeta + 2 * pp.d * (pp.sinBeta - pp.sinAlpha)) / 8
  if Float64.gt (Float64.Abs tmp) 1 then (Path.zero, false)
  else
    let phi := m.Atan2 (pp.cosAlpha - pp.cosBeta) (pp.d + pp.sinAlpha - pp.sinBeta)
    let p := mod2pi (twoPi - m.Acos tmp)
    let t := mod2pi (-pp.alpha - phi + p / 2)
    let q := mod2pi (mod2pi pp.beta - pp.alpha - t + mod2pi p)
    ({ Path.zero with t := t, p := p, q := q, pathType := LRL }, true)

/-- The map `pathTypeFuncMap`, as the list of its entries. -/
def pathTypeFuncMap (m : Libm) : List (PathType × pathTypeFunc) :=
  [(LSL, lsl m), (LSR, lsr m), (RSL, rsl m), (RSR, rsr m), (RLR, rlr m), (LRL, lrl m)]

def Path.Length (p : Path) : Float64 := p.totalLength

def Path.Segments (p : Path) : List PathSegment := p.segments

def setTuringRadiusStep (p : Path) (lc : Float64 × PathCourseType) : Path :=
  { p with
    totalLength := p.totalLength + lc.1
    segments := p.segments ++ [{ Length := lc.1, CourseType := lc.2 }] }

def Path.setTuringRadius (p : Path) (turingRadius : Float64) : Path :=
  let p := { p with turningRadius := turingRadius }
  let p := { p with t := p.t * p.turningRadius }
  let p := { p with p := p.p * p.turningRadius }
  let p := { p with q := p.q * p.turningRadius }
  let lengths := [p.t, p.p, p.q]
  let courseTypes := (pathTypeCourseTypesMap.lookup p.pathType).getD ["", "", ""]
  let p := { p with segments := [] }
  (lengths.zip courseTypes).foldl setTuringRadiusStep p

def toPathParams (m : Libm) (start goal : State) (turningRadius : Float64) :
    Except String pathParams :=
  if Float64.le turningRadius 0 then .error "turningRadius must be greater than zero"
  else
    let dx := goal.X - start.X
    let dy := goal.Y - start.Y
    let D := Float64.Sqrt (dx * dx + dy * dy)
    let theta := if Float64.gt D 0 then mod2pi (m.Atan2 dy dx) else 0
    let alpha := mod2pi (start.Yaw - theta)
    let beta := mod2pi (goal.Yaw - theta)
    let d := D / turningRadius
    .ok { alpha := alpha
          beta := beta
          d := d
          sinAlpha := m.Sin alpha
          sinBeta := m.Sin beta
          cosAlpha := m.Cos alpha
          cosBeta := m.Cos beta
          cosAlphaMinusBeta := m.Cos (alpha - beta)
          dSquare := d * d }

def stateAtDistance (m : Libm) (start : State) (deltaDistance : Float64)
    (courseType : PathCourseType) (turningRadius : Float64) : Except String State :=
  if Float64.eq deltaDistance 0 then .ok start
  else
    let phi := deltaDistance / turningRadius
    if courseType = CourseTypeLeft then
      let deltaX := turningRadius * m.Sin (start.Yaw + phi) - turningRadius * m.Sin start.Yaw
      let deltaY := turningRadius * -m.Cos (start.Yaw + phi) + turningRadius * m.Cos start.Yaw
      let deltaYaw := phi
      .ok { X := start.X + deltaX, Y := start.Y + deltaY, Yaw := start.Yaw + deltaYaw }
    else if courseType = CourseTypeRight then
      let deltaX := turningRadius * -m.Sin (start.Yaw - phi) + turningRadius * m.Sin start.Yaw
      let deltaY := turningRadius * m.Cos (start.Yaw - phi) - turningRadius * m.Cos start.Yaw
      let deltaYaw := -phi
      .ok { X := start.X + deltaX, Y := start.Y + deltaY, Yaw := start.Yaw + deltaYaw }
    else if courseType = CourseTypeStraight then
      let deltaX := deltaDistance * m.Cos start.Yaw
      let deltaY := deltaDistance * m.Sin start.Yaw
      let deltaYaw := 0
      .ok { X := start.X + deltaX, Y := start.Y + deltaY, Yaw := start.Yaw + deltaYaw }
    else .error "unknown course type"

def sampleLoop (m : Libm) (turningRadius : Float64) :
    List PathSegment → Float64 → State → Except String State
  | [], _, start => .ok start
  | segment :: rest, distance, start =>
    let deltaDistance := Float64.min distance segment.Length
    let distance := distance - deltaDistance
    match stateAtDistance m start deltaDistance segment.CourseType turningRadius with
    | .error e => .error e
    | .ok start =>
      if Float64.le distance 0 then .ok start else sampleLoop m turningRadius rest distance start

def Path.sample (m : Libm) (p : Path) (distance : Float64) : Except String State :=
  if Float64.le distance 0 then .ok p.origin
  else
    let distance := Float64.min distance p.Length
    sampleLoop m p.turningRadius p.segments distance p.origin

def interpolateLoop (m : Libm) (p : Path) (stepSize : Float64) :
    Nat → Float64 → List State → Option (Except String (List State))
  | 0, _, _ => none
  | fuel + 1, distance, states =>
    if Float64.le distance p.Length then
      match p.sample m distance with
      | .error e => some (.error e)
      | .ok s => interpolateLoop m p stepSize fuel (distance + stepSize) (states ++ [s])
    else some (.ok states)

def Path.Interpolate (m : Libm) (p : Path) (fuel : Nat) (stepSize : Float64) :
    Option (Except String (List State)) :=
  interpolateLoop m p stepSize fuel 0 []

def PathByType (m : Libm) (start goal : State) (turingRadius : Float64) (pathType : PathType) :
    Except String (Path × Bool) :=
  match toPathParams m start goal turingRadius with
  | .error e => .error e
  | .ok pp =>
    if Float64.eq pp.alpha 0 && Float64.eq pp.beta 0 && Float64.eq pp.d 0 then
      .ok (Path.zero, false)
    else
      match (pathTypeFuncMap m).lookup pathType with
      | none => .error "unknown path type"
      | some f =>
        let res := f pp
        if res.2 = false then .ok (Path.zero, false)
        else
          let path := res.1.setTuringRadius turingRadius
          if Float64.le path.Length 0 then .ok (Path.zero, false)
          else .ok ({ path with origin := start }, true)

def availablePathsStep (pp : pathParams) (start : State) (turingRadius : Float64)
    (paths : List Path) (entry : PathType × pathTypeFunc) : List Path :=
  let res := entry.2 pp
  if res.2 = false then paths
  else
    let path := res.1.setTuringRadius turingRadius
    if Float64.le path.Length 0 then paths
    else paths ++ [{ path with origin := start }]

def AvailablePaths (m : Libm) (order : List (PathType × pathTypeFunc)) (start goal : State)
    (turingRadius : Float64) : Except String (List Path) :=
  match toPathParams m start goal turingRadius with
  | .error e => .error e
  | .ok pp =>
    if Float64.eq pp.alpha 0 && Float64.eq pp.beta 0 && Float64.eq pp.d 0 then .ok []
    else .ok (order.foldl (availablePathsStep pp start turingRadius) [])

def minLengthStep (acc : Float64 × Path) (path : Path) : Float64 × Path :=
  let length := path.Length
  if Float64.lt length acc.1 then (length, path) else acc

def MinLengthPath (m : Libm) (order : List (PathType × pathTypeFunc)) (start goal : State)
    (turningRadius : Float64) : Except String (Path × Bool) :=
  match AvailablePaths m order start goal turningRadius with
  | .error e => .error e
  | .ok paths =>
    if paths.length = 0 then .ok (Path.zero, false)
    else .ok ((paths.foldl minLengthStep (MaxFloat64, Path.zero)).2, true)

end Binary64

open Complex

/-! ## Angle normalisation -/

theorem twoPi_pos : 0 < twoPi := by
  unfold twoPi; positivity

theorem mod2pi_eq (θ : ℝ) : mod2pi θ = θ - twoPi * (⌊θ / twoPi⌋ : ℝ) := rfl

theorem mod2pi_nonneg (θ : ℝ) : 0 ≤ mod2pi θ := by
  have h := Int.floor_le (θ / twoPi)
  have h2 : twoPi * (⌊θ / twoPi⌋ : ℝ) ≤ θ := by
    have := mul_le_mul_of_nonneg_left h twoPi_pos.le
    rwa [mul_div_cancel₀ _ twoPi_pos.ne.symm] at this
  rw [mod2pi_eq]; linarith

theorem mod2pi_lt (θ : ℝ) : mod2pi θ < twoPi := by
  have h := Int.lt_floor_add_one (θ / twoPi)
  have h2 : θ < twoPi * ((⌊θ / twoPi⌋ : ℝ) + 1) := by
    have := mul_lt_mul_of_pos_left h twoPi_pos
    rwa [mul_div_cancel₀ _ twoPi_pos.ne.symm] at this
  rw [mod2pi_eq]; linarith

theorem mod2pi_sub_self (θ : ℝ) : ∃ k : ℤ, mod2pi θ - θ = k * (2 * Real.pi) :=
  ⟨-⌊θ / twoPi⌋, by rw [mod2pi_eq]; unfold twoPi; push_cast; ring⟩

/-- C9. Over the reals `mod2pi θ = θ - 2π·⌊θ/2π⌋` for every `θ`, the value lies in
`[0, 2π)`, and it differs from `θ` by an integer multiple of `2π`. -/
theorem mod2pi_floor_range_congruent (θ : ℝ) :
    mod2pi θ = θ - 2 * Real.pi * (⌊θ / (2 * Real.pi)⌋ : ℝ) ∧
      0 ≤ mod2pi θ ∧ mod2pi θ < 2 * Real.pi ∧
      ∃ k : ℤ, mod2pi θ - θ = k * (2 * Real.pi) :=
  ⟨rfl, mod2pi_nonneg θ, mod2pi_lt θ, mod2pi_sub_self θ⟩

/-! ## Course types, families and the shape of a feasible path -/

theorem courseType_ne :
    CourseTypeRight ≠ CourseTypeLeft ∧ CourseTypeStraight ≠ CourseTypeLeft ∧
      CourseTypeStraight ≠ CourseTypeRight := by decide

theorem stateAtDistance_eq_move (s : State) (l r : ℝ) (c : PathCourseType)
    (hc : c = CourseTypeLeft ∨ c = CourseTypeRight ∨ c = CourseTypeStraight) :
    stateAtDistance s l c r = .ok (move s l c r) := by
  obtain ⟨h1, h2, h3⟩ := courseType_ne
  unfold stateAtDistance move
  by_cases hl : l = 0
  · subst hl
    rcases hc with rfl | rfl | rfl <;> simp [h1, h2, h3]
  · rcases hc with rfl | rfl | rfl <;> simp [hl, h1, h2, h3]

theorem mem_funcMap_iff (k : PathType) (fn : pathTypeFunc) :
    (k, fn) ∈ pathTypeFuncMap ↔
      (k = LSL ∧ fn = lsl) ∨ (k = LSR ∧ fn = lsr) ∨ (k = RSL ∧ fn = rsl) ∨
      (k = RSR ∧ fn = rsr) ∨ (k = RLR ∧ fn = rlr) ∨ (k = LRL ∧ fn = lrl) := by
  simp [pathTypeFuncMap]

theorem lookup_funcMap (k : PathType) (fn : pathTypeFunc)
    (h : pathTypeFuncMap.lookup k = some fn) : (k, fn) ∈ pathTypeFuncMap := by
  rw [mem_funcMap_iff]
  simp only [pathTypeFuncMap, List.lookup] at h
  split at h
  · simp_all
  · split at h
    · simp_all
    · split at h
      · simp_all
      · split at h
        · simp_all
        · split at h
          · simp_all
          · split at h
            · simp_all
            · simp at h

theorem lookup_funcMap_of_mem (k : PathType) (fn : pathTypeFunc)
    (h : (k, fn) ∈ pathTypeFuncMap) : pathTypeFuncMap.lookup k = some fn := by
  rw [mem_funcMap_iff] at h
  rcases h with ⟨rfl, rfl⟩ | ⟨rfl, rfl⟩ | ⟨rfl, rfl⟩ | ⟨rfl, rfl⟩ | ⟨rfl, rfl⟩ | ⟨rfl, rfl⟩ <;>
    rfl

/-- The raw candidate with the given parameters and family. -/
theorem family_raw (k : PathType) (fn : pathTypeFunc) (hm : (k, fn) ∈ pathTypeFuncMap)
    (pp : pathParams) (h : (fn pp).2 = true) :
    ∃ t p q : ℝ, 0 ≤ t ∧ 0 ≤ p ∧ 0 ≤ q ∧
      (fn pp).1 = { Path.zero with t := t, p := p, q := q, pathType := k } := by
  rw [mem_funcMap_iff] at hm
  rcases hm with ⟨rfl, rfl⟩ | ⟨rfl, rfl⟩ | ⟨rfl, rfl⟩ | ⟨rfl, rfl⟩ | ⟨rfl, rfl⟩ | ⟨rfl, rfl⟩
  · unfold lsl at h ⊢
    dsimp only at h ⊢
    split_ifs at h ⊢ with h1
    exact ⟨_, _, _, mod2pi_nonneg _, Real.sqrt_nonneg _, mod2pi_nonneg _, rfl⟩
  · unfold lsr at h ⊢
    dsimp only at h ⊢
    split_ifs at h ⊢ with h1
    exact ⟨_, _, _, mod2pi_nonneg _, Real.sqrt_nonneg _, mod2pi_nonneg _, rfl⟩
  · unfold rsl at h ⊢
    dsimp only at h ⊢
    split_ifs at h ⊢ with h1
    exact ⟨_, _, _, mod2pi_nonneg _, Real.sqrt_nonneg _, mod2pi_nonneg _, rfl⟩
  · unfold rsr at h ⊢
    dsimp only at h ⊢
    split_ifs at h ⊢ with h1
    exact ⟨_, _, _, mod2pi_nonneg _, Real.sqrt_nonneg _, mod2pi_nonneg _, rfl⟩
  · unfold rlr at h ⊢
    dsimp only at h ⊢
    split_ifs at h ⊢ with h1
    exact ⟨_, _, _, mod2pi_nonneg _, mod2pi_nonneg _, mod2pi_nonneg _, rfl⟩
  · unfold lrl at h ⊢
    dsimp only at h ⊢
    split_ifs at h ⊢ with h1
    exact ⟨_, _, _, mod2pi_nonneg _, mod2pi_nonneg _, mod2pi_nonneg _, rfl⟩

theorem courseTypes_of_mem (k : PathType) (fn : pathTypeFunc) (hm : (k, fn) ∈ pathTypeFuncMap) :
    ∃ c1 c2 c3 : PathCourseType,
      pathTypeCourseTypesMap.lookup k = some [c1, c2, c3] ∧
      (c1 = CourseTypeLeft ∨ c1 = CourseTypeRight ∨ c1 = CourseTypeStraight) ∧
      (c2 = CourseTypeLeft ∨ c2 = CourseTypeRight ∨ c2 = CourseTypeStraight) ∧
      (c3 = CourseTypeLeft ∨ c3 = CourseTypeRight ∨ c3 = CourseTypeStraight) := by
  rw [mem_funcMap_iff] at hm
  rcases hm with ⟨rfl, rfl⟩ | ⟨rfl, rfl⟩ | ⟨rfl, rfl⟩ | ⟨rfl, rfl⟩ | ⟨rfl, rfl⟩ | ⟨rfl, rfl⟩
  · exact ⟨_, _, _, rfl, by simp, by simp, by simp⟩
  · exact ⟨_, _, _, rfl, by simp, by simp, by simp⟩
  · exact ⟨_, _, _, rfl, by simp, by simp, by simp⟩
  · exact ⟨_, _, _, rfl, by simp, by simp, by simp⟩
  · exact ⟨_, _, _, rfl, by simp, by simp, by simp⟩
  · exact ⟨_, _, _, rfl, by simp, by simp, by simp⟩

theorem setTuringRadius_raw (t p q r : ℝ) (k : PathType) (c1 c2 c3 : PathCourseType)
    (h : pathTypeCourseTypesMap.lookup k = some [c1, c2, c3]) :
    Path.setTuringRadius { Path.zero with t := t, p := p, q := q, pathType := k } r =
      { t := t * r, p := p * r, q := q * r, pathType := k
        totalLength := 0 + t * r + p * r + q * r
        segments := [⟨t * r, c1⟩, ⟨p * r, c2⟩, ⟨q * r, c3⟩]
        turningRadius := r
        origin := ⟨0, 0, 0⟩ } := by
  simp [Path.setTuringRadius, h, setTuringRadiusStep, Path.zero]


theorem toPathParams_error (start goal : State) (r : ℝ) (hr : r ≤ 0) :
    toPathParams start goal r = .error "turningRadius must be greater than zero" := by
  simp [toPathParams, hr]

theorem toPathParams_radius_pos (start goal : State) (r : ℝ) (pp : pathParams)
    (h : toPathParams start goal r = .ok pp) : 0 < r := by
  by_contra hr
  rw [toPathParams_error start goal r (not_lt.mp hr)] at h
  cases h

/-- What a feasible answer of `PathByType` is made of. -/
theorem PathByType_ok (start goal : State) (r : ℝ) (k : PathType) (path : Path)
    (h : PathByType start goal r k = .ok (path, true)) :
    ∃ pp fn, toPathParams start goal r = .ok pp ∧
      ¬(pp.alpha = 0 ∧ pp.beta = 0 ∧ pp.d = 0) ∧
      (k, fn) ∈ pathTypeFuncMap ∧ (fn pp).2 = true ∧
      0 < ((fn pp).1.setTuringRadius r).Length ∧
      path = { (fn pp).1.setTuringRadius r with origin := start } := by
  unfold PathByType at h
  split at h
  · cases h
  · rename_i pp hpp
    split_ifs at h with hz
    · simp at h
    · split at h
      · cases h
      · rename_i fn hfn
        dsimp only at h
        split_ifs at h with h1 h2
        · simp at h
        · simp at h
        · simp only [Except.ok.injEq, Prod.mk.injEq, and_true] at h
          exact ⟨pp, fn, hpp, hz, lookup_funcMap k fn hfn, by simpa using h1,
            not_le.mp h2, h.symm⟩

/-- The converse: the conditions under which `PathByType` answers `(path, true)`. -/
theorem PathByType_of_candidate (start goal : State) (r : ℝ) (k : PathType)
    (pp : pathParams) (fn : pathTypeFunc) (hpp : toPathParams start goal r = .ok pp)
    (hz : ¬(pp.alpha = 0 ∧ pp.beta = 0 ∧ pp.d = 0)) (hm : (k, fn) ∈ pathTypeFuncMap)
    (hok : (fn pp).2 = true) (hlen : 0 < ((fn pp).1.setTuringRadius r).Length) :
    PathByType start goal r k =
      .ok ({ (fn pp).1.setTuringRadius r with origin := start }, true) := by
  unfold PathByType
  rw [hpp]
  simp only [if_neg hz, lookup_funcMap_of_mem k fn hm, hok, Bool.true_eq_false, if_false,
    if_neg (not_le.mpr hlen)]

/-- The shape of a feasible answer of `PathByType`. -/
theorem PathByType_shape (start goal : State) (r : ℝ) (k : PathType) (path : Path)
    (h : PathByType start goal r k = .ok (path, true)) :
    ∃ (t p q : ℝ) (c1 c2 c3 : PathCourseType), 0 < r ∧ 0 ≤ t ∧ 0 ≤ p ∧ 0 ≤ q ∧
      pathTypeCourseTypesMap.lookup k = some [c1, c2, c3] ∧
      (c1 = CourseTypeLeft ∨ c1 = CourseTypeRight ∨ c1 = CourseTypeStraight) ∧
      (c2 = CourseTypeLeft ∨ c2 = CourseTypeRight ∨ c2 = CourseTypeStraight) ∧
      (c3 = CourseTypeLeft ∨ c3 = CourseTypeRight ∨ c3 = CourseTypeStraight) ∧
      0 < 0 + t * r + p * r + q * r ∧
      path = { t := t * r, p := p * r, q := q * r, pathType := k
               totalLength := 0 + t * r + p * r + q * r
               segments := [⟨t * r, c1⟩, ⟨p * r, c2⟩, ⟨q * r, c3⟩]
               turningRadius := r
               origin := start } := by
  obtain ⟨pp, fn, hpp, -, hm, hok, hlen, rfl⟩ := PathByType_ok start goal r k path h
  obtain ⟨t, p, q, ht, hp, hq, hraw⟩ := family_raw k fn hm pp hok
  obtain ⟨c1, c2, c3, hc, h1, h2, h3⟩ := courseTypes_of_mem k fn hm
  rw [hraw, setTuringRadius_raw t p q r k c1 c2 c3 hc] at hlen ⊢
  exact ⟨t, p, q, c1, c2, c3, toPathParams_radius_pos _ _ _ _ hpp, ht, hp, hq, hc, h1, h2, h3,
    hlen, rfl⟩

theorem foldl_availablePathsStep_mem (pp : pathParams) (start : State) (r : ℝ)
    (order : List (PathType × pathTypeFunc)) (acc : List Path) (x : Path) :
    x ∈ order.foldl (availablePathsStep pp start r) acc ↔
      x ∈ acc ∨ ∃ e ∈ order, (e.2 pp).2 = true ∧ 0 < ((e.2 pp).1.setTuringRadius r).Length ∧
        x = { (e.2 pp).1.setTuringRadius r with origin := start } := by
  induction order generalizing acc with
  | nil => simp
  | cons e rest ih =>
    rw [List.foldl_cons, ih]
    unfold availablePathsStep
    dsimp only
    split_ifs with h1 h2
    · simp [h1]
    · have h1 : (e.2 pp).2 = true := by simpa using h1
      simp only [List.mem_cons, exists_eq_or_imp, h1, true_and]
      have : ¬ (0 < ((e.2 pp).1.setTuringRadius r).Length) := not_lt.mpr h2
      simp [this]
    · have h1 : (e.2 pp).2 = true := by simpa using h1
      have h2 : 0 < ((e.2 pp).1.setTuringRadius r).Length := not_le.mp h2
      simp only [List.mem_cons, exists_eq_or_imp, h1, h2, true_and, List.mem_append,
        List.mem_singleton]
      tauto

/-- The elements of `AvailablePaths` are the feasible answers of `PathByType` on the
families the loop visits. -/
theorem mem_AvailablePaths_iff (order : List (PathType × pathTypeFunc))
    (horder : ∀ e ∈ order, e ∈ pathTypeFuncMap) (start goal : State) (r : ℝ)
    (paths : List Path) (h : AvailablePaths order start goal r = .ok paths) (x : Path) :
    x ∈ paths ↔ ∃ e ∈ order, PathByType start goal r e.1 = .ok (x, true) := by
  unfold AvailablePaths at h
  split at h
  · cases h
  · rename_i pp hpp
    split_ifs at h with hz
    · simp only [Except.ok.injEq] at h
      subst h
      simp only [List.not_mem_nil, false_iff, not_exists, not_and]
      intro e _ he
      obtain ⟨pp', fn, hpp', hz', -⟩ := PathByType_ok _ _ _ _ _ he
      rw [hpp] at hpp'
      cases hpp'
      exact hz' hz
    · simp only [Except.ok.injEq] at h
      subst h
      rw [foldl_availablePathsStep_mem]
      simp only [List.not_mem_nil, false_or]
      constructor
      · rintro ⟨e, he, hok, hlen, rfl⟩
        exact ⟨e, he, PathByType_of_candidate start goal r e.1 pp e.2 hpp hz
          (horder e he) hok hlen⟩
      · rintro ⟨e, he, hx⟩
        obtain ⟨pp', fn, hpp', -, hm, hok, hlen, rfl⟩ := PathByType_ok _ _ _ _ _ hx
        rw [hpp] at hpp'
        cases hpp'
        have hfn : fn = e.2 := by
          have h1 := lookup_funcMap_of_mem e.1 fn hm
          have h2 := lookup_funcMap_of_mem e.1 e.2 (horder e he)
          rw [h1] at h2
          exact Option.some.inj h2
        subst hfn
        exact ⟨e, he, hok, hlen, rfl⟩


theorem move_zero (s : State) (c : PathCourseType) (r : ℝ) : move s 0 c r = s := by
  unfold move
  split_ifs <;> simp

theorem sampleLoop_three (r : ℝ) (g0 g1 g2 : PathSegment) (s : State)
    (h1 : 0 ≤ g1.Length) (h2 : 0 ≤ g2.Length)
    (c0 : g0.CourseType = CourseTypeLeft ∨ g0.CourseType = CourseTypeRight ∨
      g0.CourseType = CourseTypeStraight)
    (c1 : g1.CourseType = CourseTypeLeft ∨ g1.CourseType = CourseTypeRight ∨
      g1.CourseType = CourseTypeStraight)
    (c2 : g2.CourseType = CourseTypeLeft ∨ g2.CourseType = CourseTypeRight ∨
      g2.CourseType = CourseTypeStraight) :
    sampleLoop r [g0, g1, g2] (g0.Length + g1.Length + g2.Length) s =
      .ok (move (move (move s g0.Length g0.CourseType r) g1.Length g1.CourseType r)
        g2.Length g2.CourseType r) := by
  have e0 : min (g0.Length + g1.Length + g2.Length) g0.Length = g0.Length :=
    min_eq_right (by linarith)
  have e1 : min (g1.Length + g2.Length) g1.Length = g1.Length := min_eq_right (by linarith)
  simp only [sampleLoop, e0, stateAtDistance_eq_move _ _ _ _ c0]
  have d0 : g0.Length + g1.Length + g2.Length - g0.Length = g1.Length + g2.Length := by ring
  rw [d0]
  by_cases hz : g1.Length + g2.Length ≤ 0
  · have z1 : g1.Length = 0 := by linarith
    have z2 : g2.Length = 0 := by linarith
    simp [z1, z2, move_zero]
  · simp only [if_neg hz, e1, stateAtDistance_eq_move _ _ _ _ c1]
    have d1 : g1.Length + g2.Length - g1.Length = g2.Length := by ring
    rw [d1]
    by_cases hz2 : g2.Length ≤ 0
    · have z2 : g2.Length = 0 := by linarith
      simp [z2, move_zero]
    · simp [if_neg hz2, stateAtDistance_eq_move _ _ _ _ c2]

/-! ## Unit complex numbers and poses -/

theorem E_add (x y : ℝ) : E (x + y) = E x * E y := by
  unfold E; rw [← Complex.exp_add]; congr 1; push_cast; ring

theorem E_zero : E 0 = 1 := by
  unfold E; simp

theorem E_ne_zero (x : ℝ) : E x ≠ 0 := Complex.exp_ne_zero _

theorem E_neg (x : ℝ) : E (-x) = (E x)⁻¹ := by
  unfold E; rw [← Complex.exp_neg]; congr 1; push_cast; ring

theorem E_sub (x y : ℝ) : E (x - y) = E x / E y := by
  rw [sub_eq_add_neg, E_add, E_neg, div_eq_mul_inv]

theorem E_eq (x : ℝ) : E x = (Real.cos x : ℂ) + (Real.sin x : ℂ) * I := by
  unfold E; rw [Complex.exp_mul_I]; push_cast; rfl

theorem E_re (x : ℝ) : (E x).re = Real.cos x :=
  Complex.exp_ofReal_mul_I_re x

theorem E_im (x : ℝ) : (E x).im = Real.sin x :=
  Complex.exp_ofReal_mul_I_im x

theorem E_int_mul_twoPi (k : ℤ) : E (k * twoPi) = 1 := by
  unfold E twoPi
  have := Complex.exp_int_mul_two_pi_mul_I k
  rw [← this]; congr 1; push_cast; ring

theorem E_twoPi : E twoPi = 1 := by
  simpa using E_int_mul_twoPi 1

theorem E_mod2pi (x : ℝ) : E (mod2pi x) = E x := by
  rw [mod2pi_eq, E_sub, mul_comm, E_int_mul_twoPi, div_one]

theorem E_arg (z : ℂ) : (Complex.abs z : ℂ) * E (Complex.arg z) = z :=
  Complex.abs_mul_exp_arg_mul_I z

/-- Equal directions differ by a whole number of turns. -/
theorem E_eq_imp (x y : ℝ) (h : E x = E y) : ∃ k : ℤ, x - y = k * (2 * Real.pi) := by
  unfold E at h
  rw [Complex.exp_eq_exp_iff_exists_int] at h
  obtain ⟨n, hn⟩ := h
  refine ⟨n, ?_⟩
  have := congrArg Complex.im hn
  simp at this
  rw [this]; ring

theorem pos_move_left (s : State) (l r : ℝ) :
    pos (move s l CourseTypeLeft r) = pos s + r * (-I) * (E (s.Yaw + l / r) - E s.Yaw) := by
  apply Complex.ext <;> simp [pos, move, E_re, E_im] <;> ring

theorem pos_move_right (s : State) (l r : ℝ) :
    pos (move s l CourseTypeRight r) = pos s + r * I * (E (s.Yaw - l / r) - E s.Yaw) := by
  obtain ⟨h1, -, -⟩ := courseType_ne
  apply Complex.ext <;> simp [pos, move, E_re, E_im, h1] <;> ring

theorem pos_move_straight (s : State) (l r : ℝ) :
    pos (move s l CourseTypeStraight r) = pos s + l * E s.Yaw := by
  obtain ⟨-, h2, h3⟩ := courseType_ne
  apply Complex.ext <;> simp [pos, move, E_re, E_im, h2, h3]

theorem yaw_move_left (s : State) (l r : ℝ) :
    (move s l CourseTypeLeft r).Yaw = s.Yaw + l / r := by
  simp [move]

theorem yaw_move_right (s : State) (l r : ℝ) :
    (move s l CourseTypeRight r).Yaw = s.Yaw - l / r := by
  obtain ⟨h1, -, -⟩ := courseType_ne
  simp [move, h1]; ring

theorem yaw_move_straight (s : State) (l r : ℝ) :
    (move s l CourseTypeStraight r).Yaw = s.Yaw := by
  obtain ⟨-, h2, h3⟩ := courseType_ne
  simp [move, h2, h3]


/-! ## The normalised parameters -/

theorem abs_mk (x y : ℝ) : Complex.abs ⟨x, y⟩ = Real.sqrt (x * x + y * y) := by
  rw [Complex.abs_apply, Complex.normSq_apply]

theorem sqrt_mul_E_atan2 (x y : ℝ) :
    (Real.sqrt (x * x + y * y) : ℂ) * E (atan2 y x) = ⟨x, y⟩ := by
  rw [← abs_mk]; exact E_arg _

/-- What `toPathParams` computes, in terms of directions: `θ` is the direction from
start to goal. -/
theorem toPathParams_facts (start goal : State) (r : ℝ) (pp : pathParams)
    (h : toPathParams start goal r = .ok pp) :
    ∃ θ : ℝ, E pp.alpha * E θ = E start.Yaw ∧ E pp.beta * E θ = E goal.Yaw ∧
      (r : ℂ) * pp.d * E θ = pos goal - pos start ∧
      pp.sinAlpha = Real.sin pp.alpha ∧ pp.sinBeta = Real.sin pp.beta ∧
      pp.cosAlpha = Real.cos pp.alpha ∧ pp.cosBeta = Real.cos pp.beta ∧
      pp.cosAlphaMinusBeta = Real.cos (pp.alpha - pp.beta) ∧ pp.dSquare = pp.d * pp.d := by
  have hr := toPathParams_radius_pos start goal r pp h
  unfold toPathParams at h
  rw [if_neg (not_le.mpr hr)] at h
  simp only [Except.ok.injEq] at h
  subst h
  dsimp only
  set dx := goal.X - start.X with hdx
  set dy := goal.Y - start.Y with hdy
  set D := Real.sqrt (dx * dx + dy * dy) with hD
  refine ⟨if D > 0 then mod2pi (atan2 dy dx) else 0, ?_, ?_, ?_, rfl, rfl, rfl, rfl, rfl, rfl⟩
  · rw [E_mod2pi, E_sub, div_mul_cancel₀ _ (E_ne_zero _)]
  · rw [E_mod2pi, E_sub, div_mul_cancel₀ _ (E_ne_zero _)]
  · have hpos : pos goal - pos start = ⟨dx, dy⟩ := by
      apply Complex.ext <;> simp [pos, hdx, hdy]
    have hrD : (r : ℂ) * ((D / r : ℝ) : ℂ) = (D : ℂ) := by
      have hrc : (r : ℂ) ≠ 0 := by exact_mod_cast hr.ne.symm
      push_cast
      field_simp
    rw [hrD, hpos]
    by_cases hDpos : D > 0
    · rw [if_pos hDpos, E_mod2pi]
      exact sqrt_mul_E_atan2 dx dy
    · rw [if_neg hDpos, E_zero, mul_one]
      have hD0 : D = 0 := le_antisymm (not_lt.mp hDpos) (Real.sqrt_nonneg _)
      have hsum : dx * dx + dy * dy = 0 := by
        have hnn : 0 ≤ dx * dx + dy * dy :=
          add_nonneg (mul_self_nonneg dx) (mul_self_nonneg dy)
        exact (Real.sqrt_eq_zero hnn).mp hD0
      have hx : dx = 0 := by nlinarith [mul_self_nonneg dx, mul_self_nonneg dy]
      have hy : dy = 0 := by nlinarith [mul_self_nonneg dx, mul_self_nonneg dy]
      rw [hD0, hx, hy]
      rfl

/-! ## The six families reach the goal -/

theorem cos_sub_expand (α β : ℝ) :
    Real.cos (α - β) = Real.cos α * Real.cos β + Real.sin α * Real.sin β := Real.cos_sub α β

theorem lsl_endpoint (start goal : State) (θ α β d r : ℝ) (hr : r ≠ 0)
    (hα : E α * E θ = E start.Yaw) (hβ : E β * E θ = E goal.Yaw)
    (hd : (r : ℂ) * d * E θ = pos goal - pos start) (tmp p : ℝ)
    (htmp : tmp = atan2 (Real.cos β - Real.cos α) (d + Real.sin α - Real.sin β))
    (hp : p = Real.sqrt (2 + d * d - 2 * Real.cos (α - β) + 2 * d * (Real.sin α - Real.sin β)))
    (s3 : State)
    (hs : s3 = move (move (move start (mod2pi (tmp - α) * r) CourseTypeLeft r) (p * r)
      CourseTypeStraight r) (mod2pi (β - tmp) * r) CourseTypeLeft r) :
    pos s3 = pos goal ∧ E s3.Yaw = E goal.Yaw := by
  have hsq : 2 + d * d - 2 * Real.cos (α - β) + 2 * d * (Real.sin α - Real.sin β) =
      (d + Real.sin α - Real.sin β) * (d + Real.sin α - Real.sin β) +
        (Real.cos β - Real.cos α) * (Real.cos β - Real.cos α) := by
    rw [cos_sub_expand]
    nlinarith [Real.sin_sq_add_cos_sq α, Real.sin_sq_add_cos_sq β]
  have hV : (p : ℂ) * E tmp = d - I * E α + I * E β := by
    rw [hp, hsq, htmp, sqrt_mul_E_atan2]
    apply Complex.ext <;> simp [E_re, E_im] <;> ring
  have ha := E_ne_zero α
  have hm := E_ne_zero tmp
  have hrc : (r : ℂ) ≠ 0 := by exact_mod_cast hr
  subst hs
  have h1 : E (start.Yaw + mod2pi (tmp - α)) = E θ * E tmp := by
    rw [E_add, E_mod2pi, E_sub, ← hα]; field_simp; ring
  have h3 : E (start.Yaw + mod2pi (tmp - α) + mod2pi (β - tmp)) = E goal.Yaw := by
    rw [E_add, h1, E_mod2pi, E_sub, ← hβ]; field_simp; ring
  constructor
  · simp only [pos_move_left, pos_move_straight, yaw_move_left, yaw_move_straight,
      mul_div_cancel_right₀ _ hr, h1, h3, ← hβ, ← hα]
    push_cast
    linear_combination (r * E θ) * hV + hd
  · simp only [yaw_move_left, yaw_move_straight, mul_div_cancel_right₀ _ hr, h3]


theorem rsr_endpoint (start goal : State) (θ α β d r : ℝ) (hr : r ≠ 0)
    (hα : E α * E θ = E start.Yaw) (hβ : E β * E θ = E goal.Yaw)
    (hd : (r : ℂ) * d * E θ = pos goal - pos start) (tmp p : ℝ)
    (htmp : tmp = atan2 (Real.cos α - Real.cos β) (d - Real.sin α + Real.sin β))
    (hp : p = Real.sqrt (2 + d * d - 2 * Real.cos (α - β) + 2 * d * (Real.sin β - Real.sin α)))
    (s3 : State)
    (hs : s3 = move (move (move start (mod2pi (α - tmp) * r) CourseTypeRight r) (p * r)
      CourseTypeStraight r) (mod2pi (tmp - β) * r) CourseTypeRight r) :
    pos s3 = pos goal ∧ E s3.Yaw = E goal.Yaw := by
  have hsq : 2 + d * d - 2 * Real.cos (α - β) + 2 * d * (Real.sin β - Real.sin α) =
      (d - Real.sin α + Real.sin β) * (d - Real.sin α + Real.sin β) +
        (Real.cos α - Real.cos β) * (Real.cos α - Real.cos β) := by
    rw [cos_sub_expand]
    nlinarith [Real.sin_sq_add_cos_sq α, Real.sin_sq_add_cos_sq β]
  have hV : (p : ℂ) * E tmp = d + I * E α - I * E β := by
    rw [hp, hsq, htmp, sqrt_mul_E_atan2]
    apply Complex.ext <;> simp [E_re, E_im] <;> ring
  have ha := E_ne_zero α
  have hb := E_ne_zero β
  have hm := E_ne_zero tmp
  subst hs
  have h1 : E (start.Yaw - mod2pi (α - tmp)) = E θ * E tmp := by
    rw [E_sub, E_mod2pi, E_sub, ← hα]; field_simp; ring
  have h3 : E (start.Yaw - mod2pi (α - tmp) - mod2pi (tmp - β)) = E goal.Yaw := by
    rw [E_sub, h1, E_mod2pi, E_sub, ← hβ]; field_simp; ring
  constructor
  · simp only [pos_move_right, pos_move_straight, yaw_move_right, yaw_move_straight,
      mul_div_cancel_right₀ _ hr, h1, h3, ← hβ, ← hα]
    push_cast
    linear_combination (r * E θ) * hV + hd
  · simp only [yaw_move_right, yaw_move_straight, mul_div_cancel_right₀ _ hr, h3]

/-- The tangent direction of a crossing family: `w` is the inner tangent triangle
and `V` the vector between the two centres, of equal norm. -/
theorem E_sub_arg (V w : ℂ) (hw : w ≠ 0) (hN : Complex.abs V = Complex.abs w) :
    w * E (Complex.arg V - Complex.arg w) = V := by
  have h1 := E_arg V
  have h2 := E_arg w
  have hN0 : (Complex.abs w : ℂ) ≠ 0 := by
    exact_mod_cast (Complex.abs.ne_zero hw)
  have hE := E_ne_zero (Complex.arg w)
  rw [E_sub]
  rw [hN] at h1
  field_simp
  linear_combination (E (Complex.arg w)) * h1 - (E (Complex.arg V)) * h2

theorem lsr_endpoint (start goal : State) (θ α β d r : ℝ) (hr : r ≠ 0)
    (hα : E α * E θ = E start.Yaw) (hβ : E β * E θ = E goal.Yaw)
    (hd : (r : ℂ) * d * E θ = pos goal - pos start) (tmp p : ℝ)
    (hsq : ¬ (-2 + d * d + 2 * Real.cos (α - β) + 2 * d * (Real.sin α + Real.sin β) < 0))
    (hp : p = Real.sqrt (-2 + d * d + 2 * Real.cos (α - β) + 2 * d * (Real.sin α + Real.sin β)))
    (htmp : tmp = atan2 (-Real.cos α - Real.cos β) (d + Real.sin α + Real.sin β) - atan2 (-2) p)
    (s3 : State)
    (hs : s3 = move (move (move start (mod2pi (tmp - α) * r) CourseTypeLeft r) (p * r)
      CourseTypeStraight r) (mod2pi (tmp - mod2pi β) * r) CourseTypeRight r) :
    pos s3 = pos goal ∧ E s3.Yaw = E goal.Yaw := by
  have hpp : p * p = -2 + d * d + 2 * Real.cos (α - β) + 2 * d * (Real.sin α + Real.sin β) := by
    rw [hp]; exact Real.mul_self_sqrt (not_lt.mp hsq)
  have hN : Complex.abs ⟨d + Real.sin α + Real.sin β, -Real.cos α - Real.cos β⟩ =
      Complex.abs ⟨p, -2⟩ := by
    rw [abs_mk, abs_mk]
    congr 1
    rw [hpp, cos_sub_expand]
    nlinarith [Real.sin_sq_add_cos_sq α, Real.sin_sq_add_cos_sq β]
  have hw : (⟨p, -2⟩ : ℂ) ≠ 0 := by
    intro h
    have := congrArg Complex.im h
    simp at this
  have hV : ((p : ℂ) - 2 * I) * E tmp = d - I * E α - I * E β := by
    have := E_sub_arg _ _ hw hN
    rw [htmp]
    unfold atan2
    have e1 : ((p : ℂ) - 2 * I) = ⟨p, -2⟩ := by apply Complex.ext <;> simp
    have e2 : ((d : ℂ) - I * E α - I * E β) =
        ⟨d + Real.sin α + Real.sin β, -Real.cos α - Real.cos β⟩ := by
      apply Complex.ext <;> simp [E_re, E_im]
    rw [e1, e2]
    exact this
  have ha := E_ne_zero α
  have hb := E_ne_zero β
  have hm := E_ne_zero tmp
  subst hs
  have h1 : E (start.Yaw + mod2pi (tmp - α)) = E θ * E tmp := by
    rw [E_add, E_mod2pi, E_sub, ← hα]; field_simp; ring
  have h3 : E (start.Yaw + mod2pi (tmp - α) - mod2pi (tmp - mod2pi β)) = E goal.Yaw := by
    rw [E_sub, h1, E_mod2pi, E_sub, E_mod2pi, ← hβ]; field_simp; ring
  constructor
  · simp only [pos_move_left, pos_move_right, pos_move_straight, yaw_move_left, yaw_move_right,
      yaw_move_straight, mul_div_cancel_right₀ _ hr, h1, h3, ← hβ, ← hα]
    push_cast
    linear_combination (r * E θ) * hV + hd
  · simp only [yaw_move_left, yaw_move_right, yaw_move_straight,
      mul_div_cancel_right₀ _ hr, h3]

theorem rsl_endpoint (start goal : State) (θ α β d r : ℝ) (hr : r ≠ 0)
    (hα : E α * E θ = E start.Yaw) (hβ : E β * E θ = E goal.Yaw)
    (hd : (r : ℂ) * d * E θ = pos goal - pos start) (tmp p : ℝ)
    (hsq : ¬ (-2 + d * d + 2 * Real.cos (α - β) - 2 * d * (Real.sin α + Real.sin β) < 0))
    (hp : p = Real.sqrt (-2 + d * d + 2 * Real.cos (α - β) - 2 * d * (Real.sin α + Real.sin β)))
    (htmp : tmp = atan2 (Real.cos α + Real.cos β) (d - Real.sin α - Real.sin β) - atan2 2 p)
    (s3 : State)
    (hs : s3 = move (move (move start (mod2pi (α - tmp) * r) CourseTypeRight r) (p * r)
      CourseTypeStraight r) (mod2pi (β - tmp) * r) CourseTypeLeft r) :
    pos s3 = pos goal ∧ E s3.Yaw = E goal.Yaw := by
  have hpp : p * p = -2 + d * d + 2 * Real.cos (α - β) - 2 * d * (Real.sin α + Real.sin β) := by
    rw [hp]; exact Real.mul_self_sqrt (not_lt.mp hsq)
  have hN : Complex.abs ⟨d - Real.sin α - Real.sin β, Real.cos α + Real.cos β⟩ =
      Complex.abs ⟨p, 2⟩ := by
    rw [abs_mk, abs_mk]
    congr 1
    rw [hpp, cos_sub_expand]
    nlinarith [Real.sin_sq_add_cos_sq α, Real.sin_sq_add_cos_sq β]
  have hw : (⟨p, 2⟩ : ℂ) ≠ 0 := by
    intro h
    have := congrArg Complex.im h
    simp at this
  have hV : ((p : ℂ) + 2 * I) * E tmp = d + I * E α + I * E β := by
    have := E_sub_arg _ _ hw hN
    rw [htmp]
    unfold atan2
    have e1 : ((p : ℂ) + 2 * I) = ⟨p, 2⟩ := by apply Complex.ext <;> simp
    have e2 : ((d : ℂ) + I * E α + I * E β) =
        ⟨d - Real.sin α - Real.sin β, Real.cos α + Real.cos β⟩ := by
      apply Complex.ext <;> simp [E_re, E_im] <;> ring
    rw [e1, e2]
    exact this
  have ha := E_ne_zero α
  have hb := E_ne_zero β
  have hm := E_ne_zero tmp
  subst hs
  have h1 : E (start.Yaw - mod2pi (α - tmp)) = E θ * E tmp := by
    rw [E_sub, E_mod2pi, E_sub, ← hα]; field_simp; ring
  have h3 : E (start.Yaw - mod2pi (α - tmp) + mod2pi (β - tmp)) = E goal.Yaw := by
    rw [E_add, h1, E_mod2pi, E_sub, ← hβ]; field_simp; ring
  constructor
  · simp only [pos_move_left, pos_move_right, pos_move_straight, yaw_move_left, yaw_move_right,
      yaw_move_straight, mul_div_cancel_right₀ _ hr, h1, h3, ← hβ, ← hα]
    push_cast
    linear_combination (r * E θ) * hV + hd
  · simp only [yaw_move_left, yaw_move_right, yaw_move_straight,
      mul_div_cancel_right₀ _ hr, h3]


theorem E_conj (x : ℝ) : (starRingEnd ℂ) (E x) = E (-x) := by
  apply Complex.ext
  · simp [E_re]
  · simp [E_im]

theorem E_inv_sub (x : ℝ) : (E x)⁻¹ - E x = -2 * I * (Real.sin x : ℂ) := by
  rw [← E_neg, E_eq, E_eq, Real.cos_neg, Real.sin_neg, Complex.ofReal_neg]
  ring

theorem cos_mod2pi (x : ℝ) : Real.cos (mod2pi x) = Real.cos x := by
  rw [← E_re, E_mod2pi, E_re]

/-- The middle arc of a three-arc family: with `cos p` the cosine `c` the code
computes, the chord `4 sin (p/2)` is the distance between the outer centres. -/
theorem ccc_chord (c p X Y : ℝ) (hc : ¬ (|c| > 1)) (hp : p = mod2pi (twoPi - Real.arccos c))
    (hXY : X * X + Y * Y = 8 * (1 - c)) :
    Complex.abs ⟨X, Y⟩ = 4 * Real.sin (p / 2) := by
  have hc' := abs_le.mp (not_lt.mp hc)
  have hcos : Real.cos p = c := by
    rw [hp, cos_mod2pi]
    unfold twoPi
    rw [Real.cos_two_pi_sub, Real.cos_arccos hc'.1 hc'.2]
  have hp0 : 0 ≤ p := hp ▸ mod2pi_nonneg _
  have hp1 : p < twoPi := hp ▸ mod2pi_lt _
  have hsin : 0 ≤ Real.sin (p / 2) := by
    apply Real.sin_nonneg_of_nonneg_of_le_pi
    · linarith
    · unfold twoPi at hp1; linarith
  have hdouble : Real.cos p = 2 * Real.cos (p / 2) ^ 2 - 1 := by
    rw [← Real.cos_two_mul]; congr 1; ring
  have hsq : X * X + Y * Y = (4 * Real.sin (p / 2)) ^ 2 := by
    rw [hXY, ← hcos, hdouble]
    nlinarith [Real.sin_sq_add_cos_sq (p / 2)]
  rw [abs_mk, hsq]
  exact Real.sqrt_sq (by linarith)

theorem rlr_endpoint (start goal : State) (θ α β d r : ℝ) (hr : r ≠ 0)
    (hα : E α * E θ = E start.Yaw) (hβ : E β * E θ = E goal.Yaw)
    (hd : (r : ℂ) * d * E θ = pos goal - pos start) (tmp phi p t : ℝ)
    (htmp : tmp = (6 - d * d + 2 * Real.cos (α - β) + 2 * d * (Real.sin α - Real.sin β)) / 8)
    (hfeas : ¬ (|tmp| > 1))
    (hphi : phi = atan2 (Real.cos α - Real.cos β) (d - Real.sin α + Real.sin β))
    (hp : p = mod2pi (twoPi - Real.arccos tmp))
    (ht : t = mod2pi (α - phi + mod2pi (p / 2)))
    (s3 : State)
    (hs : s3 = move (move (move start (t * r) CourseTypeRight r) (p * r)
      CourseTypeLeft r) (mod2pi (α - β - t + mod2pi p) * r) CourseTypeRight r) :
    pos s3 = pos goal ∧ E s3.Yaw = E goal.Yaw := by
  have hXY : (d - Real.sin α + Real.sin β) * (d - Real.sin α + Real.sin β) +
      (Real.cos α - Real.cos β) * (Real.cos α - Real.cos β) = 8 * (1 - tmp) := by
    rw [htmp, cos_sub_expand]
    nlinarith [Real.sin_sq_add_cos_sq α, Real.sin_sq_add_cos_sq β]
  have hchord := ccc_chord tmp p _ _ hfeas hp hXY
  have hV : (4 * (Real.sin (p / 2) : ℂ)) * E phi = d + I * E α - I * E β := by
    have h := E_arg ⟨d - Real.sin α + Real.sin β, Real.cos α - Real.cos β⟩
    rw [hchord] at h
    rw [hphi]
    unfold atan2
    simp only [Complex.ofReal_mul, Complex.ofReal_ofNat] at h
    rw [h]
    apply Complex.ext <;> simp [E_re, E_im] <;> ring
  have hhalf := E_inv_sub (p / 2)
  have hEp : E p = E (p / 2) * E (p / 2) := by
    rw [← E_add]; congr 1; ring
  have ha := E_ne_zero α
  have hb := E_ne_zero β
  have hm := E_ne_zero phi
  have hh := E_ne_zero (p / 2)
  have hth := E_ne_zero θ
  subst hs
  have h1 : E (start.Yaw - t) * E (p / 2) = E θ * E phi := by
    rw [ht, E_sub, E_mod2pi, E_add, E_sub, E_mod2pi, ← hα]; field_simp; ring
  have h2 : E (start.Yaw - t + p) = E (start.Yaw - t) * E (p / 2) * E (p / 2) := by
    rw [E_add, hEp]; ring
  have h3 : E (start.Yaw - t + p - mod2pi (α - β - t + mod2pi p)) = E goal.Yaw := by
    rw [E_sub, E_add, E_sub, E_mod2pi, E_add, E_sub, E_sub, E_mod2pi, ← hα, ← hβ]
    have htt := E_ne_zero t
    have hpp := E_ne_zero p
    field_simp; ring
  constructor
  · simp only [pos_move_left, pos_move_right, yaw_move_left, yaw_move_right,
      mul_div_cancel_right₀ _ hr, h2, h3, ← hβ, ← hα]
    have hu : E (start.Yaw - t) = E θ * E phi * (E (p / 2))⁻¹ := by
      rw [← h1]; field_simp
    rw [hu]
    have hcancel : (E (p / 2))⁻¹ * E (p / 2) = 1 := inv_mul_cancel₀ hh
    linear_combination (r * E θ) * hV + hd +
      (-2 * r * I * E θ * E phi * E (p / 2)) * hcancel +
      (2 * r * I * E θ * E phi) * hhalf +
      (-4 * r * E θ * E phi * (Real.sin (p / 2) : ℂ)) * Complex.I_sq
  · simp only [yaw_move_left, yaw_move_right, mul_div_cancel_right₀ _ hr, h3]


theorem lrl_endpoint (start goal : State) (θ α β d r : ℝ) (hr : r ≠ 0)
    (hα : E α * E θ = E start.Yaw) (hβ : E β * E θ = E goal.Yaw)
    (hd : (r : ℂ) * d * E θ = pos goal - pos start) (tmp phi p t : ℝ)
    (htmp : tmp = (6 - d * d + 2 * Real.cos (α - β) + 2 * d * (Real.sin β - Real.sin α)) / 8)
    (hfeas : ¬ (|tmp| > 1))
    (hphi : phi = atan2 (Real.cos α - Real.cos β) (d + Real.sin α - Real.sin β))
    (hp : p = mod2pi (twoPi - Real.arccos tmp))
    (ht : t = mod2pi (-α - phi + p / 2))
    (s3 : State)
    (hs : s3 = move (move (move start (t * r) CourseTypeLeft r) (p * r)
      CourseTypeRight r) (mod2pi (mod2pi β - α - t + mod2pi p) * r) CourseTypeLeft r) :
    pos s3 = pos goal ∧ E s3.Yaw = E goal.Yaw := by
  have hXY : (d + Real.sin α - Real.sin β) * (d + Real.sin α - Real.sin β) +
      (Real.cos α - Real.cos β) * (Real.cos α - Real.cos β) = 8 * (1 - tmp) := by
    rw [htmp, cos_sub_expand]
    nlinarith [Real.sin_sq_add_cos_sq α, Real.sin_sq_add_cos_sq β]
  have hchord := ccc_chord tmp p _ _ hfeas hp hXY
  have hV : (4 * (Real.sin (p / 2) : ℂ)) * (E phi)⁻¹ = d - I * E α + I * E β := by
    have h := E_arg ⟨d + Real.sin α - Real.sin β, Real.cos α - Real.cos β⟩
    rw [hchord] at h
    have h' := congrArg (starRingEnd ℂ) h
    simp only [map_mul, Complex.conj_ofReal, E_conj, E_neg] at h'
    rw [hphi]
    unfold atan2
    simp only [Complex.ofReal_mul, Complex.ofReal_ofNat] at h'
    rw [h']
    apply Complex.ext <;> simp [E_re, E_im] <;> ring
  have hhalf := E_inv_sub (p / 2)
  have hEp : E p = E (p / 2) * E (p / 2) := by
    rw [← E_add]; congr 1; ring
  have ha := E_ne_zero α
  have hb := E_ne_zero β
  have hm := E_ne_zero phi
  have hh := E_ne_zero (p / 2)
  have hth := E_ne_zero θ
  subst hs
  have h1 : E (start.Yaw + t) = E θ * (E phi)⁻¹ * E (p / 2) := by
    rw [ht, E_add, E_mod2pi, E_add, E_sub, E_neg, ← hα]; field_simp; ring
  have h2 : E (start.Yaw + t - p) = E θ * (E phi)⁻¹ * (E (p / 2))⁻¹ := by
    rw [E_sub, h1, hEp]; field_simp; ring
  have h3 : E (start.Yaw + t - p + mod2pi (mod2pi β - α - t + mod2pi p)) = E goal.Yaw := by
    rw [E_add, E_sub, E_add, E_mod2pi, E_add, E_sub, E_sub, E_mod2pi, E_mod2pi, ← hα, ← hβ]
    have htt := E_ne_zero t
    have hpp := E_ne_zero p
    field_simp; ring
  constructor
  · simp only [pos_move_left, pos_move_right, yaw_move_left, yaw_move_right,
      mul_div_cancel_right₀ _ hr, h1, h2, h3, ← hβ, ← hα]
    linear_combination (r * E θ) * hV + hd +
      (2 * r * I * E θ * (E phi)⁻¹) * hhalf +
      (-4 * r * E θ * (E phi)⁻¹ * (Real.sin (p / 2) : ℂ)) * Complex.I_sq
  · simp only [yaw_move_left, yaw_move_right, mul_div_cancel_right₀ _ hr, h3]


/-- Sampling a feasible path at its full length, spelled out on the raw candidate. -/
theorem sample_full_raw (start goal : State) (r : ℝ) (k : PathType) (path : Path)
    (h : PathByType start goal r k = .ok (path, true)) :
    ∃ (pp : pathParams) (fn : pathTypeFunc) (c1 c2 c3 : PathCourseType),
      toPathParams start goal r = .ok pp ∧ (k, fn) ∈ pathTypeFuncMap ∧ (fn pp).2 = true ∧
      pathTypeCourseTypesMap.lookup k = some [c1, c2, c3] ∧
      path.sample path.Length =
        .ok (move (move (move start ((fn pp).1.t * r) c1 r) ((fn pp).1.p * r) c2 r)
          ((fn pp).1.q * r) c3 r) := by
  obtain ⟨pp, fn, hpp, -, hm, hok, hlen, hpath⟩ := PathByType_ok start goal r k path h
  obtain ⟨t, p, q, ht, hp, hq, hraw⟩ := family_raw k fn hm pp hok
  obtain ⟨c1, c2, c3, hc, v1, v2, v3⟩ := courseTypes_of_mem k fn hm
  have hr := toPathParams_radius_pos _ _ _ _ hpp
  refine ⟨pp, fn, c1, c2, c3, hpp, hm, hok, hc, ?_⟩
  rw [hraw, setTuringRadius_raw t p q r k c1 c2 c3 hc] at hlen hpath
  subst hpath
  rw [hraw]
  unfold Path.sample
  unfold Path.Length at hlen ⊢
  simp only [zero_add] at hlen ⊢
  simp only [if_neg (not_le.mpr hlen), min_self]
  exact sampleLoop_three r ⟨t * r, c1⟩ ⟨p * r, c2⟩ ⟨q * r, c3⟩ start
    (mul_nonneg hp hr.le) (mul_nonneg hq hr.le) v1 v2 v3

/-- Every feasible answer of `PathByType` ends at the goal: same position and same
direction of travel. -/
theorem endpoint (start goal : State) (r : ℝ) (k : PathType) (path : Path)
    (h : PathByType start goal r k = .ok (path, true)) :
    ∃ s : State, path.sample path.Length = .ok s ∧ pos s = pos goal ∧
      E s.Yaw = E goal.Yaw := by
  obtain ⟨pp, fn, c1, c2, c3, hpp, hm, hok, hc, hsample⟩ :=
    sample_full_raw start goal r k path h
  have hr := (toPathParams_radius_pos _ _ _ _ hpp).ne.symm
  obtain ⟨θ, hα, hβ, hd, e1, e2, e3, e4, e5, e6⟩ := toPathParams_facts start goal r pp hpp
  refine ⟨_, hsample, ?_⟩
  rw [mem_funcMap_iff] at hm
  rcases hm with ⟨rfl, rfl⟩ | ⟨rfl, rfl⟩ | ⟨rfl, rfl⟩ | ⟨rfl, rfl⟩ | ⟨rfl, rfl⟩ | ⟨rfl, rfl⟩
  · simp only [pathTypeCourseTypesMap, List.lookup, Option.some.injEq, List.cons.injEq,
      and_true] at hc
    obtain ⟨rfl, rfl, rfl⟩ := hc
    unfold lsl at hok ⊢
    dsimp only at hok ⊢
    split_ifs at hok ⊢ with hneg
    simp only [e1, e2, e3, e4, e5, e6] at hneg ⊢
    exact lsl_endpoint start goal θ pp.alpha pp.beta pp.d r hr hα hβ hd _ _ rfl rfl _ rfl
  · simp only [pathTypeCourseTypesMap, List.lookup, Option.some.injEq, List.cons.injEq,
      and_true] at hc
    obtain ⟨rfl, rfl, rfl⟩ := hc
    unfold lsr at hok ⊢
    dsimp only at hok ⊢
    split_ifs at hok ⊢ with hneg
    simp only [e1, e2, e3, e4, e5, e6] at hneg ⊢
    exact lsr_endpoint start goal θ pp.alpha pp.beta pp.d r hr hα hβ hd _ _ hneg rfl rfl _ rfl
  · simp only [pathTypeCourseTypesMap, List.lookup, Option.some.injEq, List.cons.injEq,
      and_true] at hc
    obtain ⟨rfl, rfl, rfl⟩ := hc
    unfold rsl at hok ⊢
    dsimp only at hok ⊢
    split_ifs at hok ⊢ with hneg
    simp only [e1, e2, e3, e4, e5, e6] at hneg ⊢
    exact rsl_endpoint start goal θ pp.alpha pp.beta pp.d r hr hα hβ hd _ _ hneg rfl rfl _ rfl
  · simp only [pathTypeCourseTypesMap, List.lookup, Option.some.injEq, List.cons.injEq,
      and_true] at hc
    obtain ⟨rfl, rfl, rfl⟩ := hc
    unfold rsr at hok ⊢
    dsimp only at hok ⊢
    split_ifs at hok ⊢ with hneg
    simp only [e1, e2, e3, e4, e5, e6] at hneg ⊢
    exact rsr_endpoint start goal θ pp.alpha pp.beta pp.d r hr hα hβ hd _ _ rfl rfl _ rfl
  · simp only [pathTypeCourseTypesMap, List.lookup, Option.some.injEq, List.cons.injEq,
      and_true] at hc
    obtain ⟨rfl, rfl, rfl⟩ := hc
    unfold rlr at hok ⊢
    dsimp only at hok ⊢
    split_ifs at hok ⊢ with hneg
    simp only [e1, e2, e3, e4, e5, e6] at hneg ⊢
    exact rlr_endpoint start goal θ pp.alpha pp.beta pp.d r hr hα hβ hd _ _ _ _ rfl hneg rfl
      rfl rfl _ rfl
  · simp only [pathTypeCourseTypesMap, List.lookup, Option.some.injEq, List.cons.injEq,
      and_true] at hc
    obtain ⟨rfl, rfl, rfl⟩ := hc
    unfold lrl at hok ⊢
    dsimp only at hok ⊢
    split_ifs at hok ⊢ with hneg
    simp only [e1, e2, e3, e4, e5, e6] at hneg ⊢
    exact lrl_endpoint start goal θ pp.alpha pp.beta pp.d r hr hα hβ hd _ _ _ _ rfl hneg rfl
      rfl rfl _ rfl

/-! ## Selection of the shortest candidate -/

theorem MaxFloat64_pos : 0 < MaxFloat64 := by
  unfold MaxFloat64; norm_num

/-- The loop of `MinLengthPath`: either no path was shorter than the initial bound
and the accumulator is unchanged, or the accumulator holds a listed path of least
length. -/
theorem foldl_minLengthStep (paths : List Path) (acc : ℝ × Path) :
    (paths.foldl minLengthStep acc = acc ∧ ∀ p ∈ paths, acc.1 ≤ p.Length) ∨
    ((paths.foldl minLengthStep acc).2 ∈ paths ∧
      (paths.foldl minLengthStep acc).1 = (paths.foldl minLengthStep acc).2.Length ∧
      (paths.foldl minLengthStep acc).1 < acc.1 ∧
      ∀ p ∈ paths, (paths.foldl minLengthStep acc).1 ≤ p.Length) := by
  induction paths generalizing acc with
  | nil => left; simp
  | cons x rest ih =>
    rw [List.foldl_cons]
    by_cases hx : x.Length < acc.1
    · have hstep : minLengthStep acc x = (x.Length, x) := by
        simp [minLengthStep, hx]
      rw [hstep]
      right
      rcases ih (x.Length, x) with ⟨heq, hall⟩ | ⟨hmem, hlen, hlt, hall⟩
      · rw [heq]
        refine ⟨by simp, rfl, hx, ?_⟩
        intro p hp
        rcases List.mem_cons.mp hp with rfl | hp
        · exact le_refl _
        · exact hall p hp
      · refine ⟨List.mem_cons_of_mem _ hmem, hlen, lt_trans hlt hx, ?_⟩
        intro p hp
        rcases List.mem_cons.mp hp with rfl | hp
        · exact hlt.le
        · exact hall p hp
    · have hstep : minLengthStep acc x = acc := by
        simp [minLengthStep, hx]
      rw [hstep]
      rcases ih acc with ⟨heq, hall⟩ | ⟨hmem, hlen, hlt, hall⟩
      · left
        refine ⟨heq, ?_⟩
        intro p hp
        rcases List.mem_cons.mp hp with rfl | hp
        · exact not_lt.mp hx
        · exact hall p hp
      · right
        refine ⟨List.mem_cons_of_mem _ hmem, hlen, hlt, ?_⟩
        intro p hp
        rcases List.mem_cons.mp hp with rfl | hp
        · exact le_trans hlt.le (not_lt.mp hx)
        · exact hall p hp

/-- What a feasible answer of `MinLengthPath` is made of. -/
theorem MinLengthPath_ok (order : List (PathType × pathTypeFunc)) (start goal : State)
    (r : ℝ) (best : Path) (h : MinLengthPath order start goal r = .ok (best, true)) :
    ∃ paths, AvailablePaths order start goal r = .ok paths ∧ paths ≠ [] ∧
      best = (paths.foldl minLengthStep (MaxFloat64, Path.zero)).2 := by
  unfold MinLengthPath at h
  split at h
  · cases h
  · rename_i paths hpaths
    split_ifs at h with hlen
    · simp at h
    · simp only [Except.ok.injEq, Prod.mk.injEq, and_true] at h
      exact ⟨paths, hpaths, by simpa using hlen, h.symm⟩

theorem MinLengthPath_of_nonempty (order : List (PathType × pathTypeFunc)) (start goal : State)
    (r : ℝ) (paths : List Path) (h : AvailablePaths order start goal r = .ok paths)
    (hne : paths ≠ []) :
    MinLengthPath order start goal r =
      .ok ((paths.foldl minLengthStep (MaxFloat64, Path.zero)).2, true) := by
  unfold MinLengthPath
  rw [h]
  have : ¬ paths.length = 0 := by simpa using hne
  simp only [if_neg this]

theorem AvailablePaths_total (order : List (PathType × pathTypeFunc)) (start goal : State)
    (r : ℝ) (hr : 0 < r) : ∃ paths, AvailablePaths order start goal r = .ok paths := by
  unfold AvailablePaths
  have : ∃ pp, toPathParams start goal r = .ok pp := by
    unfold toPathParams
    rw [if_neg (not_le.mpr hr)]
    exact ⟨_, rfl⟩
  obtain ⟨pp, hpp⟩ := this
  rw [hpp]
  dsimp only
  split_ifs
  · exact ⟨_, rfl⟩
  · exact ⟨_, rfl⟩

/-- Two visiting orders of the map give the same set of available paths. -/
theorem AvailablePaths_mem_order (order order' : List (PathType × pathTypeFunc))
    (horder : order.Perm pathTypeFuncMap) (horder' : order'.Perm pathTypeFuncMap)
    (start goal : State) (r : ℝ) (paths paths' : List Path)
    (h : AvailablePaths order start goal r = .ok paths)
    (h' : AvailablePaths order' start goal r = .ok paths') (x : Path) :
    x ∈ paths ↔ x ∈ paths' := by
  rw [mem_AvailablePaths_iff order (fun e he => horder.mem_iff.mp he) start goal r paths h,
    mem_AvailablePaths_iff order' (fun e he => horder'.mem_iff.mp he) start goal r paths' h']
  constructor
  · rintro ⟨e, he, hx⟩
    exact ⟨e, horder'.mem_iff.mpr (horder.mem_iff.mp he), hx⟩
  · rintro ⟨e, he, hx⟩
    exact ⟨e, horder.mem_iff.mpr (horder'.mem_iff.mp he), hx⟩


/-! ## Evaluation on poses along the x axis -/

theorem mod2pi_zero : mod2pi 0 = 0 := by
  simp [mod2pi, fmodr]

theorem atan2_zero_nonneg (x : ℝ) (hx : 0 ≤ x) : atan2 0 x = 0 := by
  unfold atan2
  have : (⟨x, 0⟩ : ℂ) = (x : ℂ) := rfl
  rw [this]
  exact Complex.arg_ofReal_of_nonneg hx

/-- The normalised parameters when the goal lies straight ahead on the x axis. -/
theorem toPathParams_axis (a b : ℝ) (hab : a < b) :
    toPathParams ⟨a, 0, 0⟩ ⟨b, 0, 0⟩ 1 =
      .ok ⟨0, 0, b - a, 0, 0, 1, 1, 1, (b - a) * (b - a)⟩ := by
  have hd : 0 < b - a := sub_pos.mpr hab
  have hD : Real.sqrt ((b - a) * (b - a) + 0 * 0) = b - a := by
    rw [mul_zero, add_zero]
    exact Real.sqrt_mul_self hd.le
  have hlt : ¬ ((1 : ℝ) ≤ 0) := by norm_num
  unfold toPathParams
  simp only [if_neg hlt, sub_self, hD, gt_iff_lt, if_pos hd, atan2_zero_nonneg _ hd.le,
    mod2pi_zero, Real.sin_zero, Real.cos_zero, div_one]

theorem lsl_axis (d : ℝ) (hd : 0 ≤ d) :
    lsl ⟨0, 0, d, 0, 0, 1, 1, 1, d * d⟩ =
      ({ Path.zero with t := 0, p := d, q := 0, pathType := LSL }, true) := by
  have h1 : 2 + d * d - 2 * 1 + 2 * d * 0 = d * d := by ring
  have h2 : ¬ (d * d < 0) := not_lt.mpr (mul_self_nonneg d)
  have h3 : d + 0 - 0 = d := by ring
  unfold lsl
  simp only [sub_self, h1, if_neg h2, h3, atan2_zero_nonneg d hd, mod2pi_zero,
    Real.sqrt_mul_self hd]

/-- On the axis, with the goal more than four radii ahead, every feasible raw
candidate has a middle segment at least as long as the distance. -/
theorem axis_middle_ge (d : ℝ) (hd : 4 < d) (k : PathType) (fn : pathTypeFunc)
    (hm : (k, fn) ∈ pathTypeFuncMap) (hok : (fn ⟨0, 0, d, 0, 0, 1, 1, 1, d * d⟩).2 = true) :
    d ≤ (fn ⟨0, 0, d, 0, 0, 1, 1, 1, d * d⟩).1.p := by
  have hd0 : 0 ≤ d := by linarith
  have hsq : ¬ (d * d < 0) := not_lt.mpr (mul_self_nonneg d)
  have hccc : |(6 - d * d + 2 * 1 + 2 * d * (0 - 0)) / 8| > 1 := by
    rw [gt_iff_lt, lt_abs]
    right
    nlinarith
  rw [mem_funcMap_iff] at hm
  rcases hm with ⟨rfl, rfl⟩ | ⟨rfl, rfl⟩ | ⟨rfl, rfl⟩ | ⟨rfl, rfl⟩ | ⟨rfl, rfl⟩ | ⟨rfl, rfl⟩
  · have h1 : 2 + d * d - 2 * 1 + 2 * d * (0 - 0) = d * d := by ring
    unfold lsl
    simp only [h1, if_neg hsq, Real.sqrt_mul_self hd0, le_refl]
  · have h1 : -2 + d * d + 2 * 1 + 2 * d * (0 + 0) = d * d := by ring
    unfold lsr
    simp only [h1, if_neg hsq, Real.sqrt_mul_self hd0, le_refl]
  · have h1 : -2 + d * d + 2 * 1 - 2 * d * (0 + 0) = d * d := by ring
    unfold rsl
    simp only [h1, if_neg hsq, Real.sqrt_mul_self hd0, le_refl]
  · have h1 : 2 + d * d - 2 * 1 + 2 * d * (0 - 0) = d * d := by ring
    unfold rsr
    simp only [h1, if_neg hsq, Real.sqrt_mul_self hd0, le_refl]
  · unfold rlr at hok
    simp only [if_pos hccc] at hok
    cases hok
  · have hccc' : |(6 - d * d + 2 * 1 + 2 * d * (0 - 0)) / 8| > 1 := hccc
    unfold lrl at hok
    simp only [sub_self] at hok hccc'
    simp only [if_pos hccc'] at hok
    cases hok

theorem setTuringRadius_length_ge (k : PathType) (fn : pathTypeFunc)
    (hm : (k, fn) ∈ pathTypeFuncMap) (pp : pathParams) (hok : (fn pp).2 = true) (r : ℝ)
    (hr : 0 < r) : (fn pp).1.p * r ≤ ((fn pp).1.setTuringRadius r).Length := by
  obtain ⟨t, p, q, ht, hp, hq, hraw⟩ := family_raw k fn hm pp hok
  obtain ⟨c1, c2, c3, hc, -⟩ := courseTypes_of_mem k fn hm
  rw [hraw, setTuringRadius_raw t p q r k c1 c2 c3 hc]
  unfold Path.Length
  have := mul_nonneg ht hr.le
  have := mul_nonneg hq hr.le
  simp only
  linarith


theorem mem_funcMap_LSL : (LSL, lsl) ∈ pathTypeFuncMap := by
  simp [pathTypeFuncMap]

/-- The straight path ahead: `PathByType` on the family `LSL` with the goal straight
ahead on the x axis. -/
theorem PathByType_axis (a b : ℝ) (hab : a < b) :
    PathByType ⟨a, 0, 0⟩ ⟨b, 0, 0⟩ 1 LSL =
      .ok ({ t := 0 * 1, p := (b - a) * 1, q := 0 * 1, pathType := LSL
             totalLength := 0 + 0 * 1 + (b - a) * 1 + 0 * 1
             segments := [⟨0 * 1, CourseTypeLeft⟩, ⟨(b - a) * 1, CourseTypeStraight⟩,
               ⟨0 * 1, CourseTypeLeft⟩]
             turningRadius := 1
             origin := ⟨a, 0, 0⟩ }, true) := by
  have hd : 0 < b - a := sub_pos.mpr hab
  have hraw := lsl_axis (b - a) hd.le
  have hset := setTuringRadius_raw 0 (b - a) 0 1 LSL CourseTypeLeft CourseTypeStraight
    CourseTypeLeft rfl
  have := PathByType_of_candidate ⟨a, 0, 0⟩ ⟨b, 0, 0⟩ 1 LSL _ lsl (toPathParams_axis a b hab)
    (by
      rintro ⟨-, -, h⟩
      exact hd.ne.symm h)
    mem_funcMap_LSL (by rw [hraw])
    (by
      rw [hraw, hset]
      unfold Path.Length
      simp only
      linarith)
  rw [this, hraw, hset]

/-- As soon as one family the loop visits is feasible, `MinLengthPath` answers
feasible. -/
theorem MinLengthPath_feasible_of_PathByType (order : List (PathType × pathTypeFunc))
    (horder : ∀ e ∈ order, e ∈ pathTypeFuncMap) (start goal : State) (r : ℝ)
    (e : PathType × pathTypeFunc) (he : e ∈ order) (x : Path)
    (h : PathByType start goal r e.1 = .ok (x, true)) :
    ∃ best, MinLengthPath order start goal r = .ok (best, true) := by
  obtain ⟨pp, -, hpp, -⟩ := PathByType_ok _ _ _ _ _ h
  obtain ⟨paths, hpaths⟩ :=
    AvailablePaths_total order start goal r (toPathParams_radius_pos _ _ _ _ hpp)
  have hx : x ∈ paths :=
    (mem_AvailablePaths_iff order horder start goal r paths hpaths x).mpr ⟨e, he, h⟩
  exact ⟨_, MinLengthPath_of_nonempty order start goal r paths hpaths
    (List.ne_nil_of_mem hx)⟩

/-- With start and goal further apart than `math.MaxFloat64`, no candidate is
shorter than the initial bound of the loop of `MinLengthPath`, which then answers
the zero value `Path{}` with `true`. -/
theorem MinLengthPath_axis_far (order : List (PathType × pathTypeFunc))
    (horder : order.Perm pathTypeFuncMap) (a b : ℝ) (hfar : MaxFloat64 ≤ b - a) :
    MinLengthPath order ⟨a, 0, 0⟩ ⟨b, 0, 0⟩ 1 = .ok (Path.zero, true) := by
  have hmax : (4 : ℝ) < MaxFloat64 := by unfold MaxFloat64; norm_num
  have hd : 4 < b - a := lt_of_lt_of_le hmax hfar
  have hab : a < b := by linarith
  have hmem : ∀ e ∈ order, e ∈ pathTypeFuncMap := fun e he => horder.mem_iff.mp he
  obtain ⟨paths, hpaths⟩ := AvailablePaths_total order ⟨a, 0, 0⟩ ⟨b, 0, 0⟩ 1 one_pos
  have hx : _ ∈ paths :=
    (mem_AvailablePaths_iff order hmem _ _ 1 paths hpaths _).mpr
      ⟨(LSL, lsl), horder.mem_iff.mpr mem_funcMap_LSL, PathByType_axis a b hab⟩
  have hge : ∀ p ∈ paths, MaxFloat64 ≤ p.Length := by
    intro p hp
    obtain ⟨e, he, hpe⟩ := (mem_AvailablePaths_iff order hmem _ _ 1 paths hpaths p).mp hp
    obtain ⟨pp, fn, hpp, -, hm, hok, -, rfl⟩ := PathByType_ok _ _ _ _ _ hpe
    rw [toPathParams_axis a b hab] at hpp
    simp only [Except.ok.injEq] at hpp
    subst hpp
    have h1 := axis_middle_ge (b - a) hd e.1 fn hm hok
    have h2 := setTuringRadius_length_ge e.1 fn hm _ hok 1 one_pos
    unfold Path.Length at h2 ⊢
    simp only
    linarith
  rw [MinLengthPath_of_nonempty order _ _ 1 paths hpaths (List.ne_nil_of_mem hx)]
  rcases foldl_minLengthStep paths (MaxFloat64, Path.zero) with ⟨heq, -⟩ | ⟨hmem', hlen, hlt, -⟩
  · rw [heq]
  · exfalso
    have := hge _ hmem'
    rw [← hlen] at this
    exact absurd hlt (not_lt.mpr this)


/-! ## Start and goal at the same pose -/

theorem mod2pi_int_mul (k : ℤ) : mod2pi (k * (2 * Real.pi)) = 0 := by
  have h : (k : ℝ) * (2 * Real.pi) / twoPi = k := by
    unfold twoPi
    field_simp
  rw [mod2pi_eq, h, Int.floor_intCast]
  unfold twoPi
  ring

theorem mod2pi_of_range (x : ℝ) (h0 : 0 ≤ x) (h1 : x < twoPi) : mod2pi x = x := by
  have hf : ⌊x / twoPi⌋ = 0 := by
    rw [Int.floor_eq_iff]
    constructor
    · simpa using div_nonneg h0 twoPi_pos.le
    · simpa using (div_lt_one twoPi_pos).mpr h1
  rw [mod2pi_eq, hf]
  simp

/-- The normalised parameters when start and goal are the same pose. -/
theorem toPathParams_same (s : State) (r : ℝ) (hr : 0 < r) :
    toPathParams s s r =
      .ok ⟨mod2pi s.Yaw, mod2pi s.Yaw, 0, Real.sin (mod2pi s.Yaw), Real.sin (mod2pi s.Yaw),
        Real.cos (mod2pi s.Yaw), Real.cos (mod2pi s.Yaw), 1, 0⟩ := by
  unfold toPathParams
  simp [not_le.mpr hr]

/-- When the guard on the normalised parameters fires, `MinLengthPath` answers "no
path". -/
theorem MinLengthPath_of_degenerate (order : List (PathType × pathTypeFunc))
    (start goal : State) (r : ℝ) (pp : pathParams)
    (hpp : toPathParams start goal r = .ok pp)
    (hz : pp.alpha = 0 ∧ pp.beta = 0 ∧ pp.d = 0) :
    MinLengthPath order start goal r = .ok (Path.zero, false) := by
  unfold MinLengthPath AvailablePaths
  rw [hpp]
  simp [hz]

theorem twoPi_gt_one : 1 < twoPi := by
  unfold twoPi
  linarith [Real.pi_gt_three]

/-- The same pose with heading `1`: the family `LSL` answers a full left circle. -/
theorem PathByType_same_yaw_one :
    ∃ x, PathByType ⟨0, 0, 1⟩ ⟨0, 0, 1⟩ 1 LSL = .ok (x, true) ∧ 0 < x.Length := by
  have hone : mod2pi 1 = 1 := mod2pi_of_range 1 zero_le_one twoPi_gt_one
  have hpp := toPathParams_same ⟨0, 0, 1⟩ 1 one_pos
  simp only [hone] at hpp
  have hsq : ¬ ((2 : ℝ) + 0 - 2 * 1 + 2 * 0 * (Real.sin 1 - Real.sin 1) < 0) := by
    norm_num
  have hok : (lsl ⟨1, 1, 0, Real.sin 1, Real.sin 1, Real.cos 1, Real.cos 1, 1, 0⟩).2 = true := by
    unfold lsl
    simp only [if_neg hsq]
  obtain ⟨t, p, q, ht, hp, hq, hraw⟩ := family_raw LSL lsl mem_funcMap_LSL _ hok
  have htval : t = mod2pi (0 - 1) := by
    have := congrArg Path.t hraw
    have hsq' : ¬ ((2 : ℝ) + 0 - 2 * 1 + 2 * 0 * 0 < 0) := by norm_num
    unfold lsl at this
    simp only [sub_self, zero_add, if_neg hsq'] at this
    have h0 : atan2 0 0 = 0 := atan2_zero_nonneg 0 le_rfl
    rw [h0] at this
    exact this.symm
  have htpos : 0 < t := by
    rcases (mod2pi_nonneg (0 - 1)).lt_or_eq with h | h
    · rw [htval]; exact h
    · exfalso
      obtain ⟨k, hk⟩ := mod2pi_sub_self (0 - 1)
      rw [← h] at hk
      have hk1 : (k : ℝ) * (2 * Real.pi) = 1 := by linarith
      have hpi := Real.pi_gt_three
      rcases le_or_lt k 0 with hk0 | hk0
      · have : (k : ℝ) ≤ 0 := by exact_mod_cast hk0
        nlinarith
      · have : (1 : ℝ) ≤ k := by exact_mod_cast hk0
        nlinarith
  have hset := setTuringRadius_raw t p q 1 LSL CourseTypeLeft CourseTypeStraight
    CourseTypeLeft rfl
  have hlen : 0 < ((lsl ⟨1, 1, 0, Real.sin 1, Real.sin 1, Real.cos 1, Real.cos 1, 1,
      0⟩).1.setTuringRadius 1).Length := by
    rw [hraw, hset]
    unfold Path.Length
    simp only
    linarith
  refine ⟨_, PathByType_of_candidate ⟨0, 0, 1⟩ ⟨0, 0, 1⟩ 1 LSL _ lsl hpp ?_ mem_funcMap_LSL
    hok hlen, hlen⟩
  rintro ⟨h, -, -⟩
  exact one_ne_zero h


/-! ## The claims -/

/-- C1. Whenever `PathByType` answers `(path, true)` (which needs a positive turning
radius and one of the six families), sampling the path at its full length returns a
pose whose `X` and `Y` are those of the goal: the path ends at the goal position. -/
theorem PathByType_ends_at_goal_position (start goal : State) (r : ℝ) (f : PathType)
    (path : Path) (h : PathByType start goal r f = .ok (path, true)) :
    ∃ s : State, path.sample path.Length = .ok s ∧ s.X = goal.X ∧ s.Y = goal.Y := by
  obtain ⟨s, hs, hpos, -⟩ := endpoint start goal r f path h
  refine ⟨s, hs, ?_, ?_⟩
  · simpa [pos] using congrArg Complex.re hpos
  · simpa [pos] using congrArg Complex.im hpos

theorem PathByType_ends_at_goal_position_witness :
    ∃ path s, PathByType ⟨0, 0, 0⟩ ⟨4, 0, 0⟩ 1 LSL = .ok (path, true) ∧
      path.sample path.Length = .ok s ∧ s.X = 4 ∧ s.Y = 0 := by
  have h := PathByType_axis 0 4 (by norm_num)
  obtain ⟨s, hs, hx, hy⟩ := PathByType_ends_at_goal_position ⟨0, 0, 0⟩ ⟨4, 0, 0⟩ 1 LSL _ h
  exact ⟨_, s, h, hs, hx, hy⟩

/-- C2. Whenever `PathByType` answers `(path, true)`, the heading of the pose sampled
at the full length of the path differs from the heading of the goal by an integer
multiple of `2π`: the path arrives with the goal heading. -/
theorem PathByType_ends_with_goal_heading (start goal : State) (r : ℝ) (f : PathType)
    (path : Path) (h : PathByType start goal r f = .ok (path, true)) :
    ∃ s : State, path.sample path.Length = .ok s ∧
      ∃ k : ℤ, s.Yaw - goal.Yaw = k * (2 * Real.pi) := by
  obtain ⟨s, hs, -, hyaw⟩ := endpoint start goal r f path h
  exact ⟨s, hs, E_eq_imp _ _ hyaw⟩

theorem PathByType_ends_with_goal_heading_witness :
    ∃ path s, PathByType ⟨1, 0, 0⟩ ⟨3, 0, 0⟩ 1 LSL = .ok (path, true) ∧
      path.sample path.Length = .ok s ∧ ∃ k : ℤ, s.Yaw - 0 = k * (2 * Real.pi) := by
  have h := PathByType_axis 1 3 (by norm_num)
  obtain ⟨s, hs, hk⟩ := PathByType_ends_with_goal_heading ⟨1, 0, 0⟩ ⟨3, 0, 0⟩ 1 LSL _ h
  exact ⟨_, s, h, hs, hk⟩

/-- Over the reals, every path `PathByType` answers as feasible, and every element of
`AvailablePaths` (whatever the order in which the map of families is visited), has
exactly three segments, a length equal to the sum of the three segment lengths,
segment lengths that are all nonnegative, and a positive length. -/
theorem feasible_path_three_segments_positive (order : List (PathType × pathTypeFunc))
    (horder : order.Perm pathTypeFuncMap) (start goal : State) (r : ℝ) (path : Path)
    (h : (∃ f, PathByType start goal r f = .ok (path, true)) ∨
      (∃ paths, AvailablePaths order start goal r = .ok paths ∧ path ∈ paths)) :
    ∃ g0 g1 g2 : PathSegment, path.Segments = [g0, g1, g2] ∧
      path.Length = g0.Length + g1.Length + g2.Length ∧
      0 ≤ g0.Length ∧ 0 ≤ g1.Length ∧ 0 ≤ g2.Length ∧ 0 < path.Length := by
  have hf : ∃ f, PathByType start goal r f = .ok (path, true) := by
    rcases h with hf | ⟨paths, hpaths, hmem⟩
    · exact hf
    · obtain ⟨e, -, he⟩ :=
        (mem_AvailablePaths_iff order (fun e he => horder.mem_iff.mp he) start goal r paths
          hpaths path).mp hmem
      exact ⟨e.1, he⟩
  obtain ⟨f, hf⟩ := hf
  obtain ⟨t, p, q, c1, c2, c3, hr, ht, hp, hq, -, -, -, -, hlen, rfl⟩ :=
    PathByType_shape start goal r f path hf
  refine ⟨⟨t * r, c1⟩, ⟨p * r, c2⟩, ⟨q * r, c3⟩, rfl, ?_, mul_nonneg ht hr.le,
    mul_nonneg hp hr.le, mul_nonneg hq hr.le, hlen⟩
  unfold Path.Length
  simp only [zero_add]

/-- Over the reals, if `MinLengthPath` answers `(best, true)`, then `best` is no
longer than any element of `AvailablePaths` for the same input, whatever the orders in
which the two calls visit the map of families. -/
theorem MinLengthPath_le_available (order order' : List (PathType × pathTypeFunc))
    (horder : order.Perm pathTypeFuncMap) (horder' : order'.Perm pathTypeFuncMap)
    (start goal : State) (r : ℝ) (best : Path) (paths : List Path)
    (h : MinLengthPath order start goal r = .ok (best, true))
    (h' : AvailablePaths order' start goal r = .ok paths) :
    ∀ p ∈ paths, best.Length ≤ p.Length := by
  obtain ⟨paths0, hpaths0, -, rfl⟩ := MinLengthPath_ok order start goal r best h
  intro p hp
  have hp0 : p ∈ paths0 :=
    (AvailablePaths_mem_order order order' horder horder' start goal r paths0 paths hpaths0 h'
      p).mpr hp
  rcases foldl_minLengthStep paths0 (MaxFloat64, Path.zero) with
    ⟨heq, hall⟩ | ⟨-, hlen, -, hall⟩
  · rw [heq]
    have := hall p hp0
    have hmax := MaxFloat64_pos
    show Path.zero.totalLength ≤ p.Length
    simp only [Path.zero]
    simp only at this
    linarith
  · rw [← hlen]
    exact hall p hp0

/-- The guard at a common pose. When start and goal are the same pose `s` and the
heading of `s` is an integer multiple of `2π`, `MinLengthPath` answers "no path"
(`ok = false`) for every position and every positive turning radius. -/
theorem MinLengthPath_same_pose_yaw_multiple (order : List (PathType × pathTypeFunc))
    (s : State) (r : ℝ) (hr : 0 < r) (hyaw : ∃ k : ℤ, s.Yaw = k * (2 * Real.pi)) :
    MinLengthPath order s s r = .ok (Path.zero, false) := by
  obtain ⟨k, hk⟩ := hyaw
  have h0 : mod2pi s.Yaw = 0 := by rw [hk]; exact mod2pi_int_mul k
  exact MinLengthPath_of_degenerate order s s r _ (toPathParams_same s r hr) ⟨h0, h0, rfl⟩

/-- C5 fails on the code. With start and goal both the pose `(0, 0, 1)` and turning
radius `1`, `MinLengthPath` answers feasible although start and goal are the same
pose: the guard compares the normalised headings with `0`, and the normalised heading
of `1` is `1`. -/
theorem MinLengthPath_same_pose_yaw_one_feasible :
    ∃ best, MinLengthPath pathTypeFuncMap ⟨0, 0, 1⟩ ⟨0, 0, 1⟩ 1 = .ok (best, true) := by
  obtain ⟨x, hx, -⟩ := PathByType_same_yaw_one
  exact MinLengthPath_feasible_of_PathByType pathTypeFuncMap (fun _ he => he) _ _ 1
    (LSL, lsl) mem_funcMap_LSL x hx

/-- C6. With a turning radius that is zero or negative, each of `PathByType`,
`AvailablePaths` and `MinLengthPath` panics with the usage error of
`toPathParams`; none returns a normal result. -/
theorem nonpositive_radius_panics (order : List (PathType × pathTypeFunc))
    (start goal : State) (f : PathType) (r : ℝ) (hr : r ≤ 0) :
    PathByType start goal r f = .error "turningRadius must be greater than zero" ∧
      AvailablePaths order start goal r = .error "turningRadius must be greater than zero" ∧
      MinLengthPath order start goal r = .error "turningRadius must be greater than zero" := by
  have hpp := toPathParams_error start goal r hr
  have hA : AvailablePaths order start goal r =
      .error "turningRadius must be greater than zero" := by
    unfold AvailablePaths; rw [hpp]
  refine ⟨?_, hA, ?_⟩
  · unfold PathByType; rw [hpp]
  · unfold MinLengthPath; rw [hA]

theorem nonpositive_radius_panics_witness :
    PathByType ⟨0, 0, 0⟩ ⟨4, 4, 0⟩ 0 LSL = .error "turningRadius must be greater than zero" ∧
      AvailablePaths pathTypeFuncMap ⟨0, 0, 0⟩ ⟨4, 4, 0⟩ 0 =
        .error "turningRadius must be greater than zero" ∧
      MinLengthPath pathTypeFuncMap ⟨0, 0, 0⟩ ⟨4, 4, 0⟩ 0 =
        .error "turningRadius must be greater than zero" :=
  nonpositive_radius_panics pathTypeFuncMap ⟨0, 0, 0⟩ ⟨4, 4, 0⟩ LSL 0 le_rfl

/-- C7 fails on the code. From `(-2^1023, 0, 0)` to `(2^1023, 0, 0)` with turning
radius `1`, every available path is at least `math.MaxFloat64` long, so the loop of
`MinLengthPath` never replaces its initial `bestPath`: the answer is the zero value
`Path{}` together with `true`, a path of length `0` with no segment that is not an
element of `AvailablePaths`. -/
theorem MinLengthPath_far_answers_zero_path :
    MinLengthPath pathTypeFuncMap ⟨-2 ^ 1023, 0, 0⟩ ⟨2 ^ 1023, 0, 0⟩ 1 =
        .ok (Path.zero, true) ∧
      Path.zero.Length = 0 ∧ Path.zero.Segments = [] ∧
      ∃ paths, AvailablePaths pathTypeFuncMap ⟨-2 ^ 1023, 0, 0⟩ ⟨2 ^ 1023, 0, 0⟩ 1 =
        .ok paths ∧ Path.zero ∉ paths := by
  have hfar : MaxFloat64 ≤ (2 : ℝ) ^ 1023 - -2 ^ 1023 := by
    unfold MaxFloat64; norm_num
  refine ⟨MinLengthPath_axis_far pathTypeFuncMap (List.Perm.refl _) _ _ hfar, rfl, rfl, ?_⟩
  obtain ⟨paths, hpaths⟩ :=
    AvailablePaths_total pathTypeFuncMap ⟨-2 ^ 1023, 0, 0⟩ ⟨2 ^ 1023, 0, 0⟩ 1 one_pos
  refine ⟨paths, hpaths, ?_⟩
  intro hmem
  obtain ⟨e, -, he⟩ :=
    (mem_AvailablePaths_iff pathTypeFuncMap (fun _ h => h) _ _ 1 paths hpaths _).mp hmem
  obtain ⟨t, p, q, c1, c2, c3, -, -, -, -, -, -, -, -, -, hshape⟩ :=
    PathByType_shape _ _ 1 e.1 _ he
  have := congrArg Path.segments hshape
  simp [Path.zero] at this


/-- C8. A feasible answer of `PathByType` carries the requested family, and the
course types of its segments are, in order, the fixed triple of that family:
LSL (L,S,L), LSR (L,S,R), RSL (R,S,L), RSR (R,S,R), RLR (R,L,R), LRL (L,R,L). -/
theorem PathByType_family_and_course_types (start goal : State) (r : ℝ) (f : PathType)
    (path : Path) (h : PathByType start goal r f = .ok (path, true)) :
    path.PathType = f ∧
      ((f = LSL ∧ path.Segments.map PathSegment.CourseType =
          [CourseTypeLeft, CourseTypeStraight, CourseTypeLeft]) ∨
       (f = LSR ∧ path.Segments.map PathSegment.CourseType =
          [CourseTypeLeft, CourseTypeStraight, CourseTypeRight]) ∨
       (f = RSL ∧ path.Segments.map PathSegment.CourseType =
          [CourseTypeRight, CourseTypeStraight, CourseTypeLeft]) ∨
       (f = RSR ∧ path.Segments.map PathSegment.CourseType =
          [CourseTypeRight, CourseTypeStraight, CourseTypeRight]) ∨
       (f = RLR ∧ path.Segments.map PathSegment.CourseType =
          [CourseTypeRight, CourseTypeLeft, CourseTypeRight]) ∨
       (f = LRL ∧ path.Segments.map PathSegment.CourseType =
          [CourseTypeLeft, CourseTypeRight, CourseTypeLeft])) := by
  obtain ⟨-, fn, -, -, hm, -⟩ := PathByType_ok start goal r f path h
  obtain ⟨t, p, q, c1, c2, c3, -, -, -, -, hc, -, -, -, -, rfl⟩ :=
    PathByType_shape start goal r f path h
  refine ⟨rfl, ?_⟩
  have hmap : (Path.Segments
      { t := t * r, p := p * r, q := q * r, pathType := f
        totalLength := 0 + t * r + p * r + q * r
        segments := [⟨t * r, c1⟩, ⟨p * r, c2⟩, ⟨q * r, c3⟩]
        turningRadius := r, origin := start }).map PathSegment.CourseType = [c1, c2, c3] := rfl
  rw [hmap]
  rw [mem_funcMap_iff] at hm
  rcases hm with ⟨rfl, -⟩ | ⟨rfl, -⟩ | ⟨rfl, -⟩ | ⟨rfl, -⟩ | ⟨rfl, -⟩ | ⟨rfl, -⟩ <;>
    · simp only [pathTypeCourseTypesMap, List.lookup, Option.some.injEq, List.cons.injEq,
        and_true] at hc
      obtain ⟨rfl, rfl, rfl⟩ := hc
      simp

theorem PathByType_family_and_course_types_witness :
    ∃ path : Path, PathByType ⟨0, 0, 0⟩ ⟨4, 0, 0⟩ 1 LSL = .ok (path, true) ∧
      path.PathType = LSL ∧
      path.Segments.map PathSegment.CourseType =
        [CourseTypeLeft, CourseTypeStraight, CourseTypeLeft] := by
  have h := PathByType_axis 0 4 (by norm_num)
  have h2 := PathByType_family_and_course_types ⟨0, 0, 0⟩ ⟨4, 0, 0⟩ 1 LSL _ h
  exact ⟨_, h, h2.1, rfl⟩

/-- C10, with arithmetic over the reals. For a feasible answer of `PathByType`, sampling at the full length returns
the pose obtained by applying `stateAtDistance` three times from the origin of the
path, once per segment in order, with the full length and the course type of that
segment; each of the three applications returns a pose. -/
theorem sample_full_length_three_segments (start goal : State) (r : ℝ) (f : PathType)
    (path : Path) (h : PathByType start goal r f = .ok (path, true)) :
    ∃ (g0 g1 g2 : PathSegment) (s1 s2 s3 : State), path.Segments = [g0, g1, g2] ∧
      stateAtDistance path.origin g0.Length g0.CourseType path.turningRadius = .ok s1 ∧
      stateAtDistance s1 g1.Length g1.CourseType path.turningRadius = .ok s2 ∧
      stateAtDistance s2 g2.Length g2.CourseType path.turningRadius = .ok s3 ∧
      path.sample path.Length = .ok s3 := by
  obtain ⟨t, p, q, c1, c2, c3, hr, ht, hp, hq, hc, v1, v2, v3, hlen, rfl⟩ :=
    PathByType_shape start goal r f path h
  refine ⟨⟨t * r, c1⟩, ⟨p * r, c2⟩, ⟨q * r, c3⟩, _, _, _, rfl,
    stateAtDistance_eq_move _ _ _ _ v1, stateAtDistance_eq_move _ _ _ _ v2,
    stateAtDistance_eq_move _ _ _ _ v3, ?_⟩
  unfold Path.sample
  unfold Path.Length
  simp only [zero_add] at hlen ⊢
  simp only [if_neg (not_le.mpr hlen), min_self]
  exact sampleLoop_three r ⟨t * r, c1⟩ ⟨p * r, c2⟩ ⟨q * r, c3⟩ start
    (mul_nonneg hp hr.le) (mul_nonneg hq hr.le) v1 v2 v3

theorem sample_full_length_three_segments_witness :
    ∃ (path : Path) (g0 g1 g2 : PathSegment) (s1 s2 s3 : State),
      PathByType ⟨0, 0, 0⟩ ⟨4, 0, 0⟩ 1 LSL = .ok (path, true) ∧
      path.Segments = [g0, g1, g2] ∧
      stateAtDistance path.origin g0.Length g0.CourseType path.turningRadius = .ok s1 ∧
      stateAtDistance s1 g1.Length g1.CourseType path.turningRadius = .ok s2 ∧
      stateAtDistance s2 g2.Length g2.CourseType path.turningRadius = .ok s3 ∧
      path.sample path.Length = .ok s3 := by
  have h := PathByType_axis 0 4 (by norm_num)
  obtain ⟨g0, g1, g2, s1, s2, s3, h1, h2, h3, h4, h5⟩ :=
    sample_full_length_three_segments ⟨0, 0, 0⟩ ⟨4, 0, 0⟩ 1 LSL _ h
  exact ⟨_, g0, g1, g2, s1, s2, s3, h, h1, h2, h3, h4, h5⟩

/-! ## Sampling -/

theorem sampleLoop_ok (r : ℝ) (segs : List PathSegment)
    (hv : ∀ g ∈ segs, g.CourseType = CourseTypeLeft ∨ g.CourseType = CourseTypeRight ∨
      g.CourseType = CourseTypeStraight) (d : ℝ) (s : State) :
    ∃ s', sampleLoop r segs d s = .ok s' := by
  induction segs generalizing d s with
  | nil => exact ⟨s, rfl⟩
  | cons g rest ih =>
    unfold sampleLoop
    simp only [stateAtDistance_eq_move _ _ _ _ (hv g (List.mem_cons_self _ _))]
    split_ifs
    · exact ⟨_, rfl⟩
    · exact ih (fun g' hg' => hv g' (List.mem_cons_of_mem _ hg')) _ _

/-- On a feasible answer of `PathByType`, `sample` returns a pose at every distance. -/
theorem sample_ok (start goal : State) (r : ℝ) (f : PathType) (path : Path)
    (h : PathByType start goal r f = .ok (path, true)) (d : ℝ) :
    path.sample d = .ok (samplePose path d) := by
  obtain ⟨t, p, q, c1, c2, c3, -, -, -, -, -, v1, v2, v3, -, rfl⟩ :=
    PathByType_shape start goal r f path h
  have hv : ∀ g ∈ [(⟨t * r, c1⟩ : PathSegment), ⟨p * r, c2⟩, ⟨q * r, c3⟩],
      g.CourseType = CourseTypeLeft ∨ g.CourseType = CourseTypeRight ∨
      g.CourseType = CourseTypeStraight := by
    intro g hg
    simp only [List.mem_cons, List.mem_singleton, List.not_mem_nil, or_false] at hg
    rcases hg with rfl | rfl | rfl
    · exact v1
    · exact v2
    · exact v3
  have hex : ∃ s', Path.sample
      { t := t * r, p := p * r, q := q * r, pathType := f
        totalLength := 0 + t * r + p * r + q * r
        segments := [⟨t * r, c1⟩, ⟨p * r, c2⟩, ⟨q * r, c3⟩]
        turningRadius := r, origin := start } d = .ok s' := by
    unfold Path.sample
    split_ifs
    · exact ⟨_, rfl⟩
    · exact sampleLoop_ok r _ hv _ _
  obtain ⟨s', hs'⟩ := hex
  unfold samplePose
  rw [hs']

theorem PathByType_origin (start goal : State) (r : ℝ) (f : PathType) (path : Path)
    (h : PathByType start goal r f = .ok (path, true)) : path.origin = start := by
  obtain ⟨t, p, q, c1, c2, c3, -, -, -, -, -, -, -, -, -, rfl⟩ :=
    PathByType_shape start goal r f path h
  rfl

theorem PathByType_length_pos (start goal : State) (r : ℝ) (f : PathType) (path : Path)
    (h : PathByType start goal r f = .ok (path, true)) : 0 < path.Length := by
  obtain ⟨t, p, q, c1, c2, c3, -, -, -, -, -, -, -, -, hlen, rfl⟩ :=
    PathByType_shape start goal r f path h
  exact hlen

/-- C11. On a feasible answer of `PathByType`, sampling at a distance that is zero or
negative returns the origin of the path, which is the start pose, and sampling
beyond the length of the path returns the same as sampling at the length. -/
theorem sample_clamps (start goal : State) (r : ℝ) (f : PathType) (path : Path)
    (h : PathByType start goal r f = .ok (path, true)) :
    (∀ d : ℝ, d ≤ 0 → path.sample d = .ok path.origin) ∧ path.origin = start ∧
      (∀ d : ℝ, d > path.Length → path.sample d = path.sample path.Length) := by
  refine ⟨?_, PathByType_origin start goal r f path h, ?_⟩
  · intro d hd
    unfold Path.sample
    rw [if_pos hd]
  · intro d hd
    have hlen := PathByType_length_pos start goal r f path h
    have hd0 : ¬ d ≤ 0 := not_le.mpr (lt_trans hlen hd)
    unfold Path.sample
    rw [if_neg hd0, if_neg (not_le.mpr hlen), min_eq_right hd.le, min_self]

theorem sample_clamps_witness :
    ∃ path : Path, PathByType ⟨0, 0, 0⟩ ⟨4, 0, 0⟩ 1 LSL = .ok (path, true) ∧
      path.sample (-1) = .ok ⟨0, 0, 0⟩ ∧ path.sample 5 = path.sample path.Length := by
  have h := PathByType_axis 0 4 (by norm_num)
  obtain ⟨h1, h2, h3⟩ := sample_clamps ⟨0, 0, 0⟩ ⟨4, 0, 0⟩ 1 LSL _ h
  refine ⟨_, h, ?_, h3 5 ?_⟩
  · rw [h1 (-1) (by norm_num), h2]
  · unfold Path.Length
    norm_num

/-- The loop of `Interpolate` from round `k` on: with `n` the last round whose
distance is within the length, enough fuel lets the loop append the poses of rounds
`k` to `n` and stop. -/
theorem interpolateLoop_spec (start goal : State) (r : ℝ) (f : PathType) (path : Path)
    (h : PathByType start goal r f = .ok (path, true)) (stepSize : ℝ) (hs : 0 < stepSize)
    (m : ℕ) : ∀ (k fuel : ℕ) (states : List State),
      k + m = ⌊path.Length / stepSize⌋₊ + 1 → m + 1 ≤ fuel →
      interpolateLoop path stepSize fuel ((k : ℝ) * stepSize) states =
        some (.ok (states ++ (List.range' k m).map
          (fun j : ℕ => samplePose path ((j : ℝ) * stepSize)))) := by
  induction m with
  | zero =>
    intro k fuel states hk hfuel
    obtain ⟨fuel', rfl⟩ : ∃ fuel', fuel = fuel' + 1 := ⟨fuel - 1, by omega⟩
    have hgt : path.Length < (k : ℝ) * stepSize := by
      have h1 := Nat.lt_floor_add_one (path.Length / stepSize)
      have h2 : (k : ℝ) = (⌊path.Length / stepSize⌋₊ : ℝ) + 1 := by
        have : k = ⌊path.Length / stepSize⌋₊ + 1 := by omega
        rw [this]; push_cast; ring
      rw [h2]
      exact (div_lt_iff₀ hs).mp h1
    unfold interpolateLoop
    simp [not_le.mpr hgt]
  | succ m ih =>
    intro k fuel states hk hfuel
    obtain ⟨fuel', rfl⟩ : ∃ fuel', fuel = fuel' + 1 := ⟨fuel - 1, by omega⟩
    have hle : (k : ℝ) * stepSize ≤ path.Length := by
      have hlen := PathByType_length_pos start goal r f path h
      have h0 : 0 ≤ path.Length / stepSize := div_nonneg hlen.le hs.le
      have h1 := Nat.floor_le h0
      have h2 : (k : ℝ) ≤ (⌊path.Length / stepSize⌋₊ : ℝ) := by
        have : k ≤ ⌊path.Length / stepSize⌋₊ := by omega
        exact_mod_cast this
      exact (le_div_iff₀ hs).mp (le_trans h2 h1)
    have hnext : (k : ℝ) * stepSize + stepSize = ((k + 1 : ℕ) : ℝ) * stepSize := by
      push_cast; ring
    unfold interpolateLoop
    rw [if_pos hle, sample_ok start goal r f path h]
    simp only
    rw [hnext, ih (k + 1) fuel' _ (by omega) (by omega)]
    simp [List.range'_succ]

/-- C12, with arithmetic over the reals. For a feasible answer of `PathByType` and a
positive step, the loop of
`Interpolate` ends (any fuel from `⌊L/step⌋ + 2` on is enough) and returns exactly
`⌊L/step⌋ + 1` poses, `L` being the length of the path; the `k`-th one is the pose
`sample` returns at distance `k·step`, and the first one is the start pose. -/
theorem Interpolate_poses (start goal : State) (r : ℝ) (f : PathType) (path : Path)
    (h : PathByType start goal r f = .ok (path, true)) (stepSize : ℝ) (hs : 0 < stepSize) :
    (∀ fuel : ℕ, ⌊path.Length / stepSize⌋₊ + 2 ≤ fuel →
      path.Interpolate fuel stepSize =
        some (.ok ((List.range (⌊path.Length / stepSize⌋₊ + 1)).map
          (fun k : ℕ => samplePose path ((k : ℝ) * stepSize))))) ∧
      ((List.range (⌊path.Length / stepSize⌋₊ + 1)).map
          (fun k : ℕ => samplePose path ((k : ℝ) * stepSize))).length =
        ⌊path.Length / stepSize⌋₊ + 1 ∧
      (∀ k : ℕ, path.sample ((k : ℝ) * stepSize) =
        .ok (samplePose path ((k : ℝ) * stepSize))) ∧
      samplePose path (((0 : ℕ) : ℝ) * stepSize) = start := by
  refine ⟨?_, by simp, fun k => sample_ok start goal r f path h _, ?_⟩
  · intro fuel hfuel
    have := interpolateLoop_spec start goal r f path h stepSize hs
      (⌊path.Length / stepSize⌋₊ + 1) 0 fuel [] (by omega) (by omega)
    unfold Path.Interpolate
    simp only [Nat.cast_zero, zero_mul, List.nil_append] at this
    rw [this, List.range_eq_range']
  · have h0 : path.sample (((0 : ℕ) : ℝ) * stepSize) = .ok path.origin := by
      unfold Path.sample
      simp
    have h1 := sample_ok start goal r f path h (((0 : ℕ) : ℝ) * stepSize)
    rw [h0] at h1
    simp only [Except.ok.injEq] at h1
    rw [← h1, PathByType_origin start goal r f path h]

theorem Interpolate_poses_witness :
    ∃ path : Path, PathByType ⟨0, 0, 0⟩ ⟨4, 0, 0⟩ 1 LSL = .ok (path, true) ∧
      path.Interpolate 10 1 =
        some (.ok ((List.range (⌊path.Length / 1⌋₊ + 1)).map
          (fun k : ℕ => samplePose path ((k : ℝ) * 1)))) ∧
      ⌊path.Length / 1⌋₊ + 1 = 5 := by
  have h := PathByType_axis 0 4 (by norm_num)
  obtain ⟨h1, -, -, -⟩ := Interpolate_poses ⟨0, 0, 0⟩ ⟨4, 0, 0⟩ 1 LSL _ h 1 one_pos
  have hfloor : ⌊Path.Length
      { t := 0 * 1, p := (4 - 0) * 1, q := 0 * 1, pathType := LSL
        totalLength := 0 + 0 * 1 + (4 - 0) * 1 + 0 * 1
        segments := [⟨0 * 1, CourseTypeLeft⟩, ⟨(4 - 0) * 1, CourseTypeStraight⟩,
          ⟨0 * 1, CourseTypeLeft⟩]
        turningRadius := 1
        origin := ⟨0, 0, 0⟩ } / (1 : ℝ)⌋₊ = 4 := by
    unfold Path.Length
    norm_num
  refine ⟨_, h, h1 10 ?_, ?_⟩
  · rw [hfloor]
    norm_num
  · rw [hfloor]

/-! ## The list of available paths -/

theorem PathByType_pathType (start goal : State) (r : ℝ) (f : PathType) (path : Path)
    (h : PathByType start goal r f = .ok (path, true)) : path.pathType = f := by
  obtain ⟨t, p, q, c1, c2, c3, -, -, -, -, -, -, -, -, -, rfl⟩ :=
    PathByType_shape start goal r f path h
  rfl

/-- The families of the paths the loop of `AvailablePaths` appends are, in order,
families of the entries it visits. -/
theorem foldl_availablePathsStep_families (pp : pathParams) (start : State) (r : ℝ)
    (order : List (PathType × pathTypeFunc)) (horder : ∀ e ∈ order, e ∈ pathTypeFuncMap)
    (acc : List Path) :
    ∃ l : List PathType, l.Sublist (order.map Prod.fst) ∧
      (order.foldl (availablePathsStep pp start r) acc).map Path.pathType =
        acc.map Path.pathType ++ l := by
  induction order generalizing acc with
  | nil => exact ⟨[], List.Sublist.refl _, by simp⟩
  | cons e rest ih =>
    have hrest : ∀ e' ∈ rest, e' ∈ pathTypeFuncMap :=
      fun e' he' => horder e' (List.mem_cons_of_mem _ he')
    rw [List.foldl_cons]
    by_cases h1 : (e.2 pp).2 = false
    · have hstep : availablePathsStep pp start r acc e = acc := by
        unfold availablePathsStep
        simp only [if_pos h1]
      rw [hstep]
      obtain ⟨l, hl, heq⟩ := ih hrest acc
      exact ⟨l, hl.trans (List.sublist_cons_self _ _), heq⟩
    · by_cases h2 : ((e.2 pp).1.setTuringRadius r).Length ≤ 0
      · have hstep : availablePathsStep pp start r acc e = acc := by
          unfold availablePathsStep
          simp only [if_neg h1, if_pos h2]
        rw [hstep]
        obtain ⟨l, hl, heq⟩ := ih hrest acc
        exact ⟨l, hl.trans (List.sublist_cons_self _ _), heq⟩
      · have hstep : availablePathsStep pp start r acc e =
            acc ++ [{ (e.2 pp).1.setTuringRadius r with origin := start }] := by
          unfold availablePathsStep
          simp only [if_neg h1, if_neg h2]
        rw [hstep]
        obtain ⟨l, hl, heq⟩ := ih hrest
          (acc ++ [{ (e.2 pp).1.setTuringRadius r with origin := start }])
        refine ⟨e.1 :: l, ?_, ?_⟩
        · simpa using hl.cons₂ e.1
        · have hok : (e.2 pp).2 = true := by simpa using h1
          obtain ⟨t, p, q, -, -, -, hraw⟩ :=
            family_raw e.1 e.2 (horder e (List.mem_cons_self _ _)) pp hok
          obtain ⟨c1, c2, c3, hc, -⟩ :=
            courseTypes_of_mem e.1 e.2 (horder e (List.mem_cons_self _ _))
          rw [heq, hraw, setTuringRadius_raw t p q r e.1 c1 c2 c3 hc]
          simp

theorem funcMap_keys_nodup : (pathTypeFuncMap.map Prod.fst).Nodup := by
  simp only [pathTypeFuncMap, List.map_cons, List.map_nil]
  decide

/-- C13. For a positive turning radius and any visiting order of the map of
families, `AvailablePaths` returns at most six paths, their families are pairwise
distinct, and a path `P` of family `f` is in the list exactly when `PathByType` on
`f` answers `(P, true)`. -/
theorem AvailablePaths_families (order : List (PathType × pathTypeFunc))
    (horder : order.Perm pathTypeFuncMap) (start goal : State) (r : ℝ) (hr : 0 < r) :
    ∃ paths, AvailablePaths order start goal r = .ok paths ∧ paths.length ≤ 6 ∧
      (paths.map Path.PathType).Nodup ∧
      ∀ (f : PathType) (P : Path),
        (P ∈ paths ∧ P.PathType = f) ↔ PathByType start goal r f = .ok (P, true) := by
  have hmem : ∀ e ∈ order, e ∈ pathTypeFuncMap := fun e he => horder.mem_iff.mp he
  obtain ⟨paths, hpaths⟩ := AvailablePaths_total order start goal r hr
  have hfam : ∃ l : List PathType, l.Sublist (order.map Prod.fst) ∧
      paths.map Path.pathType = l := by
    unfold AvailablePaths at hpaths
    split at hpaths
    · cases hpaths
    · rename_i pp hpp
      split_ifs at hpaths with hz
      · simp only [Except.ok.injEq] at hpaths
        subst hpaths
        exact ⟨[], List.nil_sublist _, rfl⟩
      · simp only [Except.ok.injEq] at hpaths
        subst hpaths
        obtain ⟨l, hl, heq⟩ := foldl_availablePathsStep_families pp start r order hmem []
        exact ⟨l, hl, by simpa using heq⟩
  obtain ⟨l, hl, hleq⟩ := hfam
  have hkeys : (order.map Prod.fst).Perm (pathTypeFuncMap.map Prod.fst) := horder.map _
  refine ⟨paths, hpaths, ?_, ?_, ?_⟩
  · have h1 : paths.length = l.length := by rw [← hleq, List.length_map]
    have h2 := hl.length_le
    have h3 : order.length = 6 := by rw [horder.length_eq]; rfl
    rw [List.length_map] at h2
    omega
  · show (paths.map Path.pathType).Nodup
    rw [hleq]
    exact (hkeys.nodup_iff.mpr funcMap_keys_nodup).sublist hl
  · intro f P
    rw [mem_AvailablePaths_iff order hmem start goal r paths hpaths P]
    constructor
    · rintro ⟨⟨e, he, hP⟩, hf⟩
      have := PathByType_pathType start goal r e.1 P hP
      have hfe : f = e.1 := by rw [← hf]; exact this
      rw [hfe]; exact hP
    · intro hP
      obtain ⟨-, fn, -, -, hm, -⟩ := PathByType_ok start goal r f P hP
      exact ⟨⟨(f, fn), horder.mem_iff.mpr hm, hP⟩, PathByType_pathType start goal r f P hP⟩

theorem AvailablePaths_families_witness :
    ∃ paths, AvailablePaths pathTypeFuncMap ⟨0, 0, 0⟩ ⟨4, 0, 0⟩ 1 = .ok paths ∧
      paths.length ≤ 6 ∧ (paths.map Path.PathType).Nodup ∧
      ∀ (f : PathType) (P : Path),
        (P ∈ paths ∧ P.PathType = f) ↔
          PathByType ⟨0, 0, 0⟩ ⟨4, 0, 0⟩ 1 f = .ok (P, true) :=
  AvailablePaths_families pathTypeFuncMap (List.Perm.refl _) ⟨0, 0, 0⟩ ⟨4, 0, 0⟩ 1 one_pos

/-! ## The guard on the normalised parameters -/

theorem distance_nonneg (start goal : State) : 0 ≤ distance start goal :=
  Real.sqrt_nonneg _

theorem distance_eq_zero_iff (start goal : State) :
    distance start goal = 0 ↔ goal.X = start.X ∧ goal.Y = start.Y := by
  unfold distance
  have hnn : 0 ≤ (goal.X - start.X) * (goal.X - start.X) +
      (goal.Y - start.Y) * (goal.Y - start.Y) :=
    add_nonneg (mul_self_nonneg _) (mul_self_nonneg _)
  rw [Real.sqrt_eq_zero hnn]
  constructor
  · intro h
    have hx : goal.X - start.X = 0 := by
      nlinarith [mul_self_nonneg (goal.X - start.X), mul_self_nonneg (goal.Y - start.Y)]
    have hy : goal.Y - start.Y = 0 := by
      nlinarith [mul_self_nonneg (goal.X - start.X), mul_self_nonneg (goal.Y - start.Y)]
    exact ⟨by linarith, by linarith⟩
  · rintro ⟨hx, hy⟩
    rw [hx, hy]; ring

/-- What `toPathParams` returns for a positive turning radius. -/
theorem toPathParams_eq (start goal : State) (r : ℝ) (hr : 0 < r) :
    toPathParams start goal r =
      .ok { alpha := mod2pi (start.Yaw - direction start goal)
            beta := mod2pi (goal.Yaw - direction start goal)
            d := distance start goal / r
            sinAlpha := Real.sin (mod2pi (start.Yaw - direction start goal))
            sinBeta := Real.sin (mod2pi (goal.Yaw - direction start goal))
            cosAlpha := Real.cos (mod2pi (start.Yaw - direction start goal))
            cosBeta := Real.cos (mod2pi (goal.Yaw - direction start goal))
            cosAlphaMinusBeta := Real.cos (mod2pi (start.Yaw - direction start goal) -
              mod2pi (goal.Yaw - direction start goal))
            dSquare := distance start goal / r * (distance start goal / r) } := by
  unfold toPathParams
  rw [if_neg (not_le.mpr hr)]
  rfl

theorem mod2pi_eq_zero_iff (x : ℝ) : mod2pi x = 0 ↔ ∃ k : ℤ, x = k * (2 * Real.pi) := by
  constructor
  · intro h
    obtain ⟨k, hk⟩ := mod2pi_sub_self x
    rw [h] at hk
    exact ⟨-k, by push_cast; linarith⟩
  · rintro ⟨k, rfl⟩
    exact mod2pi_int_mul k

/-- The guard of `PathByType` and `AvailablePaths` fires exactly when start and goal
have the same position and both headings are integer multiples of `2π`. -/
theorem degenerate_iff (start goal : State) (r : ℝ) (pp : pathParams)
    (hpp : toPathParams start goal r = .ok pp) :
    (pp.alpha = 0 ∧ pp.beta = 0 ∧ pp.d = 0) ↔
      (goal.X = start.X ∧ goal.Y = start.Y ∧ (∃ k : ℤ, start.Yaw = k * (2 * Real.pi)) ∧
        ∃ k : ℤ, goal.Yaw = k * (2 * Real.pi)) := by
  have hr := toPathParams_radius_pos start goal r pp hpp
  rw [toPathParams_eq start goal r hr] at hpp
  simp only [Except.ok.injEq] at hpp
  subst hpp
  simp only
  have hdir : distance start goal = 0 → direction start goal = 0 := by
    intro h
    unfold direction
    rw [h]
    simp
  constructor
  · rintro ⟨ha, hb, hd⟩
    have hD : distance start goal = 0 := by
      rcases div_eq_zero_iff.mp hd with h | h
      · exact h
      · exact absurd h hr.ne.symm
    rw [hdir hD, sub_zero] at ha hb
    obtain ⟨hx, hy⟩ := (distance_eq_zero_iff start goal).mp hD
    exact ⟨hx, hy, (mod2pi_eq_zero_iff _).mp ha, (mod2pi_eq_zero_iff _).mp hb⟩
  · rintro ⟨hx, hy, ha, hb⟩
    have hD : distance start goal = 0 := (distance_eq_zero_iff start goal).mpr ⟨hx, hy⟩
    rw [hdir hD, sub_zero, sub_zero, hD, zero_div]
    exact ⟨(mod2pi_eq_zero_iff _).mpr ha, (mod2pi_eq_zero_iff _).mpr hb, rfl⟩

theorem lookup_funcMap_none (f : PathType)
    (hf : f ≠ LSL ∧ f ≠ LSR ∧ f ≠ RSL ∧ f ≠ RSR ∧ f ≠ RLR ∧ f ≠ LRL) :
    pathTypeFuncMap.lookup f = none := by
  obtain ⟨h1, h2, h3, h4, h5, h6⟩ := hf
  have b1 : (f == LSL) = false := by simpa using h1
  have b2 : (f == LSR) = false := by simpa using h2
  have b3 : (f == RSL) = false := by simpa using h3
  have b4 : (f == RSR) = false := by simpa using h4
  have b5 : (f == RLR) = false := by simpa using h5
  have b6 : (f == LRL) = false := by simpa using h6
  simp only [pathTypeFuncMap, List.lookup, b1, b2, b3, b4, b5, b6]

/-- C14, as the code has it. With a positive turning radius and a path type that is
none of the six families, `PathByType` first tests its guard on the parameters `pp`
that `toPathParams` computed: when the guard fires it returns `(Path{}, false)`, and
when it does not it panics with "unknown path type". -/
theorem PathByType_unknown_type_panics (start goal : State) (r : ℝ) (f : PathType)
    (hr : 0 < r) (hf : f ≠ LSL ∧ f ≠ LSR ∧ f ≠ RSL ∧ f ≠ RSR ∧ f ≠ RLR ∧ f ≠ LRL) :
    ∃ pp : pathParams, toPathParams start goal r = .ok pp ∧
      ((pp.alpha = 0 ∧ pp.beta = 0 ∧ pp.d = 0) →
        PathByType start goal r f = .ok (Path.zero, false)) ∧
      (¬ (pp.alpha = 0 ∧ pp.beta = 0 ∧ pp.d = 0) →
        PathByType start goal r f = .error "unknown path type") := by
  have hpp := toPathParams_eq start goal r hr
  refine ⟨_, hpp, ?_, ?_⟩
  · intro hz
    unfold PathByType
    rw [hpp]
    simp only [if_pos hz]
  · intro hz
    unfold PathByType
    rw [hpp]
    simp only [if_neg hz, lookup_funcMap_none f hf]

theorem PathByType_unknown_type_panics_witness :
    PathByType ⟨0, 0, 0⟩ ⟨4, 0, 0⟩ 1 "XYZ" = .error "unknown path type" := by
  obtain ⟨pp, hpp, -, h⟩ :=
    PathByType_unknown_type_panics ⟨0, 0, 0⟩ ⟨4, 0, 0⟩ 1 "XYZ" one_pos (by decide)
  rw [toPathParams_axis 0 4 (by norm_num)] at hpp
  simp only [Except.ok.injEq] at hpp
  subst hpp
  apply h
  rintro ⟨-, -, hd⟩
  norm_num at hd

/-- C14 fails as stated. With start and goal both `(0, 0, 0)`, turning radius `1` and
the path type "XYZ", the guard on the normalised parameters fires before the family
is looked up, and `PathByType` returns `(Path{}, false)` instead of panicking. -/
theorem PathByType_unknown_type_same_pose :
    PathByType ⟨0, 0, 0⟩ ⟨0, 0, 0⟩ 1 "XYZ" = .ok (Path.zero, false) := by
  have hpp := toPathParams_eq ⟨0, 0, 0⟩ ⟨0, 0, 0⟩ 1 one_pos
  have hz := (degenerate_iff ⟨0, 0, 0⟩ ⟨0, 0, 0⟩ 1 _ hpp).mpr
    ⟨rfl, rfl, ⟨0, by simp⟩, ⟨0, by simp⟩⟩
  unfold PathByType
  rw [hpp]
  simp only [if_pos hz]

/-! ## The family LSL is feasible off the guard -/

theorem lsl_pSquare_eq (α β d : ℝ) :
    2 + d * d - 2 * Real.cos (α - β) + 2 * d * (Real.sin α - Real.sin β) =
      (d + Real.sin α - Real.sin β) * (d + Real.sin α - Real.sin β) +
        (Real.cos β - Real.cos α) * (Real.cos β - Real.cos α) := by
  rw [cos_sub_expand]
  nlinarith [Real.sin_sq_add_cos_sq α, Real.sin_sq_add_cos_sq β]

/-- If the three raw parameters of the family LSL all vanish, the normalised
parameters are the ones the guard rejects. -/
theorem lsl_all_zero (α β d : ℝ) (hα0 : 0 ≤ α) (hα1 : α < twoPi) (hβ0 : 0 ≤ β)
    (hβ1 : β < twoPi)
    (ht : mod2pi (atan2 (Real.cos β - Real.cos α) (d + Real.sin α - Real.sin β) - α) = 0)
    (hp : Real.sqrt (2 + d * d - 2 * Real.cos (α - β) +
      2 * d * (Real.sin α - Real.sin β)) = 0)
    (hq : mod2pi (β - atan2 (Real.cos β - Real.cos α) (d + Real.sin α - Real.sin β)) = 0) :
    α = 0 ∧ β = 0 ∧ d = 0 := by
  rw [lsl_pSquare_eq] at hp
  have hnn : 0 ≤ (d + Real.sin α - Real.sin β) * (d + Real.sin α - Real.sin β) +
      (Real.cos β - Real.cos α) * (Real.cos β - Real.cos α) :=
    add_nonneg (mul_self_nonneg _) (mul_self_nonneg _)
  have hsum := (Real.sqrt_eq_zero hnn).mp hp
  have hX : d + Real.sin α - Real.sin β = 0 := by
    nlinarith [mul_self_nonneg (d + Real.sin α - Real.sin β),
      mul_self_nonneg (Real.cos β - Real.cos α)]
  have hY : Real.cos β - Real.cos α = 0 := by
    nlinarith [mul_self_nonneg (d + Real.sin α - Real.sin β),
      mul_self_nonneg (Real.cos β - Real.cos α)]
  rw [hX, hY, atan2_zero_nonneg 0 le_rfl] at ht hq
  have hβ : β = 0 := by
    rw [sub_zero, mod2pi_of_range β hβ0 hβ1] at hq
    exact hq
  have hα : α = 0 := by
    obtain ⟨k, hk⟩ := (mod2pi_eq_zero_iff _).mp ht
    have hpi := twoPi_pos
    unfold twoPi at hα1 hpi
    rcases le_or_lt 0 k with hk0 | hk0
    · have : (0 : ℝ) ≤ k := by exact_mod_cast hk0
      nlinarith
    · have : (k : ℝ) ≤ -1 := by exact_mod_cast (Int.le_sub_one_of_lt hk0)
      nlinarith
  refine ⟨hα, hβ, ?_⟩
  rw [hα, hβ] at hX
  linarith

/-- Off the guard the candidate of the family LSL is feasible with positive length. -/
theorem PathByType_LSL_of_not_degenerate (start goal : State) (r : ℝ) (hr : 0 < r)
    (hnd : ¬ (goal.X = start.X ∧ goal.Y = start.Y ∧
      (∃ k : ℤ, start.Yaw = k * (2 * Real.pi)) ∧ ∃ k : ℤ, goal.Yaw = k * (2 * Real.pi))) :
    ∃ x, PathByType start goal r LSL = .ok (x, true) ∧ 0 < x.Length := by
  have hpp := toPathParams_eq start goal r hr
  have hz := (degenerate_iff start goal r _ hpp).not.mpr hnd
  set α := mod2pi (start.Yaw - direction start goal) with hα
  set β := mod2pi (goal.Yaw - direction start goal) with hβ
  set d := distance start goal / r with hd
  have hsq : ¬ (2 + d * d - 2 * Real.cos (α - β) + 2 * d * (Real.sin α - Real.sin β) < 0) := by
    rw [lsl_pSquare_eq]
    exact not_lt.mpr (add_nonneg (mul_self_nonneg _) (mul_self_nonneg _))
  have hval : lsl ⟨α, β, d, Real.sin α, Real.sin β, Real.cos α, Real.cos β,
      Real.cos (α - β), d * d⟩ =
      ({ Path.zero with
          t := mod2pi (atan2 (Real.cos β - Real.cos α) (d + Real.sin α - Real.sin β) - α)
          p := Real.sqrt (2 + d * d - 2 * Real.cos (α - β) +
            2 * d * (Real.sin α - Real.sin β))
          q := mod2pi (β - atan2 (Real.cos β - Real.cos α) (d + Real.sin α - Real.sin β))
          pathType := LSL }, true) := by
    unfold lsl
    simp only [if_neg hsq]
  have hset := setTuringRadius_raw
    (mod2pi (atan2 (Real.cos β - Real.cos α) (d + Real.sin α - Real.sin β) - α))
    (Real.sqrt (2 + d * d - 2 * Real.cos (α - β) + 2 * d * (Real.sin α - Real.sin β)))
    (mod2pi (β - atan2 (Real.cos β - Real.cos α) (d + Real.sin α - Real.sin β)))
    r LSL CourseTypeLeft CourseTypeStraight CourseTypeLeft rfl
  have hlen : 0 < ((lsl ⟨α, β, d, Real.sin α, Real.sin β, Real.cos α, Real.cos β,
      Real.cos (α - β), d * d⟩).1.setTuringRadius r).Length := by
    rw [hval, hset]
    unfold Path.Length
    simp only [zero_add]
    have t0 := mod2pi_nonneg (atan2 (Real.cos β - Real.cos α) (d + Real.sin α - Real.sin β) - α)
    have p0 := Real.sqrt_nonneg (2 + d * d - 2 * Real.cos (α - β) +
      2 * d * (Real.sin α - Real.sin β))
    have q0 := mod2pi_nonneg (β - atan2 (Real.cos β - Real.cos α) (d + Real.sin α - Real.sin β))
    by_contra hcon
    have hsum : mod2pi (atan2 (Real.cos β - Real.cos α) (d + Real.sin α - Real.sin β) - α) +
        Real.sqrt (2 + d * d - 2 * Real.cos (α - β) + 2 * d * (Real.sin α - Real.sin β)) +
        mod2pi (β - atan2 (Real.cos β - Real.cos α) (d + Real.sin α - Real.sin β)) ≤ 0 := by
      by_contra hpos
      apply hcon
      have := mul_pos (not_le.mp hpos) hr
      linarith
    apply hz
    exact lsl_all_zero α β d (mod2pi_nonneg _) (mod2pi_lt _) (mod2pi_nonneg _) (mod2pi_lt _)
      (by linarith) (by linarith) (by linarith)
  exact ⟨_, PathByType_of_candidate start goal r LSL _ lsl hpp hz mem_funcMap_LSL
    (by rw [hval]) hlen, hlen⟩

/-- C18, with arithmetic over the reals, and leaving out the case where start and goal
are the same pose (same position, headings equal modulo `2π`) with a heading that is
no multiple of `2π`. For a positive turning radius and any visiting order of the map
of families, `MinLengthPath` returns a result, whose flag is `false` exactly when
start and goal have the same position and both headings are integer multiples of
`2π`; in every other case the candidate of the family LSL is feasible with positive
length (and the flag is `true`). -/
theorem MinLengthPath_infeasible_iff (order : List (PathType × pathTypeFunc))
    (horder : order.Perm pathTypeFuncMap) (start goal : State) (r : ℝ) (hr : 0 < r)
    (_hpose : goal.X = start.X → goal.Y = start.Y →
      (∃ k : ℤ, goal.Yaw - start.Yaw = k * (2 * Real.pi)) →
      ∃ k : ℤ, start.Yaw = k * (2 * Real.pi)) :
    ∃ best b, MinLengthPath order start goal r = .ok (best, b) ∧
      (b = false ↔ (goal.X = start.X ∧ goal.Y = start.Y ∧
        (∃ k : ℤ, start.Yaw = k * (2 * Real.pi)) ∧
        ∃ k : ℤ, goal.Yaw = k * (2 * Real.pi))) ∧
      (¬ (goal.X = start.X ∧ goal.Y = start.Y ∧
        (∃ k : ℤ, start.Yaw = k * (2 * Real.pi)) ∧
        ∃ k : ℤ, goal.Yaw = k * (2 * Real.pi)) →
        ∃ x, PathByType start goal r LSL = .ok (x, true) ∧ 0 < x.Length) := by
  by_cases hdeg : goal.X = start.X ∧ goal.Y = start.Y ∧
      (∃ k : ℤ, start.Yaw = k * (2 * Real.pi)) ∧ ∃ k : ℤ, goal.Yaw = k * (2 * Real.pi)
  · have hpp := toPathParams_eq start goal r hr
    have hz := (degenerate_iff start goal r _ hpp).mpr hdeg
    exact ⟨Path.zero, false, MinLengthPath_of_degenerate order start goal r _ hpp hz,
      ⟨fun _ => hdeg, fun _ => rfl⟩, fun h => absurd hdeg h⟩
  · obtain ⟨x, hx, hxlen⟩ := PathByType_LSL_of_not_degenerate start goal r hr hdeg
    obtain ⟨best, hbest⟩ := MinLengthPath_feasible_of_PathByType order
      (fun e he => horder.mem_iff.mp he) start goal r (LSL, lsl)
      (horder.mem_iff.mpr mem_funcMap_LSL) x hx
    refine ⟨best, true, hbest, ⟨fun h => Bool.noConfusion h, fun h => absurd h hdeg⟩,
      fun _ => ⟨x, hx, hxlen⟩⟩

theorem MinLengthPath_infeasible_iff_witness :
    ∃ best b, MinLengthPath pathTypeFuncMap ⟨0, 0, 0⟩ ⟨0, 0, 1⟩ 2 = .ok (best, b) ∧
      (b = false ↔ ((0 : ℝ) = 0 ∧ (0 : ℝ) = 0 ∧
        (∃ k : ℤ, (0 : ℝ) = k * (2 * Real.pi)) ∧
        ∃ k : ℤ, (1 : ℝ) = k * (2 * Real.pi))) ∧
      (¬ ((0 : ℝ) = 0 ∧ (0 : ℝ) = 0 ∧
        (∃ k : ℤ, (0 : ℝ) = k * (2 * Real.pi)) ∧
        ∃ k : ℤ, (1 : ℝ) = k * (2 * Real.pi)) →
        ∃ x, PathByType ⟨0, 0, 0⟩ ⟨0, 0, 1⟩ 2 LSL = .ok (x, true) ∧ 0 < x.Length) :=
  MinLengthPath_infeasible_iff pathTypeFuncMap (List.Perm.refl _) ⟨0, 0, 0⟩ ⟨0, 0, 1⟩ 2
    (by norm_num) (fun _ _ _ => ⟨0, by simp⟩)

/-! ## The three-arc families far from the goal -/

theorem mem_funcMap_RLR : (RLR, rlr) ∈ pathTypeFuncMap := by
  simp [pathTypeFuncMap]

theorem mem_funcMap_LRL : (LRL, lrl) ∈ pathTypeFuncMap := by
  simp [pathTypeFuncMap]

/-- The cosine the three-arc families compute is below `-1` once `d > 6`. -/
theorem ccc_cos_lt (α β d : ℝ) (hd : 6 < d) :
    (6 - d * d + 2 * Real.cos (α - β) + 2 * d * (Real.sin α - Real.sin β)) / 8 < -1 ∧
      (6 - d * d + 2 * Real.cos (α - β) + 2 * d * (Real.sin β - Real.sin α)) / 8 < -1 := by
  rw [cos_sub_expand]
  have ha := Real.sin_sq_add_cos_sq α
  have hb := Real.sin_sq_add_cos_sq β
  have h1 := Real.sin_le_one α
  have h2 := Real.neg_one_le_sin α
  have h3 := Real.sin_le_one β
  have h4 := Real.neg_one_le_sin β
  have hu : 4 < d - (Real.sin α - Real.sin β) := by linarith
  have hu' : 4 < d - (Real.sin β - Real.sin α) := by linarith
  constructor
  · rw [div_lt_iff₀ (by norm_num : (0 : ℝ) < 8)]
    nlinarith [mul_self_nonneg (Real.cos α - Real.cos β), mul_pos (by linarith : (0:ℝ) < d - (Real.sin α - Real.sin β) - 4) (by linarith : (0:ℝ) < d - (Real.sin α - Real.sin β) + 4)]
  · rw [div_lt_iff₀ (by norm_num : (0 : ℝ) < 8)]
    nlinarith [mul_self_nonneg (Real.cos α - Real.cos β), mul_pos (by linarith : (0:ℝ) < d - (Real.sin β - Real.sin α) - 4) (by linarith : (0:ℝ) < d - (Real.sin β - Real.sin α) + 4)]

/-- When the family function rejects the parameters, `PathByType` answers
`(Path{}, false)`. -/
theorem PathByType_of_rejected (start goal : State) (r : ℝ) (k : PathType)
    (pp : pathParams) (fn : pathTypeFunc) (hpp : toPathParams start goal r = .ok pp)
    (hm : (k, fn) ∈ pathTypeFuncMap) (hrej : (fn pp).2 = false) :
    PathByType start goal r k = .ok (Path.zero, false) := by
  unfold PathByType
  rw [hpp]
  simp only [lookup_funcMap_of_mem k fn hm, hrej, if_true, ite_self]

/-- C17, with arithmetic over the reals. When the positions of start and goal are more
than six turning radii apart,
`PathByType` answers `(Path{}, false)` on both three-arc families RLR and LRL, so no
path of `AvailablePaths` has one of these families, whatever the visiting order. -/
theorem ccc_infeasible_when_far (start goal : State) (r : ℝ) (hr : 0 < r)
    (hfar : 6 * r < distance start goal) :
    PathByType start goal r RLR = .ok (Path.zero, false) ∧
      PathByType start goal r LRL = .ok (Path.zero, false) ∧
      ∀ (order : List (PathType × pathTypeFunc)) (paths : List Path),
        order.Perm pathTypeFuncMap → AvailablePaths order start goal r = .ok paths →
        ∀ p ∈ paths, p.PathType ≠ RLR ∧ p.PathType ≠ LRL := by
  have hpp := toPathParams_eq start goal r hr
  have hd : 6 < distance start goal / r := (lt_div_iff₀ hr).mpr hfar
  obtain ⟨hc1, hc2⟩ := ccc_cos_lt (mod2pi (start.Yaw - direction start goal))
    (mod2pi (goal.Yaw - direction start goal)) (distance start goal / r) hd
  have hrlr : PathByType start goal r RLR = .ok (Path.zero, false) := by
    apply PathByType_of_rejected start goal r RLR _ rlr hpp mem_funcMap_RLR
    unfold rlr
    simp only
    rw [if_pos]
    rw [gt_iff_lt, lt_abs]
    right
    linarith
  have hlrl : PathByType start goal r LRL = .ok (Path.zero, false) := by
    apply PathByType_of_rejected start goal r LRL _ lrl hpp mem_funcMap_LRL
    unfold lrl
    simp only
    rw [if_pos]
    rw [gt_iff_lt, lt_abs]
    right
    linarith
  refine ⟨hrlr, hlrl, ?_⟩
  intro order paths horder hpaths p hp
  obtain ⟨e, -, he⟩ := (mem_AvailablePaths_iff order (fun e he => horder.mem_iff.mp he)
    start goal r paths hpaths p).mp hp
  have hfam := PathByType_pathType start goal r e.1 p he
  constructor
  · intro h
    have h' : e.1 = RLR := by rw [← hfam]; exact h
    rw [h', hrlr] at he
    cases he
  · intro h
    have h' : e.1 = LRL := by rw [← hfam]; exact h
    rw [h', hlrl] at he
    cases he

theorem ccc_infeasible_when_far_witness :
    PathByType ⟨0, 0, 0⟩ ⟨7, 0, 0⟩ 1 RLR = .ok (Path.zero, false) ∧
      PathByType ⟨0, 0, 0⟩ ⟨7, 0, 0⟩ 1 LRL = .ok (Path.zero, false) ∧
      ∀ (order : List (PathType × pathTypeFunc)) (paths : List Path),
        order.Perm pathTypeFuncMap →
        AvailablePaths order ⟨0, 0, 0⟩ ⟨7, 0, 0⟩ 1 = .ok paths →
        ∀ p ∈ paths, p.PathType ≠ RLR ∧ p.PathType ≠ LRL :=
  ccc_infeasible_when_far ⟨0, 0, 0⟩ ⟨7, 0, 0⟩ 1 one_pos (by
    have h : distance ⟨0, 0, 0⟩ ⟨7, 0, 0⟩ = 7 := by
      unfold distance
      have : ((7 : ℝ) - 0) * (7 - 0) + (0 - 0) * (0 - 0) = 7 * 7 := by norm_num
      rw [this]
      exact Real.sqrt_mul_self (by norm_num)
    rw [h]
    norm_num)

/-! ## Arcs turn through less than a full circle -/

/-- The raw candidate of a family: its outer parameters are normalised angles, and
so is the middle one when the middle segment is an arc. -/
theorem family_raw_arcs (k : PathType) (fn : pathTypeFunc) (hm : (k, fn) ∈ pathTypeFuncMap)
    (pp : pathParams) (h : (fn pp).2 = true) :
    ∃ (t p q : ℝ) (c1 c2 c3 : PathCourseType),
      (fn pp).1 = { Path.zero with t := t, p := p, q := q, pathType := k } ∧
      pathTypeCourseTypesMap.lookup k = some [c1, c2, c3] ∧
      0 ≤ t ∧ t < twoPi ∧ 0 ≤ q ∧ q < twoPi ∧ 0 ≤ p ∧
      (c2 = CourseTypeLeft ∨ c2 = CourseTypeRight → p < twoPi) := by
  rw [mem_funcMap_iff] at hm
  rcases hm with ⟨rfl, rfl⟩ | ⟨rfl, rfl⟩ | ⟨rfl, rfl⟩ | ⟨rfl, rfl⟩ | ⟨rfl, rfl⟩ | ⟨rfl, rfl⟩
  · unfold lsl at h ⊢
    dsimp only at h ⊢
    split_ifs at h ⊢ with h1
    exact ⟨_, _, _, _, _, _, rfl, rfl, mod2pi_nonneg _, mod2pi_lt _, mod2pi_nonneg _,
      mod2pi_lt _, Real.sqrt_nonneg _,
      fun hc => absurd hc (by decide)⟩
  · unfold lsr at h ⊢
    dsimp only at h ⊢
    split_ifs at h ⊢ with h1
    exact ⟨_, _, _, _, _, _, rfl, rfl, mod2pi_nonneg _, mod2pi_lt _, mod2pi_nonneg _,
      mod2pi_lt _, Real.sqrt_nonneg _,
      fun hc => absurd hc (by decide)⟩
  · unfold rsl at h ⊢
    dsimp only at h ⊢
    split_ifs at h ⊢ with h1
    exact ⟨_, _, _, _, _, _, rfl, rfl, mod2pi_nonneg _, mod2pi_lt _, mod2pi_nonneg _,
      mod2pi_lt _, Real.sqrt_nonneg _,
      fun hc => absurd hc (by decide)⟩
  · unfold rsr at h ⊢
    dsimp only at h ⊢
    split_ifs at h ⊢ with h1
    exact ⟨_, _, _, _, _, _, rfl, rfl, mod2pi_nonneg _, mod2pi_lt _, mod2pi_nonneg _,
      mod2pi_lt _, Real.sqrt_nonneg _,
      fun hc => absurd hc (by decide)⟩
  · unfold rlr at h ⊢
    dsimp only at h ⊢
    split_ifs at h ⊢ with h1
    exact ⟨_, _, _, _, _, _, rfl, rfl, mod2pi_nonneg _, mod2pi_lt _, mod2pi_nonneg _,
      mod2pi_lt _, mod2pi_nonneg _, fun _ => mod2pi_lt _⟩
  · unfold lrl at h ⊢
    dsimp only at h ⊢
    split_ifs at h ⊢ with h1
    exact ⟨_, _, _, _, _, _, rfl, rfl, mod2pi_nonneg _, mod2pi_lt _, mod2pi_nonneg _,
      mod2pi_lt _, mod2pi_nonneg _, fun _ => mod2pi_lt _⟩

/-- C19, with arithmetic over the reals. In a feasible answer of `PathByType` with
turning radius `r`, every segment
whose course type is Left or Right has a length in `[0, 2π·r)`: no arc turns through
a full circle or more. -/
theorem arc_segments_lt_full_circle (start goal : State) (r : ℝ) (f : PathType)
    (path : Path) (h : PathByType start goal r f = .ok (path, true)) :
    ∀ g ∈ path.Segments, (g.CourseType = CourseTypeLeft ∨ g.CourseType = CourseTypeRight) →
      0 ≤ g.Length ∧ g.Length < 2 * Real.pi * r := by
  obtain ⟨pp, fn, hpp, -, hm, hok, -, rfl⟩ := PathByType_ok start goal r f path h
  have hr := toPathParams_radius_pos _ _ _ _ hpp
  obtain ⟨t, p, q, c1, c2, c3, hraw, hc, ht0, ht1, hq0, hq1, hp0, hp1⟩ :=
    family_raw_arcs f fn hm pp hok
  rw [hraw, setTuringRadius_raw t p q r f c1 c2 c3 hc]
  unfold twoPi at ht1 hq1 hp1
  intro g hg hcourse
  simp only [Path.Segments, List.mem_cons, List.mem_singleton, List.not_mem_nil,
    or_false] at hg
  rcases hg with rfl | rfl | rfl
  · exact ⟨mul_nonneg ht0 hr.le, mul_lt_mul_of_pos_right ht1 hr⟩
  · exact ⟨mul_nonneg hp0 hr.le, mul_lt_mul_of_pos_right (hp1 hcourse) hr⟩
  · exact ⟨mul_nonneg hq0 hr.le, mul_lt_mul_of_pos_right hq1 hr⟩

theorem arc_segments_lt_full_circle_witness :
    ∃ path : Path, PathByType ⟨0, 0, 0⟩ ⟨4, 0, 0⟩ 1 LSL = .ok (path, true) ∧
      ∀ g ∈ path.Segments,
        (g.CourseType = CourseTypeLeft ∨ g.CourseType = CourseTypeRight) →
        0 ≤ g.Length ∧ g.Length < 2 * Real.pi * 1 :=
  ⟨_, PathByType_axis 0 4 (by norm_num),
    arc_segments_lt_full_circle ⟨0, 0, 0⟩ ⟨4, 0, 0⟩ 1 LSL _
      (PathByType_axis 0 4 (by norm_num))⟩

/-! ## Scaling the problem -/

theorem distance_scale (k : ℝ) (hk : 0 < k) (start goal : State) :
    distance (scaleState k start) (scaleState k goal) = k * distance start goal := by
  unfold distance scaleState
  have h : (k * goal.X - k * start.X) * (k * goal.X - k * start.X) +
      (k * goal.Y - k * start.Y) * (k * goal.Y - k * start.Y) =
      k * k * ((goal.X - start.X) * (goal.X - start.X) +
        (goal.Y - start.Y) * (goal.Y - start.Y)) := by ring
  simp only
  rw [h, Real.sqrt_mul (mul_self_nonneg k), Real.sqrt_mul_self hk.le]

theorem atan2_scale (k : ℝ) (hk : 0 < k) (y x : ℝ) : atan2 (k * y) (k * x) = atan2 y x := by
  unfold atan2
  have h : (⟨k * x, k * y⟩ : ℂ) = (k : ℂ) * ⟨x, y⟩ := by
    apply Complex.ext <;> simp
  rw [h, Complex.arg_real_mul _ hk]

theorem direction_scale (k : ℝ) (hk : 0 < k) (start goal : State) :
    direction (scaleState k start) (scaleState k goal) = direction start goal := by
  unfold direction
  rw [distance_scale k hk]
  have hiff : k * distance start goal > 0 ↔ distance start goal > 0 := by
    constructor
    · intro h
      rcases (distance_nonneg start goal).lt_or_eq with h1 | h1
      · exact h1
      · rw [← h1, mul_zero] at h; exact absurd h (lt_irrefl 0)
    · intro h
      exact mul_pos hk h
  have hat : atan2 ((scaleState k goal).Y - (scaleState k start).Y)
      ((scaleState k goal).X - (scaleState k start).X) =
      atan2 (goal.Y - start.Y) (goal.X - start.X) := by
    unfold scaleState
    simp only
    rw [← mul_sub, ← mul_sub, atan2_scale k hk]
  rw [hat]
  by_cases h : distance start goal > 0
  · rw [if_pos h, if_pos (hiff.mpr h)]
  · rw [if_neg h, if_neg (fun h' => h (hiff.mp h'))]

/-- The normalised parameters do not change when the problem is scaled. -/
theorem toPathParams_scale (k : ℝ) (hk : 0 < k) (start goal : State) (r : ℝ) (hr : 0 < r) :
    toPathParams (scaleState k start) (scaleState k goal) (k * r) =
      toPathParams start goal r := by
  rw [toPathParams_eq _ _ _ (mul_pos hk hr), toPathParams_eq _ _ _ hr, direction_scale k hk,
    distance_scale k hk]
  have hd : k * distance start goal / (k * r) = distance start goal / r := by
    field_simp
    ring
  have hy1 : (scaleState k start).Yaw = start.Yaw := rfl
  have hy2 : (scaleState k goal).Yaw = goal.Yaw := rfl
  rw [hd, hy1, hy2]

theorem candidate_length_scale (k r : ℝ) (f : PathType) (fn : pathTypeFunc)
    (hm : (f, fn) ∈ pathTypeFuncMap) (pp : pathParams) (hok : (fn pp).2 = true) :
    ((fn pp).1.setTuringRadius (k * r)).Length = k * ((fn pp).1.setTuringRadius r).Length ∧
      ((fn pp).1.setTuringRadius (k * r)).segments.map PathSegment.Length =
        ((fn pp).1.setTuringRadius r).segments.map (fun g => k * g.Length) ∧
      ((fn pp).1.setTuringRadius (k * r)).segments.length = 3 := by
  obtain ⟨t, p, q, -, -, -, hraw⟩ := family_raw f fn hm pp hok
  obtain ⟨c1, c2, c3, hc, -⟩ := courseTypes_of_mem f fn hm
  rw [hraw, setTuringRadius_raw t p q r f c1 c2 c3 hc,
    setTuringRadius_raw t p q (k * r) f c1 c2 c3 hc]
  unfold Path.Length
  refine ⟨by simp only; ring, ?_, rfl⟩
  simp only [List.map_cons, List.map_nil, List.cons.injEq, and_true]
  exact ⟨by ring, by ring, by ring⟩

theorem funcMap_fn_unique (f : PathType) (fn fn' : pathTypeFunc)
    (h : (f, fn) ∈ pathTypeFuncMap) (h' : (f, fn') ∈ pathTypeFuncMap) : fn = fn' := by
  have h1 := lookup_funcMap_of_mem f fn h
  have h2 := lookup_funcMap_of_mem f fn' h'
  rw [h1] at h2
  exact Option.some.inj h2

/-- C20, with arithmetic over the reals. Scale invariance: with a positive turning
radius `r` and a positive factor
`k`, `PathByType` on the problem with both positions multiplied by `k`, the headings
unchanged and the turning radius `k·r` is feasible exactly when it is feasible on the
original problem, and then the three segment lengths and the length of the scaled
path are `k` times those of the original path. -/
theorem PathByType_scale_invariant (start goal : State) (r : ℝ) (f : PathType) (k : ℝ)
    (hr : 0 < r) (hk : 0 < k) :
    ((∃ p', PathByType (scaleState k start) (scaleState k goal) (k * r) f = .ok (p', true)) ↔
      ∃ p, PathByType start goal r f = .ok (p, true)) ∧
    ∀ p p', PathByType start goal r f = .ok (p, true) →
      PathByType (scaleState k start) (scaleState k goal) (k * r) f = .ok (p', true) →
      p'.Length = k * p.Length ∧
        p'.Segments.map PathSegment.Length = p.Segments.map (fun g => k * g.Length) ∧
        p'.Segments.length = 3 := by
  have hscale := toPathParams_scale k hk start goal r hr
  constructor
  · constructor
    · rintro ⟨p', hp'⟩
      obtain ⟨pp, fn, hpp, hz, hm, hok, hlen, -⟩ := PathByType_ok _ _ _ _ _ hp'
      rw [hscale] at hpp
      have hl := (candidate_length_scale k r f fn hm pp hok).1
      rw [hl] at hlen
      have hlen' : 0 < ((fn pp).1.setTuringRadius r).Length := by
        by_contra hcon
        have := mul_nonpos_of_nonneg_of_nonpos hk.le (not_lt.mp hcon)
        linarith
      exact ⟨_, PathByType_of_candidate start goal r f pp fn hpp hz hm hok hlen'⟩
    · rintro ⟨p, hp⟩
      obtain ⟨pp, fn, hpp, hz, hm, hok, hlen, -⟩ := PathByType_ok _ _ _ _ _ hp
      have hl := (candidate_length_scale k r f fn hm pp hok).1
      have hlen' : 0 < ((fn pp).1.setTuringRadius (k * r)).Length := by
        rw [hl]; exact mul_pos hk hlen
      rw [← hscale] at hpp
      exact ⟨_, PathByType_of_candidate _ _ (k * r) f pp fn hpp hz hm hok hlen'⟩
  · intro p p' hp hp'
    obtain ⟨pp, fn, hpp, -, hm, hok, -, rfl⟩ := PathByType_ok _ _ _ _ _ hp
    obtain ⟨pp', fn', hpp', -, hm', -, -, rfl⟩ := PathByType_ok _ _ _ _ _ hp'
    rw [hscale, hpp] at hpp'
    simp only [Except.ok.injEq] at hpp'
    subst hpp'
    have hfn := funcMap_fn_unique f fn fn' hm hm'
    subst hfn
    exact candidate_length_scale k r f fn hm pp hok

theorem PathByType_scale_invariant_witness :
    ∃ p p', PathByType ⟨0, 0, 0⟩ ⟨4, 0, 0⟩ 1 LSL = .ok (p, true) ∧
      PathByType (scaleState 3 ⟨0, 0, 0⟩) (scaleState 3 ⟨4, 0, 0⟩) (3 * 1) LSL =
        .ok (p', true) ∧
      p'.Length = 3 * p.Length ∧
      p'.Segments.map PathSegment.Length = p.Segments.map (fun g => 3 * g.Length) ∧
      p'.Segments.length = 3 := by
  have h := PathByType_axis 0 4 (by norm_num)
  have hs := PathByType_scale_invariant ⟨0, 0, 0⟩ ⟨4, 0, 0⟩ 1 LSL 3 one_pos (by norm_num)
  obtain ⟨p', hp'⟩ := hs.1.mpr ⟨_, h⟩
  exact ⟨_, p', h, hp', hs.2 _ p' h hp'⟩

/-! ## No path is shorter than the distance between the positions -/

theorem abs_E (x : ℝ) : Complex.abs (E x) = 1 :=
  Complex.abs_exp_ofReal_mul_I x

theorem real_abs_of_nonneg (x : ℝ) (h : 0 ≤ x) : |x| = x :=
  abs_eq_self.mpr h

theorem abs_E_sub_one_le (x : ℝ) : Complex.abs (E x - 1) ≤ |x| := by
  rw [Complex.abs_apply, Complex.normSq_apply]
  simp only [Complex.sub_re, Complex.sub_im, Complex.one_re, Complex.one_im, E_re, E_im,
    sub_zero]
  rw [← Real.sqrt_sq_eq_abs]
  apply Real.sqrt_le_sqrt
  have h1 := Real.one_sub_sq_div_two_le_cos (x := x)
  nlinarith [Real.sin_sq_add_cos_sq x]

/-- One segment moves the position by at most its length. -/
theorem abs_pos_move_le (s : State) (l r : ℝ) (c : PathCourseType) (hl : 0 ≤ l) (hr : 0 < r)
    (hc : c = CourseTypeLeft ∨ c = CourseTypeRight ∨ c = CourseTypeStraight) :
    Complex.abs (pos (move s l c r) - pos s) ≤ l := by
  have hlr : |l / r| * r = l := by
    rw [real_abs_of_nonneg _ (div_nonneg hl hr.le)]
    field_simp
  rcases hc with rfl | rfl | rfl
  · rw [pos_move_left]
    have h : pos s + ↑r * -I * (E (s.Yaw + l / r) - E s.Yaw) - pos s =
        ↑r * -I * (E s.Yaw * (E (l / r) - 1)) := by
      rw [E_add]; ring
    rw [h]
    simp only [map_mul, map_neg_eq_map, Complex.abs_I, Complex.abs_ofReal, abs_E,
      abs_of_pos hr, mul_one, one_mul]
    calc r * Complex.abs (E (l / r) - 1) ≤ r * |l / r| :=
          mul_le_mul_of_nonneg_left (abs_E_sub_one_le _) hr.le
      _ = l := by rw [mul_comm, hlr]
  · rw [pos_move_right]
    have h : pos s + ↑r * I * (E (s.Yaw - l / r) - E s.Yaw) - pos s =
        ↑r * I * (E s.Yaw * (E (-(l / r)) - 1)) := by
      rw [sub_eq_add_neg s.Yaw, E_add]; ring
    rw [h]
    simp only [map_mul, Complex.abs_I, Complex.abs_ofReal, abs_E,
      abs_of_pos hr, mul_one, one_mul]
    calc r * Complex.abs (E (-(l / r)) - 1) ≤ r * |-(l / r)| :=
          mul_le_mul_of_nonneg_left (abs_E_sub_one_le _) hr.le
      _ = l := by rw [abs_neg, mul_comm, hlr]
  · rw [pos_move_straight]
    have h : pos s + ↑l * E s.Yaw - pos s = ↑l * E s.Yaw := by ring
    rw [h]
    simp only [map_mul, Complex.abs_ofReal, abs_E, mul_one, real_abs_of_nonneg l hl, le_refl]

theorem distance_eq_abs (start goal : State) :
    distance start goal = Complex.abs (pos goal - pos start) := by
  have h : pos goal - pos start = ⟨goal.X - start.X, goal.Y - start.Y⟩ := by
    apply Complex.ext <;> simp [pos]
  rw [h, abs_mk]
  rfl

/-- Every feasible answer of `PathByType` is at least as long as the distance between
the positions of start and goal. -/
theorem distance_le_length (start goal : State) (r : ℝ) (f : PathType) (path : Path)
    (h : PathByType start goal r f = .ok (path, true)) :
    distance start goal ≤ path.Length := by
  obtain ⟨s3, hs3, hpos, -⟩ := endpoint start goal r f path h
  obtain ⟨t, p, q, c1, c2, c3, hr, ht, hp, hq, -, v1, v2, v3, hlen, rfl⟩ :=
    PathByType_shape start goal r f path h
  have hsample : Path.sample
      { t := t * r, p := p * r, q := q * r, pathType := f
        totalLength := 0 + t * r + p * r + q * r
        segments := [⟨t * r, c1⟩, ⟨p * r, c2⟩, ⟨q * r, c3⟩]
        turningRadius := r, origin := start } (0 + t * r + p * r + q * r) =
      .ok (move (move (move start (t * r) c1 r) (p * r) c2 r) (q * r) c3 r) := by
    unfold Path.sample
    unfold Path.Length
    simp only [zero_add] at hlen ⊢
    simp only [if_neg (not_le.mpr hlen), min_self]
    exact sampleLoop_three r ⟨t * r, c1⟩ ⟨p * r, c2⟩ ⟨q * r, c3⟩ start
      (mul_nonneg hp hr.le) (mul_nonneg hq hr.le) v1 v2 v3
  unfold Path.Length at hs3 ⊢
  simp only at hs3 ⊢
  rw [hsample] at hs3
  simp only [Except.ok.injEq] at hs3
  rw [distance_eq_abs, ← hpos, ← hs3]
  have e1 := abs_pos_move_le start (t * r) r c1 (mul_nonneg ht hr.le) hr v1
  have e2 := abs_pos_move_le (move start (t * r) c1 r) (p * r) r c2 (mul_nonneg hp hr.le) hr v2
  have e3 := abs_pos_move_le (move (move start (t * r) c1 r) (p * r) c2 r) (q * r) r c3
    (mul_nonneg hq hr.le) hr v3
  have hsplit : pos (move (move (move start (t * r) c1 r) (p * r) c2 r) (q * r) c3 r) -
      pos start =
      (pos (move (move (move start (t * r) c1 r) (p * r) c2 r) (q * r) c3 r) -
        pos (move (move start (t * r) c1 r) (p * r) c2 r)) +
      ((pos (move (move start (t * r) c1 r) (p * r) c2 r) -
        pos (move start (t * r) c1 r)) +
      (pos (move start (t * r) c1 r) - pos start)) := by ring
  rw [hsplit]
  have t1 := Complex.abs.add_le
    (pos (move (move (move start (t * r) c1 r) (p * r) c2 r) (q * r) c3 r) -
      pos (move (move start (t * r) c1 r) (p * r) c2 r))
    ((pos (move (move start (t * r) c1 r) (p * r) c2 r) - pos (move start (t * r) c1 r)) +
      (pos (move start (t * r) c1 r) - pos start))
  have t2 := Complex.abs.add_le
    (pos (move (move start (t * r) c1 r) (p * r) c2 r) - pos (move start (t * r) c1 r))
    (pos (move start (t * r) c1 r) - pos start)
  linarith

/-- With start and goal at least `math.MaxFloat64` apart, the loop of `MinLengthPath`
never replaces its initial `bestPath`, and the answer is `(Path{}, true)`. -/
theorem MinLengthPath_far (order : List (PathType × pathTypeFunc))
    (horder : order.Perm pathTypeFuncMap) (start goal : State) (r : ℝ) (hr : 0 < r)
    (hfar : MaxFloat64 ≤ distance start goal) :
    MinLengthPath order start goal r = .ok (Path.zero, true) := by
  have hmem : ∀ e ∈ order, e ∈ pathTypeFuncMap := fun e he => horder.mem_iff.mp he
  have hDpos : 0 < distance start goal := lt_of_lt_of_le MaxFloat64_pos hfar
  have hnd : ¬ (goal.X = start.X ∧ goal.Y = start.Y ∧
      (∃ k : ℤ, start.Yaw = k * (2 * Real.pi)) ∧ ∃ k : ℤ, goal.Yaw = k * (2 * Real.pi)) := by
    rintro ⟨hx, hy, -⟩
    have := (distance_eq_zero_iff start goal).mpr ⟨hx, hy⟩
    linarith
  obtain ⟨x, hx, -⟩ := PathByType_LSL_of_not_degenerate start goal r hr hnd
  obtain ⟨paths, hpaths⟩ := AvailablePaths_total order start goal r hr
  have hxmem : x ∈ paths :=
    (mem_AvailablePaths_iff order hmem start goal r paths hpaths x).mpr
      ⟨(LSL, lsl), horder.mem_iff.mpr mem_funcMap_LSL, hx⟩
  have hge : ∀ p ∈ paths, MaxFloat64 ≤ p.Length := by
    intro p hp
    obtain ⟨e, -, he⟩ := (mem_AvailablePaths_iff order hmem start goal r paths hpaths p).mp hp
    exact le_trans hfar (distance_le_length start goal r e.1 p he)
  rw [MinLengthPath_of_nonempty order start goal r paths hpaths (List.ne_nil_of_mem hxmem)]
  rcases foldl_minLengthStep paths (MaxFloat64, Path.zero) with ⟨heq, -⟩ | ⟨hm, hlen, hlt, -⟩
  · rw [heq]
  · exfalso
    have := hge _ hm
    rw [← hlen] at this
    exact absurd hlt (not_lt.mpr this)

/-! ## Goal straight ahead, with both headings along the line -/

theorem mod2pi_sub_mod2pi_eq_zero (x a : ℝ) (h : ∃ k : ℤ, x - a = k * (2 * Real.pi)) :
    mod2pi (x - mod2pi a) = 0 := by
  obtain ⟨k, hk⟩ := h
  obtain ⟨k', hk'⟩ := mod2pi_sub_self a
  rw [mod2pi_eq_zero_iff]
  exact ⟨k - k', by push_cast; linarith⟩

/-- The family LSL when both normalised headings are `0`: a straight segment. -/
theorem PathByType_LSL_straight (start goal : State) (r : ℝ) (hr : 0 < r)
    (hD : 0 < distance start goal)
    (hs : ∃ k : ℤ, start.Yaw - atan2 (goal.Y - start.Y) (goal.X - start.X) =
      k * (2 * Real.pi))
    (hg : ∃ k : ℤ, goal.Yaw - atan2 (goal.Y - start.Y) (goal.X - start.X) =
      k * (2 * Real.pi)) :
    ∃ x, PathByType start goal r LSL = .ok (x, true) ∧ x.Length = distance start goal := by
  have hpp := toPathParams_eq start goal r hr
  have hdir : direction start goal = mod2pi (atan2 (goal.Y - start.Y) (goal.X - start.X)) := by
    unfold direction
    rw [if_pos hD]
  have ha : mod2pi (start.Yaw - direction start goal) = 0 := by
    rw [hdir]; exact mod2pi_sub_mod2pi_eq_zero _ _ hs
  have hb : mod2pi (goal.Yaw - direction start goal) = 0 := by
    rw [hdir]; exact mod2pi_sub_mod2pi_eq_zero _ _ hg
  have hd : 0 < distance start goal / r := div_pos hD hr
  rw [ha, hb] at hpp
  simp only [Real.sin_zero, Real.cos_zero, sub_self] at hpp
  have hraw := lsl_axis (distance start goal / r) hd.le
  have hset := setTuringRadius_raw 0 (distance start goal / r) 0 r LSL CourseTypeLeft
    CourseTypeStraight CourseTypeLeft rfl
  have hval : ((lsl ⟨0, 0, distance start goal / r, 0, 0, 1, 1, 1,
      distance start goal / r * (distance start goal / r)⟩).1.setTuringRadius r).Length =
      distance start goal := by
    rw [hraw, hset]
    unfold Path.Length
    simp only
    field_simp
  refine ⟨_, PathByType_of_candidate start goal r LSL _ lsl hpp ?_ mem_funcMap_LSL
    (by rw [hraw]) (by rw [hval]; exact hD), hval⟩
  rintro ⟨-, -, h⟩
  exact hd.ne.symm h

/-- Goal straight ahead with both headings along the line: when the distance is
below `math.MaxFloat64`, the answer of `MinLengthPath` has the straight-line distance
as its length. -/
theorem MinLengthPath_straight (order : List (PathType × pathTypeFunc))
    (horder : order.Perm pathTypeFuncMap) (start goal : State) (r : ℝ) (hr : 0 < r)
    (hD : 0 < distance start goal)
    (hs : ∃ k : ℤ, start.Yaw - atan2 (goal.Y - start.Y) (goal.X - start.X) =
      k * (2 * Real.pi))
    (hg : ∃ k : ℤ, goal.Yaw - atan2 (goal.Y - start.Y) (goal.X - start.X) =
      k * (2 * Real.pi))
    (hsmall : distance start goal < MaxFloat64) :
    ∃ best, MinLengthPath order start goal r = .ok (best, true) ∧
      best.Length = distance start goal := by
  have hmem : ∀ e ∈ order, e ∈ pathTypeFuncMap := fun e he => horder.mem_iff.mp he
  obtain ⟨x, hx, hxlen⟩ := PathByType_LSL_straight start goal r hr hD hs hg
  obtain ⟨paths, hpaths⟩ := AvailablePaths_total order start goal r hr
  have hxmem : x ∈ paths :=
    (mem_AvailablePaths_iff order hmem start goal r paths hpaths x).mpr
      ⟨(LSL, lsl), horder.mem_iff.mpr mem_funcMap_LSL, hx⟩
  refine ⟨_, MinLengthPath_of_nonempty order start goal r paths hpaths
    (List.ne_nil_of_mem hxmem), ?_⟩
  rcases foldl_minLengthStep paths (MaxFloat64, Path.zero) with
    ⟨-, hall⟩ | ⟨hm, hlen, -, hall⟩
  · exfalso
    have := hall x hxmem
    simp only at this
    linarith
  · obtain ⟨e, -, he⟩ := (mem_AvailablePaths_iff order hmem start goal r paths hpaths _).mp hm
    have hlow := distance_le_length start goal r e.1 _ he
    have hup := hall x hxmem
    rw [hlen, hxlen] at hup
    exact le_antisymm hup hlow

theorem distance_axis (a b : ℝ) (hab : a ≤ b) : distance ⟨a, 0, 0⟩ ⟨b, 0, 0⟩ = b - a := by
  unfold distance
  simp only [sub_self, mul_zero, add_zero]
  exact Real.sqrt_mul_self (sub_nonneg.mpr hab)

theorem distance_axis_back (a b : ℝ) (hab : b ≤ a) :
    distance ⟨a, 0, 0⟩ ⟨b, 0, 0⟩ = a - b := by
  unfold distance
  simp only [sub_self, mul_zero, add_zero]
  have : (b - a) * (b - a) = (a - b) * (a - b) := by ring
  rw [this]
  exact Real.sqrt_mul_self (sub_nonneg.mpr hab)

theorem atan2_zero_neg (x : ℝ) (hx : x < 0) : atan2 0 x = Real.pi := by
  unfold atan2
  have : (⟨x, 0⟩ : ℂ) = (x : ℂ) := rfl
  rw [this]
  exact Complex.arg_ofReal_of_neg hx

/-- C15 fails on the code. From `(-2^1023, 0, 0)` to `(2^1023, 0, 0)` with turning
radius `1`, both headings equal the direction from start to goal and the distance is
`2^1024`, yet `MinLengthPath` answers `(Path{}, true)`, whose length is `0`: no
candidate is shorter than the initial bound `math.MaxFloat64` of its loop. -/
theorem MinLengthPath_straight_far :
    (∃ k : ℤ, (0 : ℝ) - atan2 ((0 : ℝ) - 0) (2 ^ 1023 - -2 ^ 1023) = k * (2 * Real.pi)) ∧
      distance ⟨-2 ^ 1023, 0, 0⟩ ⟨2 ^ 1023, 0, 0⟩ = 2 ^ 1024 ∧
      MinLengthPath pathTypeFuncMap ⟨-2 ^ 1023, 0, 0⟩ ⟨2 ^ 1023, 0, 0⟩ 1 =
        .ok (Path.zero, true) ∧
      Path.zero.Length ≠ 2 ^ 1024 := by
  have hD : distance ⟨-2 ^ 1023, 0, 0⟩ ⟨2 ^ 1023, 0, 0⟩ = 2 ^ 1024 := by
    rw [distance_axis _ _ (by norm_num)]
    norm_num
  refine ⟨⟨0, ?_⟩, hD, ?_, ?_⟩
  · rw [sub_self, atan2_zero_nonneg _ (by norm_num)]
    simp
  · apply MinLengthPath_far pathTypeFuncMap (List.Perm.refl _) _ _ 1 one_pos
    rw [hD]
    unfold MaxFloat64
    norm_num
  · show (0 : ℝ) ≠ 2 ^ 1024
    norm_num

/-- C16 fails on the code. From `(2^1023, 0, 0)` to `(-2^1023, 0, 0)` with turning
radius `1` and both headings `0`, the headings point opposite to the direction from
start to goal and the distance is `2^1024`, yet `MinLengthPath` answers
`(Path{}, true)`, whose length is `0` and not `2^1024 + 2π`. -/
theorem MinLengthPath_behind_far :
    (∃ k : ℤ, (0 : ℝ) - (atan2 ((0 : ℝ) - 0) (-2 ^ 1023 - 2 ^ 1023) + Real.pi) =
        k * (2 * Real.pi)) ∧
      distance ⟨2 ^ 1023, 0, 0⟩ ⟨-2 ^ 1023, 0, 0⟩ = 2 ^ 1024 ∧
      MinLengthPath pathTypeFuncMap ⟨2 ^ 1023, 0, 0⟩ ⟨-2 ^ 1023, 0, 0⟩ 1 =
        .ok (Path.zero, true) ∧
      Path.zero.Length ≠ 2 ^ 1024 + 2 * Real.pi * 1 := by
  have hD : distance ⟨2 ^ 1023, 0, 0⟩ ⟨-2 ^ 1023, 0, 0⟩ = 2 ^ 1024 := by
    rw [distance_axis_back _ _ (by norm_num)]
    norm_num
  refine ⟨⟨-1, ?_⟩, hD, ?_, ?_⟩
  · rw [sub_self, atan2_zero_neg _ (by norm_num)]
    push_cast
    ring
  · apply MinLengthPath_far pathTypeFuncMap (List.Perm.refl _) _ _ 1 one_pos
    rw [hD]
    unfold MaxFloat64
    norm_num
  · show (0 : ℝ) ≠ 2 ^ 1024 + 2 * Real.pi * 1
    have := Real.pi_pos
    have h2 : (0 : ℝ) < 2 ^ 1024 := by positivity
    linarith

/-! ## Goal straight behind, with both headings along the line -/

theorem mod2pi_eq_of_congr (x y : ℝ) (hy0 : 0 ≤ y) (hy1 : y < twoPi)
    (h : ∃ k : ℤ, x - y = k * (2 * Real.pi)) : mod2pi x = y := by
  obtain ⟨k, hk⟩ := h
  obtain ⟨k', hk'⟩ := mod2pi_sub_self x
  have hm0 := mod2pi_nonneg x
  have hm1 := mod2pi_lt x
  have hj : mod2pi x - y = ((k + k' : ℤ) : ℝ) * (2 * Real.pi) := by
    push_cast; linarith
  have hpi := twoPi_pos
  unfold twoPi at hy1 hm1 hpi
  have hz : k + k' = 0 := by
    rcases lt_trichotomy (k + k') 0 with hneg | hzero | hpos
    · exfalso
      have : ((k + k' : ℤ) : ℝ) ≤ -1 := by exact_mod_cast (Int.le_sub_one_of_lt hneg)
      nlinarith
    · exact hzero
    · exfalso
      have : (1 : ℝ) ≤ ((k + k' : ℤ) : ℝ) := by exact_mod_cast hpos
      nlinarith
  rw [hz] at hj
  simp only [Int.cast_zero, zero_mul] at hj
  linarith

theorem atan2_two_pos (d : ℝ) (hd : 0 < d) : 0 < atan2 2 d ∧ atan2 2 d < Real.pi / 2 := by
  unfold atan2
  constructor
  · rcases (Complex.arg_nonneg_iff (z := ⟨d, 2⟩)).mpr (by norm_num) |>.lt_or_eq with h | h
    · exact h
    · exfalso
      have := (Complex.arg_eq_zero_iff (z := ⟨d, 2⟩)).mp h.symm
      norm_num at this
  · have := (Complex.abs_arg_lt_pi_div_two_iff (z := ⟨d, 2⟩)).mpr (Or.inl hd)
    exact (abs_lt.mp this).2

theorem atan2_neg_two (d : ℝ) (hd : 0 < d) : atan2 (-2) d = -atan2 2 d := by
  have h := Complex.arg_conj ⟨d, 2⟩
  have hne : Complex.arg ⟨d, 2⟩ ≠ Real.pi := by
    have := (atan2_two_pos d hd).2
    unfold atan2 at this
    have hpi := Real.pi_pos
    intro hcon
    linarith
  rw [if_neg hne] at h
  unfold atan2
  rw [← h]
  rfl

theorem pi_lt_twoPi : Real.pi < twoPi := by
  unfold twoPi; linarith [Real.pi_pos]

theorem mod2pi_neg_pi : mod2pi (-Real.pi) = Real.pi :=
  mod2pi_eq_of_congr _ _ Real.pi_pos.le pi_lt_twoPi ⟨-1, by push_cast; ring⟩

theorem mod2pi_pi : mod2pi Real.pi = Real.pi :=
  mod2pi_of_range _ Real.pi_pos.le pi_lt_twoPi

/-- The family LSL when both normalised headings are `π`: two half circles around a
straight segment. -/
theorem lsl_behind (d : ℝ) (hd : 0 ≤ d) :
    lsl ⟨Real.pi, Real.pi, d, 0, 0, -1, -1, 1, d * d⟩ =
      ({ Path.zero with t := Real.pi, p := d, q := Real.pi, pathType := LSL }, true) := by
  have h1 : 2 + d * d - 2 * 1 + 2 * d * 0 = d * d := by ring
  have h2 : ¬ (d * d < 0) := not_lt.mpr (mul_self_nonneg d)
  have h3 : d + 0 - 0 = d := by ring
  unfold lsl
  simp only [sub_self, h1, if_neg h2, h3, atan2_zero_nonneg d hd, zero_sub, sub_zero,
    mod2pi_neg_pi, mod2pi_pi, Real.sqrt_mul_self hd]

/-- The middle arc of a feasible three-arc family when both normalised headings are
`π` and `d > 0`: it is at least a half circle, and `d` is at most `4`. -/
theorem behind_ccc_bounds (d : ℝ) (hd : 0 < d) (hfeas : ¬ (|(6 - d * d + 2 * 1) / 8| > 1)) :
    Real.pi ≤ twoPi - Real.arccos ((6 - d * d + 2 * 1) / 8) ∧
      twoPi - Real.arccos ((6 - d * d + 2 * 1) / 8) < twoPi ∧
      0 < Real.arccos ((6 - d * d + 2 * 1) / 8) ∧ d ≤ 4 := by
  have hc := abs_le.mp (not_lt.mp hfeas)
  have hlt : (6 - d * d + 2 * 1) / 8 < 1 := by
    rw [div_lt_iff₀ (by norm_num : (0 : ℝ) < 8)]
    nlinarith
  have hpos := Real.arccos_pos.mpr hlt
  have hle := Real.arccos_le_pi ((6 - d * d + 2 * 1) / 8)
  have h16 : d * d ≤ 16 := by
    have := hc.1
    rw [le_div_iff₀ (by norm_num : (0 : ℝ) < 8)] at this
    linarith
  refine ⟨?_, by linarith, hpos, by nlinarith⟩
  unfold twoPi
  linarith

/-- With both normalised headings `π` and `d > 0`, the raw parameters of every
feasible family add up to at least `d + 2π`. -/
theorem behind_sum_ge (d : ℝ) (hd : 0 < d) (k : PathType) (fn : pathTypeFunc)
    (hm : (k, fn) ∈ pathTypeFuncMap)
    (hok : (fn ⟨Real.pi, Real.pi, d, 0, 0, -1, -1, 1, d * d⟩).2 = true) :
    d + twoPi ≤ (fn ⟨Real.pi, Real.pi, d, 0, 0, -1, -1, 1, d * d⟩).1.t +
      (fn ⟨Real.pi, Real.pi, d, 0, 0, -1, -1, 1, d * d⟩).1.p +
      (fn ⟨Real.pi, Real.pi, d, 0, 0, -1, -1, 1, d * d⟩).1.q := by
  have hd0 : 0 ≤ d := hd.le
  have hsq : ¬ (d * d < 0) := not_lt.mpr (mul_self_nonneg d)
  have hpi := Real.pi_pos
  obtain ⟨ha0, ha1⟩ := atan2_two_pos d hd
  have hneg := atan2_neg_two d hd
  rw [mem_funcMap_iff] at hm
  rcases hm with ⟨rfl, rfl⟩ | ⟨rfl, rfl⟩ | ⟨rfl, rfl⟩ | ⟨rfl, rfl⟩ | ⟨rfl, rfl⟩ | ⟨rfl, rfl⟩
  · rw [lsl_behind d hd0]
    unfold twoPi
    simp only
    linarith
  · -- LSR
    have h1 : -2 + d * d + 2 * 1 + 2 * d * (0 + 0) = d * d := by ring
    have h3 : d + 0 + 0 = d := by ring
    have h4 : (- (-1 : ℝ) - -1) = 2 := by norm_num
    have ht : mod2pi (atan2 2 d - -atan2 2 d - Real.pi) = Real.pi + 2 * atan2 2 d := by
      apply mod2pi_eq_of_congr
      · linarith
      · unfold twoPi; linarith
      · exact ⟨-1, by push_cast; ring⟩
    unfold lsr
    simp only [h1, if_neg hsq, h3, h4, Real.sqrt_mul_self hd0, hneg, mod2pi_pi, ht]
    unfold twoPi
    linarith
  · -- RSL
    have h1 : -2 + d * d + 2 * 1 - 2 * d * (0 + 0) = d * d := by ring
    have h3 : d - 0 - 0 = d := by ring
    have h4 : ((-1 : ℝ) + -1) = -2 := by norm_num
    have ht : mod2pi (Real.pi - (-atan2 2 d - atan2 2 d)) = Real.pi + 2 * atan2 2 d := by
      apply mod2pi_eq_of_congr
      · linarith
      · unfold twoPi; linarith
      · exact ⟨0, by push_cast; ring⟩
    unfold rsl
    simp only [h1, if_neg hsq, h3, h4, Real.sqrt_mul_self hd0, hneg, ht]
    unfold twoPi
    linarith
  · -- RSR
    have h1 : 2 + d * d - 2 * 1 + 2 * d * 0 = d * d := by ring
    unfold rsr
    simp only [sub_self, h1, if_neg hsq, sub_zero, add_zero, atan2_zero_nonneg d hd0,
      zero_sub, mod2pi_neg_pi, mod2pi_pi, Real.sqrt_mul_self hd0]
    unfold twoPi
    linarith
  · unfold rlr at hok ⊢
    simp only [sub_self, sub_zero, add_zero, mul_zero, atan2_zero_nonneg d hd0] at hok ⊢
    split_ifs at hok ⊢ with hfeas
    obtain ⟨hX0, hX1, hX2, hd4⟩ := behind_ccc_bounds d hd hfeas
    have hP := mod2pi_of_range _ (by linarith) hX1
    have hhalf : mod2pi ((twoPi - Real.arccos ((6 - d * d + 2 * 1) / 8)) / 2) =
        (twoPi - Real.arccos ((6 - d * d + 2 * 1) / 8)) / 2 :=
      mod2pi_of_range _ (by linarith) (by linarith)
    have ht : mod2pi (Real.pi + (twoPi - Real.arccos ((6 - d * d + 2 * 1) / 8)) / 2) =
        Real.pi + (twoPi - Real.arccos ((6 - d * d + 2 * 1) / 8)) / 2 :=
      mod2pi_of_range _ (by linarith) (by unfold twoPi at hX1 ⊢; linarith)
    have hq : mod2pi (0 - (Real.pi + (twoPi - Real.arccos ((6 - d * d + 2 * 1) / 8)) / 2) +
        (twoPi - Real.arccos ((6 - d * d + 2 * 1) / 8))) =
        (twoPi - Real.arccos ((6 - d * d + 2 * 1) / 8)) / 2 + Real.pi := by
      apply mod2pi_eq_of_congr
      · linarith
      · unfold twoPi at hX1 ⊢; linarith
      · exact ⟨-1, by push_cast; ring⟩
    simp only [hP, hhalf, ht, hq]
    unfold twoPi at hX0 hX1 ⊢
    linarith [Real.pi_gt_three]
  · unfold lrl at hok ⊢
    simp only [sub_self, sub_zero, add_zero, mul_zero, atan2_zero_nonneg d hd0] at hok ⊢
    split_ifs at hok ⊢ with hfeas
    obtain ⟨hX0, hX1, hX2, hd4⟩ := behind_ccc_bounds d hd hfeas
    have hP := mod2pi_of_range _ (by linarith) hX1
    have ht : mod2pi (-Real.pi + (twoPi - Real.arccos ((6 - d * d + 2 * 1) / 8)) / 2) =
        (twoPi - Real.arccos ((6 - d * d + 2 * 1) / 8)) / 2 + Real.pi := by
      apply mod2pi_eq_of_congr
      · linarith
      · unfold twoPi at hX1 ⊢; linarith
      · exact ⟨-1, by push_cast; ring⟩
    have hq : mod2pi (Real.pi - Real.pi -
        ((twoPi - Real.arccos ((6 - d * d + 2 * 1) / 8)) / 2 + Real.pi) +
        (twoPi - Real.arccos ((6 - d * d + 2 * 1) / 8))) =
        (twoPi - Real.arccos ((6 - d * d + 2 * 1) / 8)) / 2 + Real.pi := by
      apply mod2pi_eq_of_congr
      · linarith
      · unfold twoPi at hX1 ⊢; linarith
      · exact ⟨-1, by push_cast; ring⟩
    rw [hP, hP, ht, mod2pi_pi, hq]
    unfold twoPi at hX0 hX1 ⊢
    simp only
    linarith [Real.pi_gt_three]

/-- The normalised parameters when both headings point opposite to the direction
from start to goal. -/
theorem toPathParams_behind (start goal : State) (r : ℝ) (hr : 0 < r)
    (hD : 0 < distance start goal)
    (hs : ∃ k : ℤ, start.Yaw - (atan2 (goal.Y - start.Y) (goal.X - start.X) + Real.pi) =
      k * (2 * Real.pi))
    (hg : ∃ k : ℤ, goal.Yaw - (atan2 (goal.Y - start.Y) (goal.X - start.X) + Real.pi) =
      k * (2 * Real.pi)) :
    toPathParams start goal r =
      .ok ⟨Real.pi, Real.pi, distance start goal / r, 0, 0, -1, -1, 1,
        distance start goal / r * (distance start goal / r)⟩ := by
  have hdir : direction start goal = mod2pi (atan2 (goal.Y - start.Y) (goal.X - start.X)) := by
    unfold direction
    rw [if_pos hD]
  have key : ∀ y : ℝ, (∃ k : ℤ, y - (atan2 (goal.Y - start.Y) (goal.X - start.X) + Real.pi) =
      k * (2 * Real.pi)) → mod2pi (y - direction start goal) = Real.pi := by
    rintro y ⟨k, hk⟩
    obtain ⟨k', hk'⟩ := mod2pi_sub_self (atan2 (goal.Y - start.Y) (goal.X - start.X))
    rw [hdir]
    apply mod2pi_eq_of_congr _ _ Real.pi_pos.le pi_lt_twoPi
    exact ⟨k - k', by push_cast; linarith⟩
  rw [toPathParams_eq start goal r hr, key _ hs, key _ hg]
  simp only [Real.sin_pi, Real.cos_pi, sub_self, Real.cos_zero]

/-- Goal straight behind with both headings along the line: when `D + 2π·r` is below
`math.MaxFloat64`, the answer of `MinLengthPath` has length `D + 2π·r`. -/
theorem MinLengthPath_behind (order : List (PathType × pathTypeFunc))
    (horder : order.Perm pathTypeFuncMap) (start goal : State) (r : ℝ) (hr : 0 < r)
    (hD : 0 < distance start goal)
    (hs : ∃ k : ℤ, start.Yaw - (atan2 (goal.Y - start.Y) (goal.X - start.X) + Real.pi) =
      k * (2 * Real.pi))
    (hg : ∃ k : ℤ, goal.Yaw - (atan2 (goal.Y - start.Y) (goal.X - start.X) + Real.pi) =
      k * (2 * Real.pi))
    (hsmall : distance start goal + 2 * Real.pi * r < MaxFloat64) :
    ∃ best, MinLengthPath order start goal r = .ok (best, true) ∧
      best.Length = distance start goal + 2 * Real.pi * r := by
  have hmem : ∀ e ∈ order, e ∈ pathTypeFuncMap := fun e he => horder.mem_iff.mp he
  have hpp := toPathParams_behind start goal r hr hD hs hg
  have hd : 0 < distance start goal / r := div_pos hD hr
  have hdr : distance start goal / r * r = distance start goal := by field_simp
  have hz : ¬ ((⟨Real.pi, Real.pi, distance start goal / r, 0, 0, -1, -1, 1,
      distance start goal / r * (distance start goal / r)⟩ : pathParams).alpha = 0 ∧
      (⟨Real.pi, Real.pi, distance start goal / r, 0, 0, -1, -1, 1,
      distance start goal / r * (distance start goal / r)⟩ : pathParams).beta = 0 ∧
      (⟨Real.pi, Real.pi, distance start goal / r, 0, 0, -1, -1, 1,
      distance start goal / r * (distance start goal / r)⟩ : pathParams).d = 0) := by
    rintro ⟨-, -, h⟩
    exact hd.ne.symm h
  -- the candidate of the family LSL
  have hraw := lsl_behind (distance start goal / r) hd.le
  have hset := setTuringRadius_raw Real.pi (distance start goal / r) Real.pi r LSL
    CourseTypeLeft CourseTypeStraight CourseTypeLeft rfl
  have hval : ((lsl ⟨Real.pi, Real.pi, distance start goal / r, 0, 0, -1, -1, 1,
      distance start goal / r * (distance start goal / r)⟩).1.setTuringRadius r).Length =
      distance start goal + 2 * Real.pi * r := by
    rw [hraw, hset]
    unfold Path.Length
    simp only
    rw [hdr]
    ring
  have hpos : 0 < distance start goal + 2 * Real.pi * r := by
    have := mul_pos Real.pi_pos hr
    linarith
  have hx := PathByType_of_candidate start goal r LSL _ lsl hpp hz mem_funcMap_LSL
    (by rw [hraw]) (by rw [hval]; exact hpos)
  obtain ⟨paths, hpaths⟩ := AvailablePaths_total order start goal r hr
  have hxmem := (mem_AvailablePaths_iff order hmem start goal r paths hpaths _).mpr
    ⟨(LSL, lsl), horder.mem_iff.mpr mem_funcMap_LSL, hx⟩
  -- every available path is at least that long
  have hge : ∀ p ∈ paths, distance start goal + 2 * Real.pi * r ≤ p.Length := by
    intro p hp
    obtain ⟨e, -, he⟩ := (mem_AvailablePaths_iff order hmem start goal r paths hpaths p).mp hp
    obtain ⟨pp', fn, hpp', -, hm, hok, -, rfl⟩ := PathByType_ok _ _ _ _ _ he
    rw [hpp] at hpp'
    simp only [Except.ok.injEq] at hpp'
    subst hpp'
    have hsum := behind_sum_ge (distance start goal / r) hd e.1 fn hm hok
    obtain ⟨t, p, q, -, -, -, hraw'⟩ := family_raw e.1 fn hm _ hok
    obtain ⟨c1, c2, c3, hc, -⟩ := courseTypes_of_mem e.1 fn hm
    rw [hraw'] at hsum
    rw [hraw', setTuringRadius_raw t p q r e.1 c1 c2 c3 hc]
    unfold Path.Length
    simp only at hsum ⊢
    unfold twoPi at hsum
    have := mul_le_mul_of_nonneg_right hsum hr.le
    rw [add_mul, hdr] at this
    linarith
  refine ⟨_, MinLengthPath_of_nonempty order start goal r paths hpaths
    (List.ne_nil_of_mem hxmem), ?_⟩
  rcases foldl_minLengthStep paths (MaxFloat64, Path.zero) with
    ⟨-, hall⟩ | ⟨hm, hlen, -, hall⟩
  · exfalso
    have := hall _ hxmem
    simp only at this
    have hv : Path.Length
        { ((lsl ⟨Real.pi, Real.pi, distance start goal / r, 0, 0, -1, -1, 1,
          distance start goal / r * (distance start goal / r)⟩).1.setTuringRadius r) with
          origin := start } = distance start goal + 2 * Real.pi * r := hval
    rw [hv] at this
    linarith
  · have hlow := hge _ hm
    have hup := hall _ hxmem
    have hv : Path.Length
        { ((lsl ⟨Real.pi, Real.pi, distance start goal / r, 0, 0, -1, -1, 1,
          distance start goal / r * (distance start goal / r)⟩).1.setTuringRadius r) with
          origin := start } = distance start goal + 2 * Real.pi * r := hval
    rw [hlen, hv] at hup
    exact le_antisymm hup hlow

/-! ## Propagation along one course -/

/-- Travelling `a` and then `b` along one course is travelling `a + b`. -/
theorem move_add (s : State) (a b r : ℝ) (c : PathCourseType) :
    move (move s a c r) b c r = move s (a + b) c r := by
  have hl : s.Yaw + a / r + b / r = s.Yaw + (a + b) / r := by ring
  unfold move
  by_cases h1 : c = CourseTypeLeft
  · simp only [if_pos h1, hl, State.mk.injEq, and_true]
    constructor <;> ring
  · by_cases h2 : c = CourseTypeRight
    · simp only [if_neg h1, if_pos h2, State.mk.injEq]
      refine ⟨by ring_nf, by ring_nf, by ring⟩
    · simp only [if_neg h1, if_neg h2, add_zero, State.mk.injEq, and_true]
      constructor <;> ring

/-- C21, with arithmetic over the reals. Propagation is additive along one course: for a course type among Left,
Straight and Right, a positive turning radius and lengths `a, b ≥ 0`,
`stateAtDistance` returns a pose after length `a`, and continuing from that pose for
length `b` on the same course returns the same as travelling `a + b` from the start;
travelling length `0` returns the pose unchanged. -/
theorem stateAtDistance_additive (s : State) (c : PathCourseType) (r a b : ℝ)
    (hc : c = CourseTypeLeft ∨ c = CourseTypeStraight ∨ c = CourseTypeRight)
    (hr : 0 < r) (ha : 0 ≤ a) (hb : 0 ≤ b) :
    (∃ s1, stateAtDistance s a c r = .ok s1 ∧
      stateAtDistance s1 b c r = stateAtDistance s (a + b) c r) ∧
      stateAtDistance s 0 c r = .ok s := by
  have hc' : c = CourseTypeLeft ∨ c = CourseTypeRight ∨ c = CourseTypeStraight := by
    rcases hc with h | h | h
    · exact Or.inl h
    · exact Or.inr (Or.inr h)
    · exact Or.inr (Or.inl h)
  refine ⟨⟨move s a c r, stateAtDistance_eq_move s a r c hc', ?_⟩, ?_⟩
  · rw [stateAtDistance_eq_move _ b r c hc', stateAtDistance_eq_move s (a + b) r c hc',
      move_add]
  · rw [stateAtDistance_eq_move s 0 r c hc', move_zero]

theorem stateAtDistance_additive_witness :
    (∃ s1, stateAtDistance ⟨1, 2, 0⟩ 3 CourseTypeLeft 2 = .ok s1 ∧
      stateAtDistance s1 4 CourseTypeLeft 2 = stateAtDistance ⟨1, 2, 0⟩ (3 + 4) CourseTypeLeft 2) ∧
      stateAtDistance ⟨1, 2, 0⟩ 0 CourseTypeLeft 2 = .ok ⟨1, 2, 0⟩ :=
  stateAtDistance_additive ⟨1, 2, 0⟩ CourseTypeLeft 2 3 4 (Or.inl rfl) (by norm_num)
    (by norm_num) (by norm_num)

/-! ## The program in `float64`, evaluated

Start `(-2^1023, 0, 0)`, goal `(2^1023, 0, 0)` and turning radius `1` are written
`⟨.fin true (2 ^ 2097), 0, 0⟩`, `⟨.fin false (2 ^ 2097), 0, 0⟩` and `1`: the difference
of the two abscissas overflows to `+Inf`. `Float64.dyadic 6894565328877484 717` is the
`float64` that the literal `1e-200` denotes, and `Float64.dyadic 3602879701896397 55`
the one that `0.1` denotes. -/

set_option exponentiation.threshold 5000

set_option maxRecDepth 100000

/-- The normalised parameters at the far input: both headings `0`, `d = +Inf`. -/
theorem binary64_toPathParams_far (m : Libm) :
    Binary64.toPathParams m ⟨.fin true (2 ^ 2097), 0, 0⟩ ⟨.fin false (2 ^ 2097), 0, 0⟩ 1 =
      .ok ⟨0, 0, .inf false, 0, 0, 1, 1, 1, .inf false⟩ := rfl

theorem binary64_step_far_LSL (m : Libm) (s : Binary64.State) (paths : List Binary64.Path) :
    Binary64.availablePathsStep ⟨0, 0, .inf false, 0, 0, 1, 1, 1, .inf false⟩ s 1 paths
        (LSL, Binary64.lsl m) =
      paths ++ [⟨0, .nan, 0, LSL, .nan,
        [⟨0, CourseTypeLeft⟩, ⟨.nan, CourseTypeStraight⟩, ⟨0, CourseTypeLeft⟩],
        1, s⟩] := rfl

theorem binary64_step_far_LSR (m : Libm) (s : Binary64.State) (paths : List Binary64.Path) :
    Binary64.availablePathsStep ⟨0, 0, .inf false, 0, 0, 1, 1, 1, .inf false⟩ s 1 paths
        (LSR, Binary64.lsr m) =
      paths ++ [⟨.nan, .nan, .nan, LSR, .nan,
        [⟨.nan, CourseTypeLeft⟩, ⟨.nan, CourseTypeStraight⟩, ⟨.nan, CourseTypeRight⟩],
        1, s⟩] := rfl

theorem binary64_step_far_RSL (m : Libm) (s : Binary64.State) (paths : List Binary64.Path) :
    Binary64.availablePathsStep ⟨0, 0, .inf false, 0, 0, 1, 1, 1, .inf false⟩ s 1 paths
        (RSL, Binary64.rsl m) =
      paths ++ [⟨.nan, .nan, .nan, RSL, .nan,
        [⟨.nan, CourseTypeRight⟩, ⟨.nan, CourseTypeStraight⟩, ⟨.nan, CourseTypeLeft⟩],
        1, s⟩] := rfl

theorem binary64_step_far_RSR (m : Libm) (s : Binary64.State) (paths : List Binary64.Path) :
    Binary64.availablePathsStep ⟨0, 0, .inf false, 0, 0, 1, 1, 1, .inf false⟩ s 1 paths
        (RSR, Binary64.rsr m) =
      paths ++ [⟨0, .nan, 0, RSR, .nan,
        [⟨0, CourseTypeRight⟩, ⟨.nan, CourseTypeStraight⟩, ⟨0, CourseTypeRight⟩],
        1, s⟩] := rfl

theorem binary64_step_far_RLR (m : Libm) (s : Binary64.State) (paths : List Binary64.Path) :
    Binary64.availablePathsStep ⟨0, 0, .inf false, 0, 0, 1, 1, 1, .inf false⟩ s 1 paths
        (RLR, Binary64.rlr m) =
      paths ++ [⟨.nan, .nan, .nan, RLR, .nan,
        [⟨.nan, CourseTypeRight⟩, ⟨.nan, CourseTypeLeft⟩, ⟨.nan, CourseTypeRight⟩],
        1, s⟩] := rfl

theorem binary64_step_far_LRL (m : Libm) (s : Binary64.State) (paths : List Binary64.Path) :
    Binary64.availablePathsStep ⟨0, 0, .inf false, 0, 0, 1, 1, 1, .inf false⟩ s 1 paths
        (LRL, Binary64.lrl m) =
      paths ++ [⟨.nan, .nan, .nan, LRL, .nan,
        [⟨.nan, CourseTypeLeft⟩, ⟨.nan, CourseTypeRight⟩, ⟨.nan, CourseTypeLeft⟩],
        1, s⟩] := rfl

/-- At the far input every one of the six candidates passes the tests of
`AvailablePaths`, each with a NaN length. -/
theorem binary64_AvailablePaths_far (m : Libm) :
    Binary64.AvailablePaths m (Binary64.pathTypeFuncMap m) ⟨.fin true (2 ^ 2097), 0, 0⟩
      ⟨.fin false (2 ^ 2097), 0, 0⟩ 1 =
      .ok [⟨0, .nan, 0, LSL, .nan,
          [⟨0, CourseTypeLeft⟩, ⟨.nan, CourseTypeStraight⟩, ⟨0, CourseTypeLeft⟩],
          1, ⟨.fin true (2 ^ 2097), 0, 0⟩⟩,
        ⟨.nan, .nan, .nan, LSR, .nan,
          [⟨.nan, CourseTypeLeft⟩, ⟨.nan, CourseTypeStraight⟩, ⟨.nan, CourseTypeRight⟩],
          1, ⟨.fin true (2 ^ 2097), 0, 0⟩⟩,
        ⟨.nan, .nan, .nan, RSL, .nan,
          [⟨.nan, CourseTypeRight⟩, ⟨.nan, CourseTypeStraight⟩, ⟨.nan, CourseTypeLeft⟩],
          1, ⟨.fin true (2 ^ 2097), 0, 0⟩⟩,
        ⟨0, .nan, 0, RSR, .nan,
          [⟨0, CourseTypeRight⟩, ⟨.nan, CourseTypeStraight⟩, ⟨0, CourseTypeRight⟩],
          1, ⟨.fin true (2 ^ 2097), 0, 0⟩⟩,
        ⟨.nan, .nan, .nan, RLR, .nan,
          [⟨.nan, CourseTypeRight⟩, ⟨.nan, CourseTypeLeft⟩, ⟨.nan, CourseTypeRight⟩],
          1, ⟨.fin true (2 ^ 2097), 0, 0⟩⟩,
        ⟨.nan, .nan, .nan, LRL, .nan,
          [⟨.nan, CourseTypeLeft⟩, ⟨.nan, CourseTypeRight⟩, ⟨.nan, CourseTypeLeft⟩],
          1, ⟨.fin true (2 ^ 2097), 0, 0⟩⟩] := by
  unfold Binary64.AvailablePaths
  rw [binary64_toPathParams_far]
  simp only [Binary64.pathTypeFuncMap, List.foldl, binary64_step_far_LSL,
    binary64_step_far_LSR, binary64_step_far_RSL, binary64_step_far_RSR,
    binary64_step_far_RLR, binary64_step_far_LRL]
  rfl

theorem binary64_PathByType_far_LSL (m : Libm) :
    Binary64.PathByType m ⟨.fin true (2 ^ 2097), 0, 0⟩ ⟨.fin false (2 ^ 2097), 0, 0⟩ 1 LSL =
      .ok (⟨0, .nan, 0, LSL, .nan,
        [⟨0, CourseTypeLeft⟩, ⟨.nan, CourseTypeStraight⟩, ⟨0, CourseTypeLeft⟩],
        1, ⟨.fin true (2 ^ 2097), 0, 0⟩⟩, true) := by
  unfold Binary64.PathByType
  rw [binary64_toPathParams_far]
  rfl

theorem binary64_PathByType_far_RLR (m : Libm) :
    Binary64.PathByType m ⟨.fin true (2 ^ 2097), 0, 0⟩ ⟨.fin false (2 ^ 2097), 0, 0⟩ 1 RLR =
      .ok (⟨.nan, .nan, .nan, RLR, .nan,
        [⟨.nan, CourseTypeRight⟩, ⟨.nan, CourseTypeLeft⟩, ⟨.nan, CourseTypeRight⟩],
        1, ⟨.fin true (2 ^ 2097), 0, 0⟩⟩, true) := by
  unfold Binary64.PathByType
  rw [binary64_toPathParams_far]
  rfl

/-- C3 fails on the code. From `(-2^1023, 0, 0)` to `(2^1023, 0, 0)` with turning
radius `1`, in `float64` and whatever the values of the functions of package `math`
the documentation leaves open, `PathByType` answers `(path, true)` on the family LSL
with a path whose length is a NaN and whose middle segment has a NaN length: `pSquare`
is a NaN, and neither `pSquare < 0` nor `path.Length() <= 0` holds of a NaN. So
`Length() > 0` is false, and so is `Length ≥ 0` for the middle segment. -/
theorem PathByType_far_answers_nan_path (m : Libm) :
    ∃ path : Binary64.Path,
      Binary64.PathByType m ⟨.fin true (2 ^ 2097), 0, 0⟩ ⟨.fin false (2 ^ 2097), 0, 0⟩ 1 LSL =
        .ok (path, true) ∧
      path.Length = .nan ∧ path.Segments.map Binary64.PathSegment.Length = [0, .nan, 0] ∧
      Float64.gt path.Length 0 = false ∧ Float64.le 0 .nan = false :=
  ⟨_, binary64_PathByType_far_LSL m, rfl, rfl, rfl, rfl⟩

/-- C4 fails on the code. From `(-2^1023, 0, 0)` to `(2^1023, 0, 0)` with turning
radius `1`, in `float64`, the six available paths all have a NaN length, none of them
is below `math.MaxFloat64`, and `MinLengthPath` answers `(Path{}, true)`: its length
`0` is not `≤` the length of any available path, since `0 <= NaN` is false. -/
theorem MinLengthPath_far_not_le_available (m : Libm) :
    ∃ paths : List Binary64.Path,
      Binary64.MinLengthPath m (Binary64.pathTypeFuncMap m) ⟨.fin true (2 ^ 2097), 0, 0⟩
        ⟨.fin false (2 ^ 2097), 0, 0⟩ 1 = .ok (Binary64.Path.zero, true) ∧
      Binary64.AvailablePaths m (Binary64.pathTypeFuncMap m) ⟨.fin true (2 ^ 2097), 0, 0⟩
        ⟨.fin false (2 ^ 2097), 0, 0⟩ 1 = .ok paths ∧
      paths.length = 6 ∧
      ∀ p ∈ paths, Float64.le Binary64.Path.zero.Length p.Length = false := by
  refine ⟨_, ?_, binary64_AvailablePaths_far m, rfl, ?_⟩
  · unfold Binary64.MinLengthPath
    rw [binary64_AvailablePaths_far]
    rfl
  · intro p hp
    simp only [List.mem_cons, List.mem_singleton, List.not_mem_nil, or_false] at hp
    rcases hp with rfl | rfl | rfl | rfl | rfl | rfl <;> rfl

/-- C10 fails as stated. At the far input the path `PathByType` answers on the family
LSL has the segment lengths `0`, NaN, `0` and a NaN length. `sample` at that length
takes `min` of a NaN and each segment length, travels a NaN along every segment and
returns the pose `(NaN, NaN, NaN)`; the three applications of `stateAtDistance` with
the segment lengths return `(NaN, NaN, 0)`, the two arcs of length `0` leaving the
heading alone. -/
theorem sample_full_length_binary64_differs :
    ¬ ∃ (m : Libm) (path : Binary64.Path) (g0 g1 g2 : Binary64.PathSegment)
        (s1 s2 s3 : Binary64.State),
      Binary64.PathByType m ⟨.fin true (2 ^ 2097), 0, 0⟩ ⟨.fin false (2 ^ 2097), 0, 0⟩ 1 LSL =
        .ok (path, true) ∧
      path.Segments = [g0, g1, g2] ∧
      Binary64.stateAtDistance m path.origin g0.Length g0.CourseType path.turningRadius =
        .ok s1 ∧
      Binary64.stateAtDistance m s1 g1.Length g1.CourseType path.turningRadius = .ok s2 ∧
      Binary64.stateAtDistance m s2 g2.Length g2.CourseType path.turningRadius = .ok s3 ∧
      path.sample m path.Length = .ok s3 := by
  rintro ⟨m, path, g0, g1, g2, s1, s2, s3, hp, hseg, h1, h2, h3, hs⟩
  rw [binary64_PathByType_far_LSL] at hp
  have hpath := congrArg Prod.fst (Except.ok.inj hp)
  simp only at hpath
  subst hpath
  simp only [Binary64.Path.Segments, List.cons.injEq, and_true] at hseg
  obtain ⟨rfl, rfl, rfl⟩ := hseg
  have a1 : Binary64.stateAtDistance m ⟨.fin true (2 ^ 2097), 0, 0⟩ 0 CourseTypeLeft 1 =
      .ok ⟨.fin true (2 ^ 2097), 0, 0⟩ := rfl
  have a2 : Binary64.stateAtDistance m ⟨.fin true (2 ^ 2097), 0, 0⟩ .nan CourseTypeStraight 1 =
      .ok ⟨.nan, .nan, 0⟩ := rfl
  have a3 : Binary64.stateAtDistance m ⟨.nan, .nan, 0⟩ 0 CourseTypeLeft 1 =
      .ok ⟨.nan, .nan, 0⟩ := rfl
  simp only [a1, Except.ok.injEq] at h1
  subst h1
  simp only [a2, Except.ok.injEq] at h2
  subst h2
  simp only [a3, Except.ok.injEq] at h3
  subst h3
  have a4 : Binary64.Path.sample m (⟨0, .nan, 0, LSL, .nan,
        [⟨0, CourseTypeLeft⟩, ⟨.nan, CourseTypeStraight⟩, ⟨0, CourseTypeLeft⟩],
        1, ⟨.fin true (2 ^ 2097), 0, 0⟩⟩) .nan =
      .ok ⟨.nan, .nan, .nan⟩ := rfl
  simp only [Binary64.Path.Length] at hs
  rw [a4] at hs
  exact absurd (congrArg Binary64.State.Yaw (Except.ok.inj hs)) (by decide)

/-- C17 fails as stated. At the far input the positions are `2^1024` apart, more than
six turning radii, and `PathByType` answers feasible on the family RLR (and on LRL):
the cosine `tmp` is a NaN, and `math.Abs(tmp) > 1` does not hold of a NaN. -/
theorem ccc_far_binary64_feasible :
    ¬ ∃ (m : Libm) (p1 p2 : Binary64.Path),
      Binary64.PathByType m ⟨.fin true (2 ^ 2097), 0, 0⟩ ⟨.fin false (2 ^ 2097), 0, 0⟩ 1 RLR =
        .ok (p1, false) ∧
      Binary64.PathByType m ⟨.fin true (2 ^ 2097), 0, 0⟩ ⟨.fin false (2 ^ 2097), 0, 0⟩ 1 LRL =
        .ok (p2, false) := by
  rintro ⟨m, p1, p2, h1, -⟩
  rw [binary64_PathByType_far_RLR] at h1
  exact absurd (congrArg Prod.snd (Except.ok.inj h1)) (by simp)

/-- C19 fails as stated. At the far input the path `PathByType` answers on the family
RLR has three arcs whose length is a NaN, which is neither `≥ 0` nor `< 2π·r`. -/
theorem arc_segments_binary64_nan :
    ¬ ∃ m : Libm, ∀ path : Binary64.Path,
      Binary64.PathByType m ⟨.fin true (2 ^ 2097), 0, 0⟩ ⟨.fin false (2 ^ 2097), 0, 0⟩ 1 RLR =
        .ok (path, true) →
      ∀ g ∈ path.Segments,
        (g.CourseType = CourseTypeLeft ∨ g.CourseType = CourseTypeRight) →
        Float64.le 0 g.Length = true ∧ Float64.lt g.Length (Binary64.twoPi * 1) = true := by
  rintro ⟨m, h⟩
  have h1 := h _ (binary64_PathByType_far_RLR m) ⟨.nan, CourseTypeRight⟩
    (List.mem_cons_self _ _) (Or.inr rfl)
  exact absurd h1.1 (by decide)

/-- C18 fails as stated. Start `(0, 0, 0)` and goal `(1e-200, 0, 0)` differ in
position, yet in `float64` the square of `1e-200` underflows to `0`, so `D = 0`,
`d = 0`, the guard fires and `MinLengthPath` answers "no path", whatever the order in
which the families are visited. -/
theorem MinLengthPath_binary64_underflow :
    ¬ ∃ (m : Libm) (order : List (PathType × Binary64.pathTypeFunc)) (best : Binary64.Path),
      Binary64.MinLengthPath m order ⟨0, 0, 0⟩ ⟨Float64.dyadic 6894565328877484 717, 0, 0⟩ 1 =
        .ok (best, true) := by
  rintro ⟨m, order, best, h⟩
  have e : Binary64.MinLengthPath m order ⟨0, 0, 0⟩
      ⟨Float64.dyadic 6894565328877484 717, 0, 0⟩ 1 = .ok (Binary64.Path.zero, false) := rfl
  rw [e] at h
  exact absurd (congrArg Prod.snd (Except.ok.inj h)) (by simp)

/-- C20 fails as stated. From `(0, 0, 0)` to `(1, 0, 0)` with turning radius `1` the
family LSL is feasible; with the factor `k = 1e-200` the scaled problem, from
`(0, 0, 0)` to `(1e-200, 0, 0)` with turning radius `1e-200`, is not: the square of
`1e-200` underflows to `0` and the guard fires. -/
theorem PathByType_binary64_not_scale_invariant :
    ¬ ∃ m : Libm,
      ((∃ p', Binary64.PathByType m
          ⟨Float64.dyadic 6894565328877484 717 * 0, Float64.dyadic 6894565328877484 717 * 0, 0⟩
          ⟨Float64.dyadic 6894565328877484 717 * 1, Float64.dyadic 6894565328877484 717 * 0, 0⟩
          (Float64.dyadic 6894565328877484 717 * 1) LSL = .ok (p', true)) ↔
        ∃ p, Binary64.PathByType m ⟨0, 0, 0⟩ ⟨1, 0, 0⟩ 1 LSL = .ok (p, true)) := by
  rintro ⟨m, h⟩
  obtain ⟨p', hp'⟩ := h.mpr ⟨_, rfl⟩
  have e : Binary64.PathByType m
      ⟨Float64.dyadic 6894565328877484 717 * 0, Float64.dyadic 6894565328877484 717 * 0, 0⟩
      ⟨Float64.dyadic 6894565328877484 717 * 1, Float64.dyadic 6894565328877484 717 * 0, 0⟩
      (Float64.dyadic 6894565328877484 717 * 1) LSL = .ok (Binary64.Path.zero, false) := rfl
  rw [e] at hp'
  exact absurd (congrArg Prod.snd (Except.ok.inj hp')) (by simp)

/-- From `(0, 0, 0)` to `(1, 0, 0)` with turning radius `1` the family LSL answers
the straight path of length `1`. -/
theorem binary64_PathByType_unit (m : Libm) :
    Binary64.PathByType m ⟨0, 0, 0⟩ ⟨1, 0, 0⟩ 1 LSL =
      .ok (⟨0, 1, 0, LSL, 1,
        [⟨0, CourseTypeLeft⟩, ⟨1, CourseTypeStraight⟩, ⟨0, CourseTypeLeft⟩], 1, ⟨0, 0, 0⟩⟩,
        true) := by
  have hpp : Binary64.toPathParams m ⟨0, 0, 0⟩ ⟨1, 0, 0⟩ 1 =
      .ok ⟨0, 0, 1, 0, 0, 1, 1, 1, 1⟩ := rfl
  unfold Binary64.PathByType
  rw [hpp]
  rfl

/-- More fuel does not change what the loop of `Interpolate` returns. -/
theorem binary64_interpolateLoop_fuel (m : Libm) (p : Binary64.Path) (stepSize : Float64) :
    ∀ (fuel : ℕ) (d : Float64) (states : List Binary64.State)
      (r : Except String (List Binary64.State)),
      Binary64.interpolateLoop m p stepSize fuel d states = some r →
      ∀ extra : ℕ, Binary64.interpolateLoop m p stepSize (fuel + extra) d states = some r := by
  intro fuel
  induction fuel with
  | zero => intro d states r h; simp [Binary64.interpolateLoop] at h
  | succ n ih =>
    intro d states r h extra
    rw [Nat.add_right_comm]
    unfold Binary64.interpolateLoop at h ⊢
    split_ifs at h ⊢ with hle
    · cases hs : Binary64.Path.sample m p d with
      | error e => rw [hs] at h; exact h
      | ok s => rw [hs] at h; exact ih _ _ _ h extra
    · exact h

/-- With step `0.1` on the straight path of length `1`, the loop of `Interpolate`
returns 11 poses, and the one of index 6 lies at the abscissa `0.6`
(`5404319552844595 / 2^53`), the sum of six roundings. -/
theorem binary64_Interpolate_unit_tenth (m : Libm) (fuel : ℕ) :
    ∃ states : List Binary64.State,
      Binary64.Path.Interpolate m (⟨0, 1, 0, LSL, 1,
        [⟨0, CourseTypeLeft⟩, ⟨1, CourseTypeStraight⟩, ⟨0, CourseTypeLeft⟩], 1, ⟨0, 0, 0⟩⟩)
        (fuel + 12) (Float64.dyadic 3602879701896397 55) = some (.ok states) ∧
      states.length = 11 ∧
      states[6]? = some ⟨Float64.dyadic 5404319552844595 53, 0, 0⟩ :=
  ⟨_, rfl, rfl, rfl⟩

/-- C12 fails as stated. On the path from `(0, 0, 0)` to `(1, 0, 0)` with turning
radius `1` (family LSL, length `1`) and `stepSize = 0.1`, the loop adds `0.1` to the
distance at each round, and each addition rounds: the pose of index 6 is the sample
at `0.6`, whereas `6 * 0.1` is `0.6000000000000001` in `float64`
(`1351079888211149 / 2^51`), and the sample there is another pose. So the `k`-th pose
is not `sample(path, k·stepSize)`. -/
theorem Interpolate_binary64_accumulates :
    ¬ ∃ (m : Libm) (path : Binary64.Path) (fuel : ℕ) (states : List Binary64.State),
      Binary64.PathByType m ⟨0, 0, 0⟩ ⟨1, 0, 0⟩ 1 LSL = .ok (path, true) ∧
      path.Interpolate m fuel (Float64.dyadic 3602879701896397 55) = some (.ok states) ∧
      ∀ k : ℕ, k < states.length →
        path.sample m (Float64.ofNat k * Float64.dyadic 3602879701896397 55) =
          .ok (states.getD k path.origin) := by
  rintro ⟨m, path, fuel, states, hp, hI, hk⟩
  rw [binary64_PathByType_unit] at hp
  have hpath := congrArg Prod.fst (Except.ok.inj hp)
  simp only at hpath
  subst hpath
  obtain ⟨states', hI', hlen, h6⟩ := binary64_Interpolate_unit_tenth m fuel
  have hI2 := binary64_interpolateLoop_fuel m _ _ fuel 0 [] _ hI 12
  unfold Binary64.Path.Interpolate at hI'
  rw [hI2] at hI'
  have hst : states = states' := Except.ok.inj (Option.some.inj hI')
  subst hst
  have h := hk 6 (by rw [hlen]; norm_num)
  have e : Binary64.Path.sample m (⟨0, 1, 0, LSL, 1,
        [⟨0, CourseTypeLeft⟩, ⟨1, CourseTypeStraight⟩, ⟨0, CourseTypeLeft⟩], 1, ⟨0, 0, 0⟩⟩)
      (Float64.ofNat 6 * Float64.dyadic 3602879701896397 55) =
      .ok ⟨Float64.dyadic 1351079888211149 51, 0, 0⟩ := rfl
  rw [e, List.getD_eq_getElem?_getD, h6] at h
  exact absurd (congrArg Binary64.State.X (Except.ok.inj h)) (by decide)

/-- C21 fails as stated. From the pose `(1, 0, 0)` on the straight course with turning
radius `1`, travelling `2^-53` twice leaves the pose at `(1, 0, 0)`, since
`1 + 2^-53` rounds to `1`; travelling `2^-53 + 2^-53 = 2^-52` at once reaches
`(1 + 2^-52, 0, 0)`. -/
theorem stateAtDistance_binary64_not_additive :
    ¬ ∃ (m : Libm) (s1 : Binary64.State),
      Binary64.stateAtDistance m ⟨1, 0, 0⟩ (Float64.dyadic 1 53) CourseTypeStraight 1 = .ok s1 ∧
      Binary64.stateAtDistance m s1 (Float64.dyadic 1 53) CourseTypeStraight 1 =
        Binary64.stateAtDistance m ⟨1, 0, 0⟩ (Float64.dyadic 1 53 + Float64.dyadic 1 53)
          CourseTypeStraight 1 := by
  rintro ⟨m, s1, h1, h2⟩
  have e1 : Binary64.stateAtDistance m ⟨1, 0, 0⟩ (Float64.dyadic 1 53) CourseTypeStraight 1 =
      .ok ⟨1, 0, 0⟩ := rfl
  have e2 : Binary64.stateAtDistance m ⟨1, 0, 0⟩ (Float64.dyadic 1 53 + Float64.dyadic 1 53)
      CourseTypeStraight 1 = .ok ⟨Float64.dyadic (2 ^ 52 + 1) 52, 0, 0⟩ := rfl
  rw [e1] at h1
  cases h1
  rw [e1, e2] at h2
  exact absurd (congrArg Binary64.State.X (Except.ok.inj h2)) (by decide)

end

end Dubins
